import Mathlib

/-!
Verification development for the CDL load-distribution engine
(`src/services/balancingAlgorithm.ts` and the connection resolver of
`src/unnamed/part_000`), shallowly embedded in Lean 4.

Modelling conventions:
* JavaScript floating-point numbers are embedded as exact rationals (`ℚ`);
  "within floating-point tolerance" in the specification becomes exact
  equality over `ℚ`.
* String ids of the form `"{gid}_{i}"`, `"{gid}_{i}_p1"`, `"{gid}_{i}_p2"`
  are embedded structurally as `MeterId` (group id, index, optional split
  part); the Arabic display notes `'جزء 1'` / `'جزء 2'` are embedded as
  `Option SplitPart`.  Purely presentational string fields (`typeName`,
  `dedicatedFor`, transformer-type `name`, meter-box labels) are embedded
  as numeric codes or elided; no algorithmic decision reads them.
* JavaScript `Set` fields on breakers become `Finset ℕ` (insertion order
  is never observed by the program).
* In-place mutation through object references becomes functional update
  through list indices (`List.modify`); every search that the source
  resolves to an object reference is embedded as a search returning the
  indices of that object.
* `Array.prototype.sort` (stable since ES2019) with comparator `c` is
  embedded as `List.mergeSort` with `le a b := c a b ≤ 0`.
* The two non-null assertions (`!`) in the placement fallback of
  `performBalancedDistributionMultiTransformer` throw on `null`; the whole
  run is therefore embedded in `Option`, returning `none` exactly when one
  of those assertions would crash the run.
-/

namespace CDL

/-- The two halves of a meter split across two breakers
(`_p1`/`'جزء 1'` and `_p2`/`'جزء 2'` in the source). -/
inductive SplitPart where
  | p1 : SplitPart
  | p2 : SplitPart
deriving DecidableEq, Repr

/-- Structural embedding of the string meter ids
`"{gid}_{idx}"` (part = `none`), `"{gid}_{idx}_p1"`, `"{gid}_{idx}_p2"`. -/
structure MeterId where
  gid : ℕ
  idx : ℕ
  part : Option SplitPart
deriving DecidableEq, Repr

/-- Input unit (`MeterGroup` in `types.ts`).  `type`, `typeName`,
`category` and `timePattern` are opaque codes in the algorithm and are
embedded as `ℕ`. -/
structure MeterGroup where
  id : ℕ
  type : ℕ
  typeName : ℕ
  count : ℕ
  capacity : ℚ
  demandFactor : ℚ
  coincidenceFactor : ℚ
  cdlPerMeter : ℚ
  totalCDL : ℚ
  category : ℕ
  timePattern : ℕ
deriving DecidableEq, Repr

/-- One expanded meter (`IndividualMeter` in `types.ts`): all `MeterGroup`
fields are spread onto it, the id becomes a `MeterId`, and it carries its
own `cdl` and an optional split-part `note`. -/
structure IndividualMeter where
  id : MeterId
  type : ℕ
  typeName : ℕ
  count : ℕ
  capacity : ℚ
  demandFactor : ℚ
  coincidenceFactor : ℚ
  cdlPerMeter : ℚ
  totalCDL : ℚ
  category : ℕ
  timePattern : ℕ
  cdl : ℚ
  note : Option SplitPart
deriving DecidableEq, Repr

/-- `Breaker` of `types.ts`.  The optional `dedicated` flag (absent =
falsy) is a `Bool` defaulting to `false`; the display string
`dedicatedFor` is elided. -/
structure Breaker where
  id : ℕ
  number : ℕ
  load : ℚ
  meters : List IndividualMeter
  utilizationPercent : ℚ
  meterTypes : Finset ℕ
  categories : Finset ℕ
  timePatterns : Finset ℕ
  dedicated : Bool := false
deriving DecidableEq

/-- `TransformerType` of `types.ts` (the display `name` is elided). -/
structure TransformerType where
  capacity : ℚ
  maxCurrent : ℚ
  breakers : ℕ
  maxLoad : ℚ
  safeLoad : ℚ
  minLoad : ℚ
deriving DecidableEq, Repr

/-- `Transformer` of `types.ts` (`isDedicated` optional = falsy ↦ `Bool`
default `false`; display string `dedicatedFor` elided). -/
structure Transformer where
  id : ℕ
  type : TransformerType
  assignedLoad : ℚ
  breakers : List Breaker
  isDedicated : Bool := false
deriving DecidableEq

/-- The fields of `DistributionResults` that carry the plan; the derived
`balanceScore` is `calculateOverallBalanceScore` applied to
`transformers` (see below) and `summary` is a read-only aggregate of the
same data. -/
structure DistributionResults where
  totalLoad : ℚ
  transformers : List Transformer
deriving DecidableEq

/-! ### Constants (`constants.ts`) -/

/-- `export const MAX_BREAKER_CAPACITY = 310`. -/
def MAX_BREAKER_CAPACITY : ℚ := 310

/-- `export const MAX_BREAKER_SAFE_CAPACITY = MAX_BREAKER_CAPACITY * 0.8` (= 248). -/
def MAX_BREAKER_SAFE_CAPACITY : ℚ := MAX_BREAKER_CAPACITY * (8/10)

/-- `{ capacity: 500, maxCurrent: 721, breakers: 4, maxLoad: 576.80, safeLoad: 576.80, minLoad: 216 }` (576.80 = 2884/5). -/
def tType500 : TransformerType :=
  { capacity := 500, maxCurrent := 721, breakers := 4,
    maxLoad := 2884/5, safeLoad := 2884/5, minLoad := 216 }

/-- `{ capacity: 1000, maxCurrent: 1443, breakers: 8, maxLoad: 1154.40, safeLoad: 1154.40, minLoad: 433 }` (1154.40 = 5772/5). -/
def tType1000 : TransformerType :=
  { capacity := 1000, maxCurrent := 1443, breakers := 8,
    maxLoad := 5772/5, safeLoad := 5772/5, minLoad := 433 }

/-- `{ capacity: 1500, maxCurrent: 2164, breakers: 10, maxLoad: 2164.20, safeLoad: 1731.20, minLoad: 800 }` (2164.20 = 10821/5, 1731.20 = 8656/5). -/
def tType1500 : TransformerType :=
  { capacity := 1500, maxCurrent := 2164, breakers := 10,
    maxLoad := 10821/5, safeLoad := 8656/5, minLoad := 800 }

/-- `export const TRANSFORMER_TYPES: TransformerType[]`. -/
def TRANSFORMER_TYPES : List TransformerType := [tType500, tType1000, tType1500]

/-! ### Helper functions of `balancingAlgorithm.ts` -/

/-- Sum of the `cdl` fields of a list of meters
(`meters.reduce((sum, meter) => sum + meter.cdl, 0)`). -/
def metersLoad (ms : List IndividualMeter) : ℚ := (ms.map (·.cdl)).sum

/-- `updateBreakerStats`: recompute `load`, `utilizationPercent` (against
the meter's own capacity for a dedicated breaker holding a single 1600A
or 2500A meter, else against the standard 310A) and the descriptive
sets. -/
def updateBreakerStats (b : Breaker) : Breaker :=
  let load := metersLoad b.meters
  let maxCapacity : ℚ :=
    match b.meters with
    | [m] =>
        if b.dedicated ∧ (m.capacity = 1600 ∨ m.capacity = 2500) then m.capacity else 310
    | _ => 310
  { b with
    load := load
    utilizationPercent := if maxCapacity > 0 then load / maxCapacity * 100 else 0
    meterTypes := (b.meters.map (·.typeName)).toFinset
    categories := (b.meters.map (·.category)).toFinset
    timePatterns := (b.meters.map (·.timePattern)).toFinset }

/-- `updateAllStats`: refresh every breaker's stats and every
transformer's `assignedLoad` (sum of its breakers' loads). -/
def updateAllStats (ts : List Transformer) : List Transformer :=
  ts.map fun t =>
    let bs := t.breakers.map updateBreakerStats
    { t with breakers := bs, assignedLoad := (bs.map (·.load)).sum }

/-- `createNewTransformer`: a fresh transformer of the given type with
`type.breakers` empty breakers numbered from 1. -/
def createNewTransformer (type : TransformerType) (id : ℕ) : Transformer :=
  { id := id, type := type, assignedLoad := 0,
    breakers := (List.range type.breakers).map fun i =>
      { id := i + 1, number := i + 1, load := 0, meters := [],
        utilizationPercent := 0, meterTypes := ∅, categories := ∅,
        timePatterns := ∅, dedicated := false },
    isDedicated := false }

/-- `calculateOverallBalanceScore`: 100 if fewer than two active breakers
of non-dedicated transformers exist, else
`max(0, min(100, 100 − 2·√(mean((uᵢ − avg)²)))` over their stored
utilization percentages. -/
noncomputable def calculateOverallBalanceScore (transformers : List Transformer) : ℝ :=
  let allBreakers :=
    ((transformers.filter fun t => !t.isDedicated).flatMap (·.breakers)).filter
      fun b => decide (0 < b.meters.length)
  if allBreakers.length < 2 then 100
  else
    let utils : List ℝ := allBreakers.map fun b => (b.utilizationPercent : ℝ)
    let avg := utils.sum / (utils.length : ℝ)
    let stdDev := Real.sqrt ((utils.map fun x => (x - avg) ^ 2).sum / (utils.length : ℝ))
    max 0 (min 100 (100 - stdDev * 2))

/-! ### Phase 1: planning (`planTransformersForLoad`) -/

/-- `[...TRANSFORMER_TYPES].sort((a, b) => b.safeLoad - a.safeLoad)`
(descending by safe load). -/
def sortedTypesDesc : List TransformerType :=
  TRANSFORMER_TYPES.mergeSort fun a b => decide (b.safeLoad ≤ a.safeLoad)

/-- `[...TRANSFORMER_TYPES].sort((a, b) => a.safeLoad - b.safeLoad)`
(ascending by safe load). -/
def sortedTypesAsc : List TransformerType :=
  TRANSFORMER_TYPES.mergeSort fun a b => decide (a.safeLoad ≤ b.safeLoad)


/-- Fuelled unfolding of the `while (remainingLoad > largestType.safeLoad)`
loop of `planTransformersForLoad`, with
`largestType = sortedTypesDesc[0] = tType1500` (theorem
`sortedTypesDesc_eq`).  Returns the pushed types together with the final
remaining load. -/
def planLargestLoopF : ℕ → ℚ → List TransformerType × ℚ
  | 0, r => ([], r)
  | fuel + 1, r =>
    if r > tType1500.safeLoad then
      let p := planLargestLoopF fuel (r - tType1500.safeLoad)
      (tType1500 :: p.1, p.2)
    else ([], r)

/-- The `while` loop itself: its iteration count is bounded by
`⌈r / 1731.2⌉` because each iteration subtracts the positive safe load
`1731.2`, so that much fuel (plus one) computes the loop exactly
(theorem `planLargestLoop_unfold`). -/
def planLargestLoop (r : ℚ) : List TransformerType × ℚ :=
  planLargestLoopF ((⌈r / tType1500.safeLoad⌉).toNat + 1) r


/-- `planTransformersForLoad`: multiply the load by the `1.00001` (= 100001/100000) margin,
repeatedly push the largest type while the remainder exceeds its safe
load, then push the smallest type covering the remainder (the largest
type if none covers it). -/
def planTransformersForLoad (load : ℚ) : List TransformerType :=
  let p := planLargestLoop (load * (100001/100000))
  let plannedTypes := p.1
  let remainingLoad := p.2
  if remainingLoad > 0 then
    match sortedTypesAsc.find? (fun t => decide (remainingLoad ≤ t.safeLoad)) with
    | some bestFit => plannedTypes ++ [bestFit]
    | none => plannedTypes ++ [tType1500]
  else plannedTypes

/-! ### Phase 2: placement helpers -/

/-- The accumulator update shared by the searches of the source: keep the
candidate with the strictly smaller score (so the first candidate found
wins ties); the score is the last component. -/
def pickSmaller (best : Option (ℕ × ℕ × ℚ)) (e : ℕ × ℕ × ℚ) : Option (ℕ × ℕ × ℚ) :=
  match best with
  | none => some e
  | some e0 => if e.2.2 < e0.2.2 then some e else some e0

/-- `pickSmaller` for the breaker-pair search's quadruples. -/
def pickSmaller4 (best : Option (ℕ × ℕ × ℕ × ℚ)) (e : ℕ × ℕ × ℕ × ℚ) :
    Option (ℕ × ℕ × ℕ × ℚ) :=
  match best with
  | none => some e
  | some e0 => if e.2.2.2 < e0.2.2.2 then some e else some e0

/-- `findBestBreakerForEvenDistribution`: over non-dedicated transformers
with safe-load headroom and non-dedicated breakers with
`load + meter.cdl ≤ MAX_BREAKER_CAPACITY`, keep the breaker of smallest
`load` (strict improvement, so the first found wins ties).  Returns
`(transformer index, breaker index, score)`. -/
def findBestBreakerForEvenDistribution (meter : IndividualMeter)
    (transformers : List Transformer) : Option (ℕ × ℕ × ℚ) :=
  transformers.enum.foldl
    (fun best (p : ℕ × Transformer) =>
      if p.2.isDedicated = true then best
      else if p.2.assignedLoad + meter.cdl > p.2.type.safeLoad then best
      else
        p.2.breakers.enum.foldl
          (fun best (q : ℕ × Breaker) =>
            if q.2.dedicated = true ∨ q.2.load + meter.cdl > MAX_BREAKER_CAPACITY then
              best
            else pickSmaller best (p.1, q.1, q.2.load))
          best)
    none

/-- All ordered pairs `(l[i], l[j])` with `i < j`, in the iteration order
of the double loop of `findBestBreakerPairForEvenDistribution`. -/
def orderedPairs {α : Type} : List α → List (α × α)
  | [] => []
  | x :: xs => (xs.map fun y => (x, y)) ++ orderedPairs xs

/-- `findBestBreakerPairForEvenDistribution`: over non-dedicated
transformers with safe-load headroom, take the non-dedicated breakers
that can absorb half the meter's cdl, and keep the pair with the smallest
combined current load (strict improvement, first found wins ties).
Returns `(transformer index, first breaker index, second breaker index,
score)`. -/
def findBestBreakerPairForEvenDistribution (meter : IndividualMeter)
    (transformers : List Transformer) : Option (ℕ × ℕ × ℕ × ℚ) :=
  let halfLoad := meter.cdl / 2
  transformers.enum.foldl
    (fun best (p : ℕ × Transformer) =>
      let ti := p.1
      let parent := p.2
      if parent.isDedicated then best
      else if parent.assignedLoad + meter.cdl > parent.type.safeLoad then best
      else
        let availableSlots := parent.breakers.enum.filter fun q =>
          !q.2.dedicated && decide (q.2.load + halfLoad ≤ MAX_BREAKER_CAPACITY)
        if availableSlots.length < 2 then best
        else
          (orderedPairs availableSlots).foldl
            (fun best pr =>
              pickSmaller4 best (ti, pr.1.1, pr.2.1, pr.1.2.load + pr.2.2.load))
            best)
    none

/-- `addBestFitTransformerForMeter`: append a transformer of the smallest
type whose safe load covers the meter's cdl (the largest catalog type if
none does) and bump the id counter. -/
def addBestFitTransformerForMeter (meter : IndividualMeter)
    (transformers : List Transformer) (transformerIdCounter : ℕ) :
    List Transformer × ℕ :=
  let bestFitType :=
    (sortedTypesAsc.find? fun t => decide (meter.cdl ≤ t.safeLoad)).getD tType1500
  (transformers ++ [createNewTransformer bestFitType transformerIdCounter],
   transformerIdCounter + 1)

/-- Append a meter to the meter list of breaker `bi` of transformer `ti`
(the JS `breaker.meters.push(meter)` through the reference returned by a
search). -/
def pushMeterAt (ts : List Transformer) (ti bi : ℕ) (m : IndividualMeter) :
    List Transformer :=
  List.modify
    (fun t => { t with breakers := List.modify (fun b => { b with meters := b.meters ++ [m] }) bi t.breakers })
    ti ts

/-- One half of a split meter: id suffixed `_p1`/`_p2`, half the cdl, and
the corresponding note. -/
def splitHalf (meter : IndividualMeter) (p : SplitPart) : IndividualMeter :=
  { meter with id := { meter.id with part := some p }, cdl := meter.cdl / 2, note := some p }

/-- Push the two halves of a split meter onto the breaker pair returned by
`findBestBreakerPairForEvenDistribution`. -/
def pushPair (ts : List Transformer) (r : ℕ × ℕ × ℕ × ℚ) (meter : IndividualMeter) :
    List Transformer :=
  pushMeterAt (pushMeterAt ts r.1 r.2.1 (splitHalf meter SplitPart.p1))
    r.1 r.2.2.1 (splitHalf meter SplitPart.p2)

/-- The body of the `metersToPlace.forEach` loop: try the pair search for
split-range meters (capacity in [400, 800]) or the single-breaker search
otherwise; on failure add a best-fit transformer and search again, where
the source's non-null assertion (`!`) becomes `none` on failure.  Stats
are refreshed at the end of every iteration. -/
def placeOneMeter (meter : IndividualMeter) (st : List Transformer × ℕ) :
    Option (List Transformer × ℕ) :=
  let ts := st.1
  let counter := st.2
  let attempt : Option (List Transformer) :=
    if 400 ≤ meter.capacity ∧ meter.capacity ≤ 800 then
      (findBestBreakerPairForEvenDistribution meter ts).map fun r => pushPair ts r meter
    else
      (findBestBreakerForEvenDistribution meter ts).map fun r => pushMeterAt ts r.1 r.2.1 meter
  match attempt with
  | some ts2 => some (updateAllStats ts2, counter)
  | none =>
      let fb := addBestFitTransformerForMeter meter ts counter
      if 400 ≤ meter.capacity ∧ meter.capacity ≤ 800 then
        match findBestBreakerPairForEvenDistribution meter fb.1 with
        | some r => some (updateAllStats (pushPair fb.1 r meter), fb.2)
        | none => none
      else
        match findBestBreakerForEvenDistribution meter fb.1 with
        | some r => some (updateAllStats (pushMeterAt fb.1 r.1 r.2.1 meter), fb.2)
        | none => none

/-- The comparator of the `metersToPlace` sort: split-range (dual) meters
first, then cdl descending. -/
def placeOrder (a b : IndividualMeter) : Bool :=
  let isADual := decide (400 ≤ a.capacity ∧ a.capacity ≤ 800)
  let isBDual := decide (400 ≤ b.capacity ∧ b.capacity ≤ 800)
  if isADual ≠ isBDual then isADual else decide (b.cdl ≤ a.cdl)

/-! ### Phase 3: internal balancing and consolidation -/

/-- Replace the meter list of breaker `bi` of a transformer. -/
def setBreakerMeters (t : Transformer) (bi : ℕ) (ms : List IndividualMeter) : Transformer :=
  { t with breakers := List.modify (fun b => { b with meters := ms }) bi t.breakers }

/-- Recompute the stats of breaker `bi` of a transformer
(`updateBreakerStats` through a reference). -/
def updateBreakerAt (t : Transformer) (bi : ℕ) : Transformer :=
  { t with breakers := List.modify updateBreakerStats bi t.breakers }

/-- One-round-at-a-time unfolding of the `for (let i = 0; i < 5; i++)`
loop of `balanceTransformerInternally`.  Note that the in-place
`mostLoaded.meters.sort(...)` leaves the most-loaded breaker's meter list
cdl-sorted even when the round then stops. -/
def balanceRounds : ℕ → Transformer → Transformer
  | 0, t => t
  | n + 1, t =>
    let eligible := t.breakers.enum.filter fun s =>
      decide (0 < s.2.meters.length) && !s.2.dedicated
    let sorted := eligible.mergeSort fun a b => decide (a.2.load ≤ b.2.load)
    match sorted with
    | [] => t
    | [_] => t
    | s0 :: s1 :: rest =>
      let leastLoaded := s0
      let mostLoaded := (s1 :: rest).getLast (List.cons_ne_nil s1 rest)
      if mostLoaded.2.load - leastLoaded.2.load < 20 then t
      else
        let sortedMeters := mostLoaded.2.meters.mergeSort fun a b => decide (a.cdl ≤ b.cdl)
        let t1 := setBreakerMeters t mostLoaded.1 sortedMeters
        match sortedMeters.find? fun m =>
            decide (leastLoaded.2.load + m.cdl ≤ MAX_BREAKER_CAPACITY) with
        | some movableMeter =>
            let t2 := setBreakerMeters t1 mostLoaded.1
              (sortedMeters.filter fun m => decide (m.id ≠ movableMeter.id))
            let t3 := setBreakerMeters t2 leastLoaded.1
              (leastLoaded.2.meters ++ [movableMeter])
            let t4 := updateBreakerAt (updateBreakerAt t3 mostLoaded.1) leastLoaded.1
            balanceRounds n t4
        | none => t1

/-- `balanceTransformerInternally`: skip dedicated transformers, else run
at most 5 rebalancing rounds. -/
def balanceTransformerInternally (t : Transformer) : Transformer :=
  if t.isDedicated then t else balanceRounds 5 t

/-- A collected single-meter source breaker of
`consolidateSingleMeterBreakers` (indices for mutation, ids for the
comparisons the source performs on ids, load as the sort key). -/
structure SingleSrc where
  ti : ℕ
  bi : ℕ
  parentId : ℕ
  breakerId : ℕ
  load : ℚ
  meter : IndividualMeter
deriving DecidableEq

/-- Collect the non-dedicated breakers holding exactly one meter of
capacity in [20, 300]. -/
def collectSingles (ts : List Transformer) : List SingleSrc :=
  ts.enum.flatMap fun p =>
    p.2.breakers.enum.filterMap fun q =>
      match q.2.meters with
      | [m] =>
          if !q.2.dedicated && decide (20 ≤ m.capacity) && decide (m.capacity ≤ 300) then
            some ⟨p.1, q.1, p.2.id, q.2.id, q.2.load, m⟩
          else none
      | _ => none

/-- The target search of the consolidation pass: a non-dedicated,
non-empty breaker (other than the source, compared by ids) on a
non-dedicated transformer (headroom checked only when the transformer
differs from the source's, again by id) with room under
`MAX_BREAKER_CAPACITY`; least loaded wins, first found on ties. -/
def findConsolidationTarget (meter : IndividualMeter) (srcParentId srcBreakerId : ℕ)
    (ts : List Transformer) : Option (ℕ × ℕ × ℚ) :=
  ts.enum.foldl
    (fun best (p : ℕ × Transformer) =>
      let ti := p.1
      let targetParent := p.2
      if targetParent.isDedicated then best
      else if targetParent.id ≠ srcParentId ∧
          targetParent.assignedLoad + meter.cdl > targetParent.type.safeLoad then best
      else
        targetParent.breakers.enum.foldl
          (fun best (q : ℕ × Breaker) =>
            if (q.2.id = srcBreakerId ∧ targetParent.id = srcParentId) ∨
                q.2.dedicated = true ∨ q.2.meters.length = 0 then best
            else if q.2.load + meter.cdl ≤ MAX_BREAKER_CAPACITY then
              pickSmaller best (ti, q.1, q.2.load)
            else best)
          best)
    none

/-- Replace the meter list of breaker `bi` of transformer `ti` in a state. -/
def setBreakerMetersIn (ts : List Transformer) (ti bi : ℕ) (ms : List IndividualMeter) :
    List Transformer :=
  List.modify (fun t => setBreakerMeters t bi ms) ti ts

/-- Perform one consolidation move: push the meter onto the target
breaker, empty the source breaker, refresh all stats. -/
def applyConsolidation (ts : List Transformer) (src : SingleSrc) (tgt : ℕ × ℕ × ℚ) :
    List Transformer :=
  updateAllStats (setBreakerMetersIn (pushMeterAt ts tgt.1 tgt.2.1 src.meter) src.ti src.bi [])

/-- Try the collected sources in sorted order and perform the first
possible move (`break` after a success in the source). -/
def trySources : List SingleSrc → List Transformer → Option (List Transformer)
  | [], _ => none
  | src :: rest, ts =>
    match findConsolidationTarget src.meter src.parentId src.breakerId ts with
    | some tgt => some (applyConsolidation ts src tgt)
    | none => trySources rest ts

/-- The `while (moved && iterations < maxIterations)` loop of
`consolidateSingleMeterBreakers`, fuelled by the remaining iterations. -/
def consolidateLoop : ℕ → List Transformer → List Transformer
  | 0, ts => ts
  | fuel + 1, ts =>
    let singles := collectSingles ts
    if singles.isEmpty then ts
    else
      let sorted := singles.mergeSort fun a b => decide (a.load ≤ b.load)
      match trySources sorted ts with
      | some ts2 => consolidateLoop fuel ts2
      | none => ts

/-- `consolidateSingleMeterBreakers` with its iteration cap of 20. -/
def consolidateSingleMeterBreakers (ts : List Transformer) : List Transformer :=
  consolidateLoop 20 ts

/-- The tail of the main algorithm after meter placement: internal
balancing with a stat refresh, consolidation, the active-transformer
filter, renumbering from 1, and a final stat refresh. -/
def finishStages (ts : List Transformer) : List Transformer :=
  updateAllStats
    (((consolidateSingleMeterBreakers
        (updateAllStats (ts.map balanceTransformerInternally))).filter fun t =>
          t.breakers.any (fun b => decide (0 < b.meters.length)) || t.isDedicated).enum.map
      fun p => { p.2 with id := p.1 + 1 })

/-! ### The main distribution algorithm -/

/-- The meter expansion inside `performBalancedDistributionMultiTransformer`:
`Array.from({length: group.count}, (_, i) => ({...group, id: "{gid}_{i}", cdl: group.cdlPerMeter}))`. -/
def expandGroup (g : MeterGroup) : List IndividualMeter :=
  (List.range g.count).map fun i =>
    { id := ⟨g.id, i, none⟩, type := g.type, typeName := g.typeName, count := g.count,
      capacity := g.capacity, demandFactor := g.demandFactor,
      coincidenceFactor := g.coincidenceFactor, cdlPerMeter := g.cdlPerMeter,
      totalCDL := g.totalCDL, category := g.category, timePattern := g.timePattern,
      cdl := g.cdlPerMeter, note := none }

/-- Step 1 of the main algorithm: a dedicated single-main-breaker
transformer for a meter of capacity ≥ 1600A.  On the concrete catalog,
`TRANSFORMER_TYPES.find(t => t.capacity === 1000)! = tType1000` and
`TRANSFORMER_TYPES.find(t => t.capacity === 1500)! = tType1500`
(theorems `find_capacity_1000` / `find_capacity_1500`). -/
def mkDedicatedTransformer (meter : IndividualMeter) (id : ℕ) : Transformer :=
  let selectedType := if meter.capacity = 1600 then tType1000 else tType1500
  { id := id, type := selectedType, assignedLoad := 0,
    breakers := [{ id := 1, number := 1, load := 0, meters := [meter],
                   utilizationPercent := 0, meterTypes := ∅, categories := ∅,
                   timePatterns := ∅, dedicated := true }],
    isDedicated := true }


/-- `performBalancedDistributionMultiTransformer`: the full run, returning
`none` exactly when one of the source's non-null placement assertions
would throw.  The returned structure carries `totalLoad` and the final
`transformers`; the source's `balanceScore` field is
`calculateOverallBalanceScore` of those transformers. -/
def performBalancedDistributionMultiTransformer (meterGroups : List MeterGroup) :
    Option DistributionResults :=
  let totalLoadAll := (meterGroups.map (·.totalCDL)).sum
  let individualMeters := meterGroups.flatMap expandGroup
  let dedicatedMeters := individualMeters.filter fun m => decide (1600 ≤ m.capacity)
  let generalMeters := individualMeters.filter fun m => decide (m.capacity < 1600)
  let generalMetersTotalLoad := (generalMeters.map (·.cdl)).sum
  let st1 : List Transformer × ℕ :=
    dedicatedMeters.foldl
      (fun (st : List Transformer × ℕ) m => (st.1 ++ [mkDedicatedTransformer m st.2], st.2 + 1))
      ([], 1)
  let plannedTypes := planTransformersForLoad generalMetersTotalLoad
  let st2 : List Transformer × ℕ :=
    plannedTypes.foldl
      (fun (st : List Transformer × ℕ) ty => (st.1 ++ [createNewTransformer ty st.2], st.2 + 1))
      st1
  let metersToPlace := generalMeters.mergeSort placeOrder
  (metersToPlace.foldlM (fun st m => placeOneMeter m st) st2).map fun st3 =>
    let ts4 := updateAllStats (st3.1.map balanceTransformerInternally)
    let ts5 := consolidateSingleMeterBreakers ts4
    let active := ts5.filter fun t =>
      t.breakers.any (fun b => decide (0 < b.meters.length)) || t.isDedicated
    let renumbered := active.enum.map fun p => { p.2 with id := p.1 + 1 }
    let final := updateAllStats renumbered
    { totalLoad := totalLoadAll, transformers := final }

/-! ### The connection resolver (`calculateFinalConnections` and helpers) -/

/-- The id of a `ProcessedBreaker`: the source uses either the base meter
id string (for a recombined split pair) or the string `"t{tid}-b{bid}"`;
the two string shapes never collide, which the embedding makes
structural. -/
inductive PBId where
  | meterBase : MeterId → PBId
  | tb : ℕ → ℕ → PBId
deriving DecidableEq, Repr

/-- `ProcessedBreaker`: the `transformer` reference is kept through the
only field the resolver reads from it (`transformer.id`); the `number`
string (`"n"` or `"n1 & n2"`) is kept as its leading number plus the
optional second number. -/
structure ProcessedBreaker where
  id : PBId
  tid : ℕ
  lead : ℕ
  second : Option ℕ
  meters : List IndividualMeter
deriving DecidableEq, Repr

/-- `id.replace('_p1', '')` on the structural id shape. -/
def stripP1 (i : MeterId) : MeterId :=
  if i.part = some SplitPart.p1 then { i with part := none } else i

/-- `id.replace('_p2', '')` on the structural id shape. -/
def stripP2 (i : MeterId) : MeterId :=
  if i.part = some SplitPart.p2 then { i with part := none } else i

/-- `transformers.flatMap(t => t.breakers.map(b => ({...b, transformer: t})))`. -/
def allBreakersWithTransformer (transformers : List Transformer) :
    List (Transformer × Breaker) :=
  transformers.flatMap fun t => t.breakers.map fun b => (t, b)

/-- The insertion sequence of the `part1Meters` map: one entry per meter
noted `'جزء 1'`, in traversal order, keyed by the stripped base id. -/
def part1Entries (allB : List (Transformer × Breaker)) :
    List (MeterId × Transformer × Breaker × IndividualMeter) :=
  allB.flatMap fun p =>
    (p.2.meters.filter fun m => m.note = some SplitPart.p1).map fun m =>
      (stripP1 m.id, p.1, p.2, m)

/-- `part1Meters.get(base)`: a JS `Map` keeps the latest `set` per key, so
the lookup returns the last entry with the given base id. -/
def part1Lookup (entries : List (MeterId × Transformer × Breaker × IndividualMeter))
    (base : MeterId) : Option (MeterId × Transformer × Breaker × IndividualMeter) :=
  entries.reverse.find? fun e => e.1 = base

/-- The first pass of `getProcessedBreakers`: for each not-yet-handled
breaker whose meter list contains a meter noted `'جزء 2'` (the first such
meter), look up the `'جزء 1'` sibling by base id; on a hit, mark both
breakers' keys handled and emit the merged logical group with the
reconstituted meter.  Returns (handled keys, emitted groups). -/
def recombinePass (allB : List (Transformer × Breaker))
    (entries : List (MeterId × Transformer × Breaker × IndividualMeter)) :
    List (ℕ × ℕ) × List ProcessedBreaker :=
  allB.foldl
    (fun st p =>
      let t := p.1
      let b := p.2
      let key := (t.id, b.id)
      if key ∈ st.1 then st
      else
        match b.meters.find? fun m => m.note = some SplitPart.p2 with
        | none => st
        | some part2Meter =>
          let baseId := stripP2 part2Meter.id
          match part1Lookup entries baseId with
          | none => st
          | some e =>
            let t1 := e.2.1
            let b1 := e.2.2.1
            let meter1 := e.2.2.2
            let key1 := (t1.id, b1.id)
            let originalMeter : IndividualMeter :=
              { meter1 with id := baseId, cdl := meter1.cdl + part2Meter.cdl, note := none }
            let allMetersInPair :=
              originalMeter ::
                ((b1.meters.filter fun m => decide (m.id ≠ meter1.id)) ++
                  (b.meters.filter fun m => decide (m.id ≠ part2Meter.id)))
            (st.1 ++ [key1, key],
             st.2 ++ [{ id := PBId.meterBase baseId, tid := t1.id, lead := b1.number,
                        second := some b.number, meters := allMetersInPair }]))
    ([], [])

/-- The comparator of the final `processedBreakers.sort`: transformer id
first, then the leading breaker number (`parseInt` of the part before
`'&'`). -/
def processedOrder (a b : ProcessedBreaker) : Bool :=
  if a.tid = b.tid then decide (a.lead ≤ b.lead) else decide (a.tid ≤ b.tid)

/-- `getProcessedBreakers`: recombine split pairs into logical breakers,
emit the remaining non-empty unconsumed breakers as their own groups, and
sort by transformer id then leading breaker number. -/
def getProcessedBreakers (transformers : List Transformer) : List ProcessedBreaker :=
  let allB := allBreakersWithTransformer transformers
  let entries := part1Entries allB
  let pass1 := recombinePass allB entries
  let handledBreakers := pass1.1
  let withRest :=
    allB.foldl
      (fun acc p =>
        if (p.1.id, p.2.id) ∈ handledBreakers ∨ p.2.meters.length = 0 then acc
        else
          acc ++ [{ id := PBId.tb p.1.id p.2.id, tid := p.1.id, lead := p.2.number,
                    second := none, meters := p.2.meters }])
      pass1.2
  withRest.mergeSort processedOrder

/-- `'DP'` / `'SS'` feed source. -/
inductive FeedSource where
  | DP : FeedSource
  | SS : FeedSource
deriving DecidableEq, Repr

/-- `ConnectionConfig` with the cable size in mm² as a number; the display
string `mainFeederInfo` is elided. -/
structure ConnectionConfig where
  source : FeedSource
  fuses : ℕ
  customerCableCount : ℕ
  customerCableSize : ℕ
deriving DecidableEq, Repr

/-- `getDPConfig`: fixed CDL breakpoints for distribution-panel feeds. -/
def getDPConfig (cdl : ℚ) : ConnectionConfig :=
  if cdl ≤ 108 then ⟨FeedSource.DP, 1, 1, 70⟩
  else if cdl ≤ 184 then ⟨FeedSource.DP, 1, 1, 185⟩
  else if cdl ≤ 216 then ⟨FeedSource.DP, 2, 2, 70⟩
  else ⟨FeedSource.DP, 2, 2, 185⟩

/-- `getSSConfig`: fixed CDL breakpoints for substation feeds, with
`ceil(cdl / 248)` cables above 496A. -/
def getSSConfig (cdl : ℚ) : ConnectionConfig :=
  if cdl ≤ 248 then ⟨FeedSource.SS, 1, 1, 300⟩
  else if cdl ≤ 496 then ⟨FeedSource.SS, 2, 2, 300⟩
  else
    let cableCount := (⌈cdl / 248⌉).toNat
    ⟨FeedSource.SS, cableCount, cableCount, 300⟩

/-- A bin of the whole-current best-fit packing (`{ meters, load }`). -/
structure Bin where
  meters : List IndividualMeter
  load : ℚ
deriving DecidableEq, Repr

/-- `const MAX_LOAD_PER_CONNECTION = 248` in `calculateFinalConnections`. -/
def MAX_LOAD_PER_CONNECTION : ℚ := 248

/-- The inner search of the best-fit packing loop: the open bin with the
smallest remaining headroom (`MAX_LOAD_PER_CONNECTION − load`, strict
improvement, so the first such bin wins ties) that still fits the
meter. -/
def bestBinSearch (bins : List Bin) (meter : IndividualMeter) : Option (ℕ × ℚ) :=
  bins.enum.foldl
    (fun (best : Option (ℕ × ℚ)) p =>
      let remainingSpace := MAX_LOAD_PER_CONNECTION - p.2.load
      match best with
      | none =>
          if meter.cdl ≤ remainingSpace then some (p.1, remainingSpace) else none
      | some q =>
          if meter.cdl ≤ remainingSpace ∧ remainingSpace < q.2 then
            some (p.1, remainingSpace)
          else best)
    none

/-- One iteration of the best-fit packing loop: add the meter to the best
fitting bin, else open a new bin holding just the meter. -/
def bestFitStep (bins : List Bin) (meter : IndividualMeter) : List Bin :=
  match bestBinSearch bins meter with
  | some ib =>
      List.modify
        (fun bin => { meters := bin.meters ++ [meter], load := bin.load + meter.cdl })
        ib.1 bins
  | none => bins ++ [{ meters := [meter], load := meter.cdl }]

/-- The best-fit packing loop of `calculateFinalConnections`. -/
def bestFitBins (sortedMeters : List IndividualMeter) : List Bin :=
  sortedMeters.foldl bestFitStep []

/-- The whole-current (light-tier) grouping: sort descending by cdl, then
best-fit pack. -/
def wholeCurrentBins (wholeCurrentMeters : List IndividualMeter) : List Bin :=
  bestFitBins (wholeCurrentMeters.mergeSort fun a b => decide (b.cdl ≤ a.cdl))

/-- `FinalConnection` restricted to the algorithmic fields: transformer
id, breaker number (lead and optional second of a merged pair), the DP
outlet allotment (`none` for SS feeds, else first outlet number and
whether a second consecutive outlet is consumed), total CDL, member
meters and the feed configuration.  Display strings (names, meter-box
labels) are elided. -/
structure FinalConnection where
  tid : ℕ
  lead : ℕ
  second : Option ℕ
  dpOutlet : Option (ℕ × Bool)
  totalCDL : ℚ
  meters : List IndividualMeter
  config : ConnectionConfig
deriving DecidableEq, Repr

/-- The per-logical-breaker body of `calculateFinalConnections`: classify
meters into heavy (≥ 300A, fed from SS), medium (200–250A band, i.e.
capacity in [200, 300), individually fed from DP) and whole-current
(capacity < 200, grouped on DP outlets by best-fit bins); the DP outlet
counter starts at 1 per logical breaker and advances by 2 when the
configuration needs two cables. -/
def connectionsForBreaker (pb : ProcessedBreaker) : List FinalConnection :=
  let heavy := pb.meters.filter fun m => decide (300 ≤ m.capacity)
  let medium := pb.meters.filter fun m =>
    !decide (300 ≤ m.capacity) && decide (200 ≤ m.capacity)
  let wholeCurrent := pb.meters.filter fun m =>
    !decide (300 ≤ m.capacity) && !decide (200 ≤ m.capacity)
  let heavyConns := heavy.map fun m =>
    { tid := pb.tid, lead := pb.lead, second := pb.second, dpOutlet := none,
      totalCDL := m.cdl, meters := [m], config := getSSConfig m.cdl : FinalConnection }
  let dpStep := fun (st : ℕ × List FinalConnection) (totalCDL : ℚ) (ms : List IndividualMeter) =>
    let config := getDPConfig totalCDL
    if config.customerCableCount = 2 then
      (st.1 + 2,
       st.2 ++ [{ tid := pb.tid, lead := pb.lead, second := pb.second,
                  dpOutlet := some (st.1, true), totalCDL := totalCDL, meters := ms,
                  config := config : FinalConnection }])
    else
      (st.1 + 1,
       st.2 ++ [{ tid := pb.tid, lead := pb.lead, second := pb.second,
                  dpOutlet := some (st.1, false), totalCDL := totalCDL, meters := ms,
                  config := config : FinalConnection }])
  let afterBins :=
    if wholeCurrent.length > 0 then
      (wholeCurrentBins wholeCurrent).foldl
        (fun st bin => dpStep st bin.load bin.meters) (1, [])
    else (1, [])
  let afterMedium :=
    (medium.mergeSort fun a b => decide (b.cdl ≤ a.cdl)).foldl
      (fun st m => dpStep st m.cdl [m]) afterBins
  heavyConns ++ afterMedium.2

/-- `calculateFinalConnections`: resolve the balanced plan into physical
connections, one logical breaker at a time. -/
def calculateFinalConnections (transformers : List Transformer) : List FinalConnection :=
  (getProcessedBreakers transformers).flatMap connectionsForBreaker

/-! ### Specification-side definitions

These definitions follow the wording of the specification (not the
source); each is compared with the corresponding source-derived
definition in the theorems below. -/

/-- Fuelled form of `specPlanRule` below. -/
def specPlanRuleF : ℕ → ℚ → List TransformerType
  | 0, _ => []
  | fuel + 1, r =>
    if r ≤ 0 then []
    else
      match sortedTypesAsc.find? fun t => decide (r ≤ t.safeLoad) with
      | some t => t :: specPlanRuleF fuel (r - t.safeLoad)
      | none => tType1500 :: specPlanRuleF fuel (r - tType1500.safeLoad)

/-- The planning rule as the specification words it: while load remains,
select the smallest catalog type whose safe load covers the entire
remaining load (the largest type if none does), subtract the chosen
type's safe load, and repeat.  Each step subtracts at least the smallest
safe load `576.8`, so `⌈r / 576.8⌉ + 1` fuel computes the rule exactly. -/
def specPlanRule (r : ℚ) : List TransformerType :=
  specPlanRuleF ((⌈r / tType500.safeLoad⌉).toNat + 1) r

/-- The tail of `planTransformersForLoad` as a function of the remaining
load after the margin multiplication (so that
`planTransformersForLoad load = planFromRemaining (load * 1.00001)`
holds by definition). -/
def planFromRemaining (r : ℚ) : List TransformerType :=
  let p := planLargestLoop r
  if p.2 > 0 then
    match sortedTypesAsc.find? fun t => decide (p.2 ≤ t.safeLoad) with
    | some bestFit => p.1 ++ [bestFit]
    | none => p.1 ++ [tType1500]
  else p.1

/-- The balance score exactly as the specification words it:
`clamp(100 − 2·stdDev(utilization across non-dedicated active breakers), 0, 100)`,
with the dedication filter on the *breakers* (the source filters on the
transformers instead), and 100 when fewer than two such breakers
exist. -/
noncomputable def claimBalanceScore (transformers : List Transformer) : ℝ :=
  let claimBreakers :=
    (transformers.flatMap (·.breakers)).filter fun b =>
      !b.dedicated && decide (0 < b.meters.length)
  if claimBreakers.length < 2 then 100
  else
    let utils : List ℝ := claimBreakers.map fun b => (b.utilizationPercent : ℝ)
    let avg := utils.sum / (utils.length : ℝ)
    let stdDev := Real.sqrt ((utils.map fun x => (x - avg) ^ 2).sum / (utils.length : ℝ))
    max 0 (min 100 (100 - stdDev * 2))

/-- One merge decision of the recombination pass, as the (amended)
specification words it: take the first meter of the breaker noted
`'جزء 2'`, look the `'جزء 1'` sibling up by base id in the global map
(latest entry per base id, over all transformers), and merge: the keys of
the sibling's breaker and of this breaker are consumed, and a logical
group keyed by the base id is emitted holding the reconstituted meter
(cdl the sum of the two halves) followed by both breakers' remaining
meters.  Returns (consumed key of the part-1 breaker, consumed key of
this breaker, emitted group). -/
def specMergeGroup (p : Transformer × Breaker) (part2Meter : IndividualMeter)
    (e : MeterId × Transformer × Breaker × IndividualMeter) : ProcessedBreaker :=
  let baseId := stripP2 part2Meter.id
  let meter1 := e.2.2.2
  let originalMeter : IndividualMeter :=
    { meter1 with id := baseId, cdl := meter1.cdl + part2Meter.cdl, note := none }
  { id := PBId.meterBase baseId, tid := e.2.1.id, lead := e.2.2.1.number,
    second := some p.2.number,
    meters := originalMeter ::
      ((e.2.2.1.meters.filter fun m => decide (m.id ≠ meter1.id)) ++
        (p.2.meters.filter fun m => decide (m.id ≠ part2Meter.id))) }

/-- The merge decision proper: first part-2 meter of the breaker, global
base-id lookup, consumed keys and emitted group. -/
def specMergeData (entries : List (MeterId × Transformer × Breaker × IndividualMeter))
    (p : Transformer × Breaker) :
    Option ((ℕ × ℕ) × (ℕ × ℕ) × ProcessedBreaker) :=
  match p.2.meters.find? fun m => m.note = some SplitPart.p2 with
  | none => none
  | some part2Meter =>
    match part1Lookup entries (stripP2 part2Meter.id) with
    | none => none
    | some e =>
      some ((e.2.1.id, e.2.2.1.id), (p.1.id, p.2.id), specMergeGroup p part2Meter e)

/-- The breaker keys the specification's recombination pass consumes. -/
def specHandled (allB : List (Transformer × Breaker))
    (entries : List (MeterId × Transformer × Breaker × IndividualMeter)) : List (ℕ × ℕ) :=
  allB.flatMap fun p =>
    match specMergeData entries p with
    | some d => [d.1, d.2.1]
    | none => []

/-- The merged logical groups the specification's recombination pass
emits, one per breaker holding a recombinable part-2 meter, in traversal
order. -/
def specPass1 (allB : List (Transformer × Breaker))
    (entries : List (MeterId × Transformer × Breaker × IndividualMeter)) :
    List ProcessedBreaker :=
  allB.filterMap fun p => (specMergeData entries p).map (·.2.2)

/-- The second pass as the specification words it: every unconsumed
non-empty breaker becomes its own logical group. -/
def specRest (allB : List (Transformer × Breaker)) (handled : List (ℕ × ℕ)) :
    List ProcessedBreaker :=
  allB.filterMap fun p =>
    if (p.1.id, p.2.id) ∈ handled ∨ p.2.meters.length = 0 then none
    else some { id := PBId.tb p.1.id p.2.id, tid := p.1.id, lead := p.2.number,
                second := none, meters := p.2.meters }

/-- `getProcessedBreakers` as the (amended) specification describes it:
recombined groups first, then the unconsumed non-empty breakers, sorted
by transformer id and leading breaker number. -/
def specProcessedBreakers (ts : List Transformer) : List ProcessedBreaker :=
  let allB := allBreakersWithTransformer ts
  let entries := part1Entries allB
  (specPass1 allB entries ++ specRest allB (specHandled allB entries)).mergeSort
    processedOrder

/-- Pairwise distinct `(transformer id, breaker id)` keys — what the
source's string keys `"t{t.id}-b{b.id}"` assume. -/
def breakerKeysNodup (ts : List Transformer) : Prop :=
  ((allBreakersWithTransformer ts).map fun p => (p.1.id, p.2.id)).Nodup

/-- Every breaker holds at most one split-noted meter. -/
def onePartNotedPerBreaker (ts : List Transformer) : Prop :=
  ∀ p ∈ allBreakersWithTransformer ts,
    ((p.2.meters.filter fun m => decide (m.note ≠ none)).length ≤ 1)

/-- First element minimising `f` (strict improvement keeps the earliest). -/
def firstMinBy {α : Type} (f : α → ℚ) (l : List α) : Option α :=
  l.foldl
    (fun best x =>
      match best with
      | none => some x
      | some b => if f x < f b then some x else best)
    none

/-- Last element maximising `f` (non-strict improvement keeps the latest). -/
def lastMaxBy {α : Type} (f : α → ℚ) (l : List α) : Option α :=
  l.foldl
    (fun best x =>
      match best with
      | none => some x
      | some b => if f b ≤ f x then some x else best)
    none

/-- The eligible positions of the single-breaker placement search, as the
specification describes eligibility, in iteration order:
`(transformer index, breaker index, current load)` for every
non-dedicated breaker of a non-dedicated transformer with safe-load
headroom such that `load + meter.cdl ≤ MAX_BREAKER_CAPACITY`. -/
def eligiblePositions (meter : IndividualMeter) (transformers : List Transformer) :
    List (ℕ × ℕ × ℚ) :=
  transformers.enum.flatMap fun p =>
    if p.2.isDedicated = true ∨ p.2.assignedLoad + meter.cdl > p.2.type.safeLoad then []
    else
      p.2.breakers.enum.filterMap fun q =>
        if q.2.dedicated = true ∨ q.2.load + meter.cdl > MAX_BREAKER_CAPACITY then none
        else some (p.1, q.1, q.2.load)

/-- The candidate pairs of the pair placement search, in iteration order:
for each admissible transformer, all ordered pairs of its admissible
slots, tagged `(transformer index, first breaker index, second breaker
index, combined load)`. -/
def pairCandidates (meter : IndividualMeter) (transformers : List Transformer) :
    List (ℕ × ℕ × ℕ × ℚ) :=
  let halfLoad := meter.cdl / 2
  transformers.enum.flatMap fun p =>
    if p.2.isDedicated = true ∨ p.2.assignedLoad + meter.cdl > p.2.type.safeLoad then []
    else
      let availableSlots := p.2.breakers.enum.filter fun q =>
        !q.2.dedicated && decide (q.2.load + halfLoad ≤ MAX_BREAKER_CAPACITY)
      if availableSlots.length < 2 then []
      else (orderedPairs availableSlots).map fun pr =>
        (p.1, pr.1.1, pr.2.1, pr.1.2.load + pr.2.2.load)

/-- The candidate targets of the consolidation search, in iteration
order: non-dedicated breakers holding at least one meter (other than the
source breaker, compared by ids) on non-dedicated transformers
(transformer headroom checked only when the transformer id differs from
the source's) with room under `MAX_BREAKER_CAPACITY`. -/
def consCandidates (meter : IndividualMeter) (srcParentId srcBreakerId : ℕ)
    (ts : List Transformer) : List (ℕ × ℕ × ℚ) :=
  ts.enum.flatMap fun p =>
    if p.2.isDedicated = true then []
    else if p.2.id ≠ srcParentId ∧ p.2.assignedLoad + meter.cdl > p.2.type.safeLoad then []
    else
      p.2.breakers.enum.filterMap fun q =>
        if (q.2.id = srcBreakerId ∧ p.2.id = srcParentId) ∨ q.2.dedicated = true ∨
            q.2.meters.length = 0 then none
        else if q.2.load + meter.cdl ≤ MAX_BREAKER_CAPACITY then
          some (p.1, q.1, q.2.load)
        else none

/-- One rebalancing round as the specification (amended to the source's
`MAX_BREAKER_CAPACITY` ceiling) words it: take the least-loaded (first on
ties) and most-loaded (last on ties) non-dedicated breakers holding at
least one meter; stop if fewer than two exist or their load difference is
below 20; move the smallest meter (first on ties) of the most-loaded
breaker if its move keeps the target within the ceiling, else stop.  The
source's incidental in-place sort of the most-loaded breaker's meter list
is reproduced. -/
def specBalanceRounds : ℕ → Transformer → Transformer
  | 0, t => t
  | n + 1, t =>
    let eligible := t.breakers.enum.filter fun s =>
      decide (0 < s.2.meters.length) && !s.2.dedicated
    if eligible.length < 2 then t
    else
      match firstMinBy (fun s => s.2.load) eligible,
          lastMaxBy (fun s => s.2.load) eligible with
      | some leastLoaded, some mostLoaded =>
        if mostLoaded.2.load - leastLoaded.2.load < 20 then t
        else
          let sortedMeters := mostLoaded.2.meters.mergeSort fun a b => decide (a.cdl ≤ b.cdl)
          let t1 := setBreakerMeters t mostLoaded.1 sortedMeters
          match firstMinBy (·.cdl) mostLoaded.2.meters with
          | some m =>
              if leastLoaded.2.load + m.cdl ≤ MAX_BREAKER_CAPACITY then
                let t2 := setBreakerMeters t1 mostLoaded.1
                  (sortedMeters.filter fun x => decide (x.id ≠ m.id))
                let t3 := setBreakerMeters t2 leastLoaded.1
                  (leastLoaded.2.meters ++ [m])
                let t4 := updateBreakerAt (updateBreakerAt t3 mostLoaded.1) leastLoaded.1
                specBalanceRounds n t4
              else t1
          | none => t1
      | _, _ => t

/-- `balanceTransformerInternally` as the (amended) specification words
it: skip dedicated transformers, else at most 5 rounds of
`specBalanceRounds`. -/
def specBalanceTransformerInternally (t : Transformer) : Transformer :=
  if t.isDedicated then t else specBalanceRounds 5 t

/-! ### Observables of a plan used by the theorems -/

/-- All meters sitting on breakers of a transformer list. -/
def allMeters (ts : List Transformer) : List IndividualMeter :=
  ts.flatMap fun t => t.breakers.flatMap (·.meters)

/-- Total cdl sitting on breakers of a transformer list. -/
def totalMeterLoad (ts : List Transformer) : ℚ := metersLoad (allMeters ts)

/-- Sum of the `assignedLoad` fields of a transformer list. -/
def sumAssigned (ts : List Transformer) : ℚ := (ts.map (·.assignedLoad)).sum

/-- The forms in which one general meter ends up on breakers: two noted
halves for a split-range meter, the meter itself otherwise. -/
def placedForms (m : IndividualMeter) : List IndividualMeter :=
  if 400 ≤ m.capacity ∧ m.capacity ≤ 800 then
    [splitHalf m SplitPart.p1, splitHalf m SplitPart.p2]
  else [m]

/-- The multiset of meters a successful run must carry: the dedicated
meters whole, plus each general meter in its placed form(s), in placement
order. -/
def expectedMeters (meterGroups : List MeterGroup) : List IndividualMeter :=
  let individualMeters := meterGroups.flatMap expandGroup
  let dedicatedMeters := individualMeters.filter fun m => decide (1600 ≤ m.capacity)
  let generalMeters := individualMeters.filter fun m => decide (m.capacity < 1600)
  dedicatedMeters ++ (generalMeters.mergeSort placeOrder).flatMap placedForms

/-- The transformers of a run's returned plan (`[]` when the run
crashes). -/
def runTransformers (gs : List MeterGroup) : List Transformer :=
  ((performBalancedDistributionMultiTransformer gs).map
    DistributionResults.transformers).getD []

/-- Per-transformer flag invariant: every breaker's dedication flag
mirrors the transformer's, and a dedicated breaker holds exactly its one
note-free dedicated meter. -/
def TransFlag (t : Transformer) : Prop :=
  ∀ b ∈ t.breakers, b.dedicated = t.isDedicated ∧
    (b.dedicated = true → ∃ m, b.meters = [m] ∧ m.note = none)

/-- The flag invariant every engine stage preserves. -/
def FlagInv (ts : List Transformer) : Prop := ∀ t ∈ ts, TransFlag t

/-- The weak flag mirror: every breaker's dedication flag equals its
transformer's (no stage ever writes the flags after creation). -/
def TransMirror (t : Transformer) : Prop :=
  ∀ b ∈ t.breakers, b.dedicated = t.isDedicated

/-- The mirror invariant of a state, preserved unconditionally. -/
def MirrorInv (ts : List Transformer) : Prop := ∀ t ∈ ts, TransMirror t

/-- Per-transformer capacity core: every carried cdl is nonnegative and
every non-dedicated breaker's meters sum to at most
`MAX_BREAKER_CAPACITY` (the stored load may be stale between stat
refreshes). -/
def TransCapCore (t : Transformer) : Prop :=
  ∀ b ∈ t.breakers, (∀ m ∈ b.meters, 0 ≤ m.cdl) ∧
    (b.dedicated = false → metersLoad b.meters ≤ MAX_BREAKER_CAPACITY)

/-- The capacity core of a state. -/
def CapCore (ts : List Transformer) : Prop := ∀ t ∈ ts, TransCapCore t

/-- Per-transformer full capacity invariant: the core plus accurate
stored loads on non-dedicated breakers. -/
def TransCapInv (t : Transformer) : Prop :=
  ∀ b ∈ t.breakers, (∀ m ∈ b.meters, 0 ≤ m.cdl) ∧
    (b.dedicated = false → b.load = metersLoad b.meters ∧
      metersLoad b.meters ≤ MAX_BREAKER_CAPACITY)

/-- The full capacity invariant of a state. -/
def CapInv (ts : List Transformer) : Prop := ∀ t ∈ ts, TransCapInv t

/-- Distinct transformer ids and, per transformer, distinct breaker ids
(what the id-based comparisons of the consolidation pass assume). -/
def IdsInv (ts : List Transformer) : Prop :=
  ((ts.map (·.id)).Nodup) ∧ ∀ t ∈ ts, ((t.breakers.map (·.id)).Nodup)

/-- Distinct ids among all placed meters. -/
def meterIdsNodup (ts : List Transformer) : Prop :=
  ((allMeters ts).map (·.id)).Nodup

/-! ### Concrete inputs used by counterexamples and witnesses -/


instance : Inhabited Bin := ⟨⟨[], 0⟩⟩

instance : Inhabited Breaker := ⟨⟨0, 0, 0, [], 0, ∅, ∅, ∅, false⟩⟩

instance : Inhabited Transformer := ⟨⟨0, tType500, 0, [], false⟩⟩

/-- Validity of one packed bin as the specification states it, except that
a bin may exceed the ceiling only as the sole residence of a meter that
alone exceeds it. -/
def binValid (bin : Bin) : Prop :=
  bin.meters ≠ [] ∧ bin.load = metersLoad bin.meters ∧
    (bin.load ≤ MAX_LOAD_PER_CONNECTION ∨
      ∃ m, bin.meters = [m] ∧ MAX_LOAD_PER_CONNECTION < m.cdl)

/-- A meter-group literal used by concrete run inputs. -/
def sampleGroup (id count : ℕ) (capacity cdlPerMeter totalCDL coincidenceFactor : ℚ) :
    MeterGroup :=
  { id := id, type := 0, typeName := 0, count := count, capacity := capacity,
    demandFactor := 1, coincidenceFactor := coincidenceFactor,
    cdlPerMeter := cdlPerMeter, totalCDL := totalCDL, category := 0, timePattern := 0 }

/-- A meter literal used by concrete resolver inputs. -/
def sampleMeter (gid : ℕ) (capacity cdl : ℚ) (category : ℕ) : IndividualMeter :=
  { id := ⟨gid, 0, none⟩, type := 0, typeName := 0, count := 1, capacity := capacity,
    demandFactor := 1, coincidenceFactor := 1, cdlPerMeter := cdl, totalCDL := cdl,
    category := category, timePattern := 0, cdl := cdl, note := none }

/-- The C1 counterexample input: the specification's input-layer
invariant `cdlPerMeter × count × coincidenceFactor = totalCDL` holds
(30 × 2 × ½ = 30), yet the expansion carries 60 A. -/
def cx1 : List MeterGroup := [sampleGroup 1 2 100 30 30 (1/2)]

/-- The C2 counterexample input: a split-range meter (capacity 800 A)
whose halves, 320 A each, exceed every breaker's 310 A ceiling. -/
def cx2 : List MeterGroup := [sampleGroup 1 1 800 640 640 1]

/-- The C3 counterexample input: one split-range meter. -/
def cx3 : List MeterGroup := [sampleGroup 1 1 500 400 400 1]

/-- The C4 counterexample input: two 150 A meters the consolidation pass
stacks onto one breaker (300 A > 248 A). -/
def cx4 : List MeterGroup := [sampleGroup 1 2 250 150 300 1]

/-- A small well-formed input used by the pipeline witnesses. -/
def witRun : List MeterGroup := [sampleGroup 1 1 100 50 50 1]

/-- A light-tier (capacity 150A) meter whose cdl alone exceeds the 248A
bin ceiling. -/
def cx10Meter : IndividualMeter := sampleMeter 1 150 300 0

/-- A breaker literal used by concrete search inputs. -/
def sampleBreaker (n : ℕ) (load : ℚ) (ms : List IndividualMeter) (cats : Finset ℕ) :
    Breaker :=
  { id := n, number := n, load := load, meters := ms, utilizationPercent := 0,
    meterTypes := ∅, categories := cats, timePatterns := ∅, dedicated := false }

/-- The meter placed in the C5 counterexample: load category 7, cdl 20. -/
def cx5Meter : IndividualMeter := sampleMeter 3 100 20 7

/-- The C5 counterexample state: two equally loaded breakers, the first
already hosting the meter's category, the second hosting a different
one. -/
def cx5Transformers : List Transformer :=
  [{ id := 1, type := tType500, assignedLoad := 100,
     breakers := [sampleBreaker 1 50 [sampleMeter 1 100 50 7] {7},
                  sampleBreaker 2 50 [sampleMeter 2 100 50 9] {9}],
     isDedicated := false }]

/-- The meter placed in the C5 witness. -/
def wit5Meter : IndividualMeter := sampleMeter 3 100 20 0

/-- The C7 counterexample transformer: most-loaded breaker `[40, 260]`
(load 300), least-loaded `[230]` (load 230); moving the 40A meter puts
the target at 270A — within the 310A bound the code uses, but above the
≈248A safe ceiling the specification names. -/
def cx7Transformer : Transformer :=
  { id := 1, type := tType500, assignedLoad := 530,
    breakers := [sampleBreaker 1 300 [sampleMeter 1 100 40 0, sampleMeter 2 250 260 0] ∅,
                 sampleBreaker 2 230 [sampleMeter 3 250 230 0] ∅],
    isDedicated := false }

/-- The C9 counterexample input: three split-range groups whose halves the
balancer then shuffles so that both halves of group 2 end up on one
breaker. -/
def cx9 : List MeterGroup :=
  [sampleGroup 1 1 500 400 400 1, sampleGroup 2 1 500 100 100 1,
   sampleGroup 3 1 500 100 100 1]

/-- Part-1 half used by the C9 witness. -/
def wit9P1 : IndividualMeter :=
  { sampleMeter 5 500 50 0 with id := ⟨5, 0, some SplitPart.p1⟩, note := some SplitPart.p1 }

/-- Part-2 half used by the C9 witness. -/
def wit9P2 : IndividualMeter :=
  { sampleMeter 5 500 70 0 with id := ⟨5, 0, some SplitPart.p2⟩, note := some SplitPart.p2 }

/-- A plain meter sharing the part-1 breaker in the C9 witness. -/
def wit9Plain : IndividualMeter := sampleMeter 6 100 30 0

/-- The C9 witness state: one transformer, the two halves of meter `5_0`
on different breakers, a plain meter next to the part-1 half. -/
def wit9 : List Transformer :=
  [{ id := 1, type := tType500, assignedLoad := 150,
     breakers := [sampleBreaker 1 80 [wit9P1, wit9Plain] ∅,
                  sampleBreaker 2 70 [wit9P2] ∅],
     isDedicated := false }]

/-- The C5 witness state: breakers of loads 30 and 10. -/
def wit5Transformers : List Transformer :=
  [{ id := 1, type := tType500, assignedLoad := 40,
     breakers := [sampleBreaker 1 30 [sampleMeter 1 100 30 0] ∅,
                  sampleBreaker 2 10 [sampleMeter 2 100 10 0] ∅],
     isDedicated := false }]

/-! ## Theorems about the planner (claim C6) -/

/-- On the concrete catalog, descending sort by safe load. -/
theorem sortedTypesDesc_eq : sortedTypesDesc = [tType1500, tType1000, tType500] := by
  with_unfolding_all rfl

/-- On the concrete catalog, ascending sort by safe load. -/
theorem sortedTypesAsc_eq : sortedTypesAsc = [tType500, tType1000, tType1500] := by
  with_unfolding_all rfl

/-- Helper bounding the `while` recursions of the planner: subtracting a
block of size `d ≥ c > 0` from `r > d` strictly decreases `⌈r/c⌉`. -/
theorem ceil_div_toNat_lt {c d r : ℚ} (hc : 0 < c) (hcd : c ≤ d) (hr : d < r) :
    (⌈(r - d) / c⌉).toNat < (⌈r / c⌉).toNat := by
  have hge : (r - d) / c ≤ r / c - 1 := by
    rw [div_le_iff₀ hc] at *
    have : (r / c - 1) * c = r / c * c - c := by ring
    rw [this, div_mul_cancel₀ _ (ne_of_gt hc)]
    linarith
  have h1 : ⌈(r - d) / c⌉ ≤ ⌈r / c - 1⌉ := by
    exact Int.ceil_le_ceil (le_trans hge (le_refl _))
  rw [Int.ceil_sub_one] at h1
  have h2 : (1 : ℤ) < ⌈r / c⌉ := by
    rw [Int.lt_ceil]
    push_cast
    rw [lt_div_iff₀ hc]
    nlinarith
  omega

/-- Any two sufficient fuels compute the same loop result. -/
theorem planLargestLoopF_congr :
    ∀ (f1 f2 : ℕ) (r : ℚ), (⌈r / tType1500.safeLoad⌉).toNat < f1 →
      (⌈r / tType1500.safeLoad⌉).toNat < f2 →
      planLargestLoopF f1 r = planLargestLoopF f2 r := by
  intro f1
  induction f1 with
  | zero => intro f2 r h1 _; omega
  | succ f ih =>
    intro f2 r h1 h2
    match f2 with
    | 0 => omega
    | f2 + 1 =>
      simp only [planLargestLoopF]
      by_cases h : r > tType1500.safeLoad
      · have hlt : (⌈(r - tType1500.safeLoad) / tType1500.safeLoad⌉).toNat <
            (⌈r / tType1500.safeLoad⌉).toNat :=
          ceil_div_toNat_lt (by norm_num [tType1500]) (le_refl _) h
        simp only [if_pos h]
        rw [ih f2 (r - tType1500.safeLoad) (by omega) (by omega)]
      · simp only [if_neg h]

/-- The defining (while-loop) unfolding of `planLargestLoop`. -/
theorem planLargestLoop_unfold (r : ℚ) :
    planLargestLoop r =
      if r > tType1500.safeLoad then
        let p := planLargestLoop (r - tType1500.safeLoad)
        (tType1500 :: p.1, p.2)
      else ([], r) := by
  unfold planLargestLoop
  conv_lhs => rw [planLargestLoopF]
  by_cases h : r > tType1500.safeLoad
  · have hlt : (⌈(r - tType1500.safeLoad) / tType1500.safeLoad⌉).toNat <
        (⌈r / tType1500.safeLoad⌉).toNat :=
      ceil_div_toNat_lt (by norm_num [tType1500]) (le_refl _) h
    simp only [if_pos h]
    rw [planLargestLoopF_congr ((⌈r / tType1500.safeLoad⌉).toNat)
      ((⌈(r - tType1500.safeLoad) / tType1500.safeLoad⌉).toNat + 1)
      (r - tType1500.safeLoad) (by omega) (by omega)]
  · simp only [if_neg h]

set_option maxRecDepth 4000 in
/-- The find on the concrete catalog used by `mkDedicatedTransformer`. -/
theorem find_capacity_1000 :
    TRANSFORMER_TYPES.find? (fun t => decide (t.capacity = 1000)) = some tType1000 := by
  with_unfolding_all rfl

set_option maxRecDepth 4000 in
/-- The find on the concrete catalog used by `mkDedicatedTransformer`. -/
theorem find_capacity_1500 :
    TRANSFORMER_TYPES.find? (fun t => decide (t.capacity = 1500)) = some tType1500 := by
  with_unfolding_all rfl


/-- With non-positive load the spec rule stops at once, with any fuel. -/
theorem specPlanRuleF_nonpos {r : ℚ} (hr : r ≤ 0) : ∀ f, specPlanRuleF f r = []
  | 0 => rfl
  | f + 1 => by simp [specPlanRuleF, if_pos hr]

/-- Membership fact used to read the failed find of the spec rule. -/
theorem tType1500_mem_sortedTypesAsc : tType1500 ∈ sortedTypesAsc := by
  rw [sortedTypesAsc_eq]; simp

/-- If no ascending catalog type covers `r`, then `r` exceeds the largest
safe load. -/
theorem find_none_gt {r : ℚ}
    (h : sortedTypesAsc.find? (fun t => decide (r ≤ t.safeLoad)) = none) :
    tType1500.safeLoad < r := by
  have := List.find?_eq_none.mp h tType1500 tType1500_mem_sortedTypesAsc
  simp only [decide_eq_true_eq] at this
  exact lt_of_not_le this

/-- Any two sufficient fuels compute the same spec rule. -/
theorem specPlanRuleF_congr :
    ∀ (f1 f2 : ℕ) (r : ℚ), (⌈r / tType500.safeLoad⌉).toNat < f1 →
      (⌈r / tType500.safeLoad⌉).toNat < f2 →
      specPlanRuleF f1 r = specPlanRuleF f2 r := by
  intro f1
  induction f1 with
  | zero => intro f2 r h1 _; omega
  | succ f ih =>
    intro f2 r h1 h2
    match f2 with
    | 0 => omega
    | f2 + 1 =>
      simp only [specPlanRuleF]
      by_cases h0 : r ≤ 0
      · simp [if_pos h0]
      · simp only [if_neg h0]
        cases hfind : sortedTypesAsc.find? (fun t => decide (r ≤ t.safeLoad)) with
        | some t =>
            have ht : r ≤ t.safeLoad := by
              have := List.find?_some hfind
              simpa using this
            show t :: specPlanRuleF f (r - t.safeLoad) = t :: specPlanRuleF f2 (r - t.safeLoad)
            rw [specPlanRuleF_nonpos (show r - t.safeLoad ≤ 0 by linarith) f,
              specPlanRuleF_nonpos (show r - t.safeLoad ≤ 0 by linarith) f2]
        | none =>
            have hbig : tType1500.safeLoad < r := find_none_gt hfind
            have hlt : (⌈(r - tType1500.safeLoad) / tType500.safeLoad⌉).toNat <
                (⌈r / tType500.safeLoad⌉).toNat :=
              ceil_div_toNat_lt (by norm_num [tType500]) (by norm_num [tType500, tType1500])
                hbig
            show tType1500 :: specPlanRuleF f (r - tType1500.safeLoad) =
              tType1500 :: specPlanRuleF f2 (r - tType1500.safeLoad)
            rw [ih f2 (r - tType1500.safeLoad) (by omega) (by omega)]

/-- The defining unfolding of the spec planning rule. -/
theorem specPlanRule_unfold (r : ℚ) :
    specPlanRule r =
      if r ≤ 0 then []
      else
        match sortedTypesAsc.find? fun t => decide (r ≤ t.safeLoad) with
        | some t => t :: specPlanRule (r - t.safeLoad)
        | none => tType1500 :: specPlanRule (r - tType1500.safeLoad) := by
  unfold specPlanRule
  conv_lhs => rw [specPlanRuleF]
  by_cases h0 : r ≤ 0
  · simp [if_pos h0]
  · simp only [if_neg h0]
    cases hfind : sortedTypesAsc.find? (fun t => decide (r ≤ t.safeLoad)) with
    | some t =>
        have ht : r ≤ t.safeLoad := by
          have := List.find?_some hfind
          simpa using this
        show t :: specPlanRuleF ((⌈r / tType500.safeLoad⌉).toNat) (r - t.safeLoad) =
          t :: specPlanRule (r - t.safeLoad)
        unfold specPlanRule
        rw [specPlanRuleF_nonpos (show r - t.safeLoad ≤ 0 by linarith),
          specPlanRuleF_nonpos (show r - t.safeLoad ≤ 0 by linarith)]
    | none =>
        have hbig : tType1500.safeLoad < r := find_none_gt hfind
        have hlt : (⌈(r - tType1500.safeLoad) / tType500.safeLoad⌉).toNat <
            (⌈r / tType500.safeLoad⌉).toNat :=
          ceil_div_toNat_lt (by norm_num [tType500]) (by norm_num [tType500, tType1500]) hbig
        show tType1500 :: specPlanRuleF ((⌈r / tType500.safeLoad⌉).toNat)
            (r - tType1500.safeLoad) = tType1500 :: specPlanRule (r - tType1500.safeLoad)
        unfold specPlanRule
        rw [specPlanRuleF_congr ((⌈r / tType500.safeLoad⌉).toNat)
          ((⌈(r - tType1500.safeLoad) / tType500.safeLoad⌉).toNat + 1)
          (r - tType1500.safeLoad) (by omega) (by omega)]

/-- With non-positive remaining load the source planner emits nothing. -/
theorem planFromRemaining_nonpos {r : ℚ} (hr : r ≤ 0) : planFromRemaining r = [] := by
  unfold planFromRemaining
  rw [planLargestLoop_unfold]
  have h1 : ¬ (r > tType1500.safeLoad) := by
    simp only [tType1500, not_lt]
    norm_num
    linarith
  rw [if_neg h1]
  simp only []
  rw [if_neg (by simpa using hr)]

/-- With non-positive load the spec rule emits nothing. -/
theorem specPlanRule_nonpos {r : ℚ} (hr : r ≤ 0) : specPlanRule r = [] :=
  specPlanRuleF_nonpos hr _

/-- While the remaining load exceeds the largest safe load, the source
planner pushes the largest type and recurses. -/
theorem planFromRemaining_big {r : ℚ} (h : tType1500.safeLoad < r) :
    planFromRemaining r = tType1500 :: planFromRemaining (r - tType1500.safeLoad) := by
  unfold planFromRemaining
  rw [planLargestLoop_unfold, if_pos h]
  by_cases hq : (planLargestLoop (r - tType1500.safeLoad)).2 > 0
  · simp only [if_pos hq]
    cases (sortedTypesAsc.find? fun t =>
        decide ((planLargestLoop (r - tType1500.safeLoad)).2 ≤ t.safeLoad)) <;> simp
  · simp only [if_neg hq]

/-- The source planner (past the margin multiplication) computes exactly
the specification's selection rule. -/
theorem planFromRemaining_eq_specPlanRule (r : ℚ) :
    planFromRemaining r = specPlanRule r := by
  have main : ∀ (n : ℕ) (r : ℚ), (⌈r / tType500.safeLoad⌉).toNat ≤ n →
      planFromRemaining r = specPlanRule r := by
    intro n
    induction n with
    | zero =>
      intro r hr
      have hr0 : r ≤ 0 := by
        have hceil : ⌈r / tType500.safeLoad⌉ ≤ 0 := by omega
        have := Int.ceil_le.mp hceil
        push_cast at this
        have hc : (0:ℚ) < tType500.safeLoad := by norm_num [tType500]
        nlinarith [div_le_iff₀ hc |>.mp this]
      rw [planFromRemaining_nonpos hr0, specPlanRule_nonpos hr0]
    | succ n ih =>
      intro r hr
      by_cases hbig : tType1500.safeLoad < r
      · have hlt : (⌈(r - tType1500.safeLoad) / tType500.safeLoad⌉).toNat <
            (⌈r / tType500.safeLoad⌉).toNat :=
          ceil_div_toNat_lt (by norm_num [tType500]) (by norm_num [tType500, tType1500]) hbig
        rw [planFromRemaining_big hbig, specPlanRule_unfold]
        have h0 : ¬ (r ≤ 0) := by
          have : (0:ℚ) < tType1500.safeLoad := by norm_num [tType1500]
          push_neg
          linarith
        rw [if_neg h0]
        have hfind : sortedTypesAsc.find? (fun t => decide (r ≤ t.safeLoad)) = none := by
          rw [List.find?_eq_none]
          intro t ht
          rw [sortedTypesAsc_eq] at ht
          simp only [List.mem_cons, List.mem_singleton] at ht
          simp only [decide_eq_true_eq, not_le]
          rcases ht with h | h | h | h
          · rw [h]; simp only [tType500, tType1500] at *; linarith
          · rw [h]; simp only [tType1000, tType1500] at *; linarith
          · rw [h]; exact hbig
          · cases h
        rw [hfind]
        simp only []
        rw [ih (r - tType1500.safeLoad) (by omega)]
      · by_cases h0 : r ≤ 0
        · rw [planFromRemaining_nonpos h0, specPlanRule_nonpos h0]
        · have hpos : 0 < r := lt_of_not_le h0
          have hloop : planLargestLoop r = ([], r) := by
            rw [planLargestLoop_unfold, if_neg hbig]
          cases hfind : sortedTypesAsc.find? (fun t => decide (r ≤ t.safeLoad)) with
          | none => exact absurd (find_none_gt hfind) hbig
          | some t =>
            have ht : r ≤ t.safeLoad := by
              have := List.find?_some hfind
              simpa using this
            have hsrc : planFromRemaining r = [t] := by
              unfold planFromRemaining
              rw [hloop]
              simp only []
              rw [if_pos hpos, hfind]
              rfl
            have hspec : specPlanRule r = [t] := by
              rw [specPlanRule_unfold, if_neg h0, hfind]
              simp only []
              rw [specPlanRule_nonpos (by linarith)]
            rw [hsrc, hspec]
  exact main _ r le_rfl

/-- The source planner is the spec rule applied to the inflated load. -/
theorem planTransformersForLoad_eq_planFromRemaining (load : ℚ) :
    planTransformersForLoad load = planFromRemaining (load * (100001/100000)) := rfl

/-- C6 (amended): `planTransformersForLoad` produces its transformer-type
sequence by applying exactly the claimed selection rule — at each step
the smallest catalog type whose safe load covers the entire remaining
load, the largest type when none fits, subtracting the chosen safe load
until no load remains — but to the input load inflated by the source's
`1.00001` planning-margin factor rather than to the load itself. -/
theorem c6_planner_rule_on_inflated_load (load : ℚ) :
    planTransformersForLoad load = specPlanRule (load * (100001/100000)) := by
  rw [planTransformersForLoad_eq_planFromRemaining,
    planFromRemaining_eq_specPlanRule]

/-- C6 counterexample: at a total load of exactly `576.8` (the 500 kVA
safe load), the claimed rule selects the 500 kVA type, but the planner —
because of the margin factor — selects the 1000 kVA type, so the claim
as stated (the rule applied to the given total load) is false. -/
theorem c6_counterexample :
    planTransformersForLoad (2884/5) = [tType1000] ∧
    specPlanRule (2884/5) = [tType500] ∧
    tType1000 ≠ tType500 := by
  refine ⟨by with_unfolding_all rfl, by with_unfolding_all rfl, ?_⟩
  intro h
  have := congrArg TransformerType.capacity h
  simp only [tType1000, tType500] at this
  norm_num at this

/-! ## Theorems about the light-tier bin packing (claim C10) -/

/-- `metersLoad` distributes over append. -/
theorem metersLoad_append (xs ys : List IndividualMeter) :
    metersLoad (xs ++ ys) = metersLoad xs + metersLoad ys := by
  simp [metersLoad]

/-- A successful best-bin search returns an existing bin's index together
with its remaining headroom, which fits the meter. -/
theorem bestBinSearch_some {bins : List Bin} {meter : IndividualMeter} {i : ℕ} {rem : ℚ}
    (h : bestBinSearch bins meter = some (i, rem)) :
    ∃ bin, bins[i]? = some bin ∧ rem = MAX_LOAD_PER_CONNECTION - bin.load ∧
      meter.cdl ≤ rem := by
  have H : ∀ j s, bestBinSearch bins meter = some (j, s) →
      ∃ bin, bins[j]? = some bin ∧ s = MAX_LOAD_PER_CONNECTION - bin.load ∧
        meter.cdl ≤ s := by
    unfold bestBinSearch
    refine List.foldlRecOn
      (motive := fun o : Option (ℕ × ℚ) => ∀ j s, o = some (j, s) →
        ∃ bin, bins[j]? = some bin ∧ s = MAX_LOAD_PER_CONNECTION - bin.load ∧
          meter.cdl ≤ s)
      bins.enum _ none ?_ ?_
    · intro j s hjs
      cases hjs
    · intro o ho p hp j s heq
      have hpb : bins[p.1]? = some p.2 := List.mem_enum_iff_getElem?.mp hp
      cases o with
      | none =>
        have heq2 : (if meter.cdl ≤ MAX_LOAD_PER_CONNECTION - p.2.load then
            some (p.1, MAX_LOAD_PER_CONNECTION - p.2.load) else none) = some (j, s) := heq
        by_cases hc : meter.cdl ≤ MAX_LOAD_PER_CONNECTION - p.2.load
        · rw [if_pos hc] at heq2
          simp only [Option.some.injEq, Prod.mk.injEq] at heq2
          obtain ⟨rfl, rfl⟩ := heq2
          exact ⟨p.2, hpb, rfl, hc⟩
        · rw [if_neg hc] at heq2
          cases heq2
      | some q =>
        have heq2 : (if meter.cdl ≤ MAX_LOAD_PER_CONNECTION - p.2.load ∧
            MAX_LOAD_PER_CONNECTION - p.2.load < q.2 then
            some (p.1, MAX_LOAD_PER_CONNECTION - p.2.load) else some q) = some (j, s) := heq
        by_cases hc : meter.cdl ≤ MAX_LOAD_PER_CONNECTION - p.2.load ∧
            MAX_LOAD_PER_CONNECTION - p.2.load < q.2
        · rw [if_pos hc] at heq2
          simp only [Option.some.injEq, Prod.mk.injEq] at heq2
          obtain ⟨rfl, rfl⟩ := heq2
          exact ⟨p.2, hpb, rfl, hc.1⟩
        · rw [if_neg hc] at heq2
          exact ho j s heq2
  exact H i rem h

/-- Shuffling one freshly appended meter out of the middle of a
concatenation. -/
theorem perm_mid_append {α : Type} (A B C : List α) (m : α) :
    (A ++ ((B ++ [m]) ++ C)).Perm ((A ++ (B ++ C)) ++ [m]) := by
  have h2 : ([m] ++ C).Perm (C ++ [m]) := List.perm_append_comm
  have h3 : (A ++ (B ++ ([m] ++ C))).Perm (A ++ (B ++ (C ++ [m]))) :=
    List.Perm.append_left A (List.Perm.append_left B h2)
  have e1 : A ++ ((B ++ [m]) ++ C) = A ++ (B ++ ([m] ++ C)) := by
    simp [List.append_assoc]
  have e2 : A ++ (B ++ (C ++ [m])) = (A ++ (B ++ C)) ++ [m] := by
    simp [List.append_assoc]
  rw [e1, ← e2]
  exact h3

/-- One best-fit step keeps every bin valid and adds exactly the new
meter to the bins' contents. -/
theorem bestFitStep_valid {bins : List Bin} {meter : IndividualMeter}
    (hinv : ∀ bin ∈ bins, binValid bin) :
    (∀ bin ∈ bestFitStep bins meter, binValid bin) ∧
    ((bestFitStep bins meter).flatMap (·.meters)).Perm
      (bins.flatMap (·.meters) ++ [meter]) := by
  cases hsearch : bestBinSearch bins meter with
  | none =>
    have hstep : bestFitStep bins meter =
        bins ++ [{ meters := [meter], load := meter.cdl }] := by
      unfold bestFitStep
      rw [hsearch]
    rw [hstep]
    constructor
    · intro bin hb
      rcases List.mem_append.mp hb with h | h
      · exact hinv bin h
      · simp only [List.mem_singleton] at h
        subst h
        refine ⟨by simp, by simp [metersLoad], ?_⟩
        by_cases hc : meter.cdl ≤ MAX_LOAD_PER_CONNECTION
        · exact Or.inl hc
        · exact Or.inr ⟨meter, rfl, lt_of_not_le hc⟩
    · simp [List.flatMap_append]
  | some ib =>
    obtain ⟨i, rem⟩ := ib
    obtain ⟨bin, hbin, hrem, hfit⟩ := bestBinSearch_some hsearch
    have hstep : bestFitStep bins meter = List.modify
        (fun b => ({ meters := b.meters ++ [meter], load := b.load + meter.cdl } : Bin))
        i bins := by
      unfold bestFitStep
      rw [hsearch]
    obtain ⟨hi, hget⟩ := List.getElem?_eq_some_iff.mp hbin
    obtain ⟨l₁, l₂, hdecomp, hlen, hset⟩ :=
      @List.exists_of_set Bin i ({ meters := bin.meters ++ [meter], load := bin.load + meter.cdl } : Bin) bins hi
    have hmod : List.modify
        (fun b => ({ meters := b.meters ++ [meter], load := b.load + meter.cdl } : Bin))
        i bins =
        l₁ ++ ({ meters := bin.meters ++ [meter], load := bin.load + meter.cdl } : Bin) :: l₂ := by
      rw [List.modify_eq_set, hbin]
      simp only [Option.getD_some]
      exact hset
    rw [hstep]
    have hbins : bins = l₁ ++ bin :: l₂ := by rw [← hget]; exact hdecomp
    have hbinv : binValid bin := hinv bin (by rw [hbins]; simp)
    constructor
    · intro b hb
      rw [hmod] at hb
      rcases List.mem_append.mp hb with h | h
      · exact hinv b (by rw [hbins]; simp only [List.mem_append, List.mem_cons]; tauto)
      · rcases List.mem_cons.mp h with h | h
        · subst h
          refine ⟨by simp, ?_, ?_⟩
          · rw [metersLoad_append, hbinv.2.1]
            simp [metersLoad]
          · left
            have hle : meter.cdl ≤ MAX_LOAD_PER_CONNECTION - bin.load := hrem ▸ hfit
            simp only []
            linarith
        · exact hinv b (by rw [hbins]; simp only [List.mem_append, List.mem_cons]; tauto)
    · rw [hmod, hbins]
      simp only [List.flatMap_append, List.flatMap_cons]
      exact perm_mid_append _ _ _ _

/-- The packing loop: every produced bin is valid and the bins' contents
are a permutation of the already-packed plus the remaining meters. -/
theorem bestFitBins_go :
    ∀ (l : List IndividualMeter) (bins : List Bin),
      (∀ bin ∈ bins, binValid bin) →
      (∀ bin ∈ l.foldl bestFitStep bins, binValid bin) ∧
      ((l.foldl bestFitStep bins).flatMap (·.meters)).Perm
        (bins.flatMap (·.meters) ++ l) := by
  intro l
  induction l with
  | nil =>
    intro bins hinv
    exact ⟨hinv, by simp⟩
  | cons m l ih =>
    intro bins hinv
    have hstep := @bestFitStep_valid bins m hinv
    have ihres := ih (bestFitStep bins m) hstep.1
    refine ⟨ihres.1, ?_⟩
    refine ihres.2.trans ?_
    have h1 : ((bestFitStep bins m).flatMap (·.meters) ++ l).Perm
        ((bins.flatMap (·.meters) ++ [m]) ++ l) := hstep.2.append_right l
    refine h1.trans ?_
    have : (bins.flatMap (·.meters) ++ [m]) ++ l = bins.flatMap (·.meters) ++ (m :: l) := by
      simp [List.append_assoc]
    rw [this]

/-- C10 (amended): the light-tier best-fit packing of a logical group
yields only valid bins (load = sum of member cdls; non-empty; load at
most the 248A ceiling unless the bin is the sole residence of a meter
whose cdl alone exceeds it), and the bins' contents are exactly (a
permutation of) the light-tier input set. -/
theorem c10_binPacking_valid (pb : ProcessedBreaker) :
    (∀ bin ∈ wholeCurrentBins (pb.meters.filter fun m =>
        !decide (300 ≤ m.capacity) && !decide (200 ≤ m.capacity)), binValid bin) ∧
    ((wholeCurrentBins (pb.meters.filter fun m =>
        !decide (300 ≤ m.capacity) && !decide (200 ≤ m.capacity))).flatMap
      (·.meters)).Perm
      (pb.meters.filter fun m =>
        !decide (300 ≤ m.capacity) && !decide (200 ≤ m.capacity)) := by
  unfold wholeCurrentBins bestFitBins
  have hgo := bestFitBins_go ((pb.meters.filter fun m =>
      !decide (300 ≤ m.capacity) && !decide (200 ≤ m.capacity)).mergeSort
        (fun a b => decide (b.cdl ≤ a.cdl))) [] (by simp)
  refine ⟨hgo.1, ?_⟩
  refine hgo.2.trans ?_
  simpa using List.mergeSort_perm _ _

/-- C10 counterexample: a light-tier (capacity 150A) meter whose cdl is
300A is packed into a single bin whose total load, 300A, exceeds the
fixed 248A ceiling — so "every bin's total load is at most the fixed 248A
ceiling" is false as stated. -/
theorem c10_counterexample :
    wholeCurrentBins [cx10Meter] = [{ meters := [cx10Meter], load := 300 }] ∧
    cx10Meter.capacity = 150 ∧ MAX_LOAD_PER_CONNECTION < 300 := by
  refine ⟨by with_unfolding_all rfl, by with_unfolding_all rfl, ?_⟩
  norm_num [MAX_LOAD_PER_CONNECTION]

/-! ## Theorems about the normal-meter placement search (claim C5) -/

/-- Folding the keep-smaller accumulator from `some c` yields either `c`
itself (then `c` bounds everything seen) or the first strict improver. -/
theorem firstMinBy_go {α : Type} (f : α → ℚ) :
    ∀ (xs : List α) (c : α),
      ∃ a, xs.foldl (fun best x =>
          match best with
          | none => some x
          | some b => if f x < f b then some x else best) (some c) = some a ∧
        ((a = c ∧ ∀ b ∈ xs, f c ≤ f b) ∨
          (∃ l1 l2, xs = l1 ++ a :: l2 ∧ f a < f c ∧ (∀ b ∈ l1, f a < f b) ∧
            ∀ b ∈ l2, f a ≤ f b)) := by
  intro xs
  induction xs with
  | nil =>
    intro c
    exact ⟨c, rfl, Or.inl ⟨rfl, by simp⟩⟩
  | cons y ys ih =>
    intro c
    rw [List.foldl_cons]
    have hred : (match some c with
        | none => some y
        | some b => if f y < f b then some y else some c : Option α) =
        if f y < f c then some y else some c := rfl
    rw [hred]
    by_cases h : f y < f c
    · rw [if_pos h]
      obtain ⟨a, ha, hcase⟩ := ih y
      refine ⟨a, ha, ?_⟩
      rcases hcase with ⟨rfl, hmin⟩ | ⟨l1, l2, hdec, hlt, hl1, hl2⟩
      · exact Or.inr ⟨[], ys, rfl, h, by simp, hmin⟩
      · refine Or.inr ⟨y :: l1, l2, by rw [List.cons_append, ← hdec], lt_trans hlt h, ?_, hl2⟩
        intro b hb
        rcases List.mem_cons.mp hb with rfl | hb
        · exact hlt
        · exact hl1 b hb
    · rw [if_neg h]
      have hcy : f c ≤ f y := le_of_not_lt h
      obtain ⟨a, ha, hcase⟩ := ih c
      refine ⟨a, ha, ?_⟩
      rcases hcase with ⟨rfl, hmin⟩ | ⟨l1, l2, hdec, hlt, hl1, hl2⟩
      · refine Or.inl ⟨rfl, ?_⟩
        intro b hb
        rcases List.mem_cons.mp hb with rfl | hb
        · exact hcy
        · exact hmin b hb
      · refine Or.inr ⟨y :: l1, l2, by rw [List.cons_append, ← hdec], hlt, ?_, hl2⟩
        intro b hb
        rcases List.mem_cons.mp hb with rfl | hb
        · exact lt_of_lt_of_le hlt hcy
        · exact hl1 b hb

/-- `firstMinBy` returns nothing exactly on the empty list. -/
theorem firstMinBy_none_iff {α : Type} (f : α → ℚ) (l : List α) :
    firstMinBy f l = none ↔ l = [] := by
  cases l with
  | nil => simp [firstMinBy]
  | cons x xs =>
    obtain ⟨a, ha, _⟩ := firstMinBy_go f xs x
    have ha2 : firstMinBy f (x :: xs) = some a := by
      show xs.foldl _ _ = some a
      exact ha
    rw [ha2]
    simp

/-- `firstMinBy` returns a minimiser that strictly beats everything before
it (the first-found tie-break). -/
theorem firstMinBy_spec {α : Type} (f : α → ℚ) {l : List α} {a : α}
    (h : firstMinBy f l = some a) :
    ∃ l1 l2, l = l1 ++ a :: l2 ∧ (∀ b ∈ l1, f a < f b) ∧ ∀ b ∈ l, f a ≤ f b := by
  cases l with
  | nil => simp [firstMinBy] at h
  | cons x xs =>
    obtain ⟨a', ha', hcase⟩ := firstMinBy_go f xs x
    have ha2 : firstMinBy f (x :: xs) = some a' := by
      show xs.foldl _ _ = some a'
      exact ha'
    rw [ha2] at h
    injection h with h
    subst h
    rcases hcase with ⟨rfl, hmin⟩ | ⟨l1, l2, hdec, hlt, hl1, hl2⟩
    · refine ⟨[], xs, rfl, by simp, ?_⟩
      intro b hb
      rcases List.mem_cons.mp hb with rfl | hb
      · exact le_refl _
      · exact hmin b hb
    · refine ⟨x :: l1, l2, by rw [List.cons_append, ← hdec], ?_, ?_⟩
      · intro b hb
        rcases List.mem_cons.mp hb with rfl | hb
        · exact hlt
        · exact hl1 b hb
      · intro b hb
        rcases List.mem_cons.mp hb with rfl | hb
        · exact le_of_lt hlt
        · rw [hdec] at hb
          rcases List.mem_append.mp hb with hb | hb
          · exact le_of_lt (hl1 b hb)
          · rcases List.mem_cons.mp hb with rfl | hb
            · exact le_refl _
            · exact hl2 b hb

/-- The inner breaker loop of the single search skips exactly the
ineligible breakers and feeds the rest, in order, to `pickSmaller`. -/
theorem singleSearch_inner (meter : IndividualMeter) (ti : ℕ) :
    ∀ (bs : List (ℕ × Breaker)) (init : Option (ℕ × ℕ × ℚ)),
      bs.foldl (fun best q =>
          if q.2.dedicated = true ∨ q.2.load + meter.cdl > MAX_BREAKER_CAPACITY then best
          else pickSmaller best (ti, q.1, q.2.load)) init =
        (bs.filterMap fun q =>
          if q.2.dedicated = true ∨ q.2.load + meter.cdl > MAX_BREAKER_CAPACITY then none
          else some (ti, q.1, q.2.load)).foldl pickSmaller init := by
  intro bs
  induction bs with
  | nil => intro init; rfl
  | cons q bs ih =>
    intro init
    by_cases h : q.2.dedicated = true ∨ q.2.load + meter.cdl > MAX_BREAKER_CAPACITY
    · simp only [List.foldl_cons, List.filterMap_cons, if_pos h]
      exact ih init
    · simp only [List.foldl_cons, List.filterMap_cons, if_neg h]
      exact ih (pickSmaller init (ti, q.1, q.2.load))

/-- The single-breaker search is the `pickSmaller` fold over the eligible
positions. -/
theorem singleSearch_eq_foldl_eligible (meter : IndividualMeter)
    (ts : List Transformer) :
    findBestBreakerForEvenDistribution meter ts =
      (eligiblePositions meter ts).foldl pickSmaller none := by
  unfold findBestBreakerForEvenDistribution eligiblePositions
  have H : ∀ (l : List (ℕ × Transformer)) (init : Option (ℕ × ℕ × ℚ)),
      l.foldl (fun best p =>
        if p.2.isDedicated = true then best
        else if p.2.assignedLoad + meter.cdl > p.2.type.safeLoad then best
        else p.2.breakers.enum.foldl (fun best q =>
          if q.2.dedicated = true ∨ q.2.load + meter.cdl > MAX_BREAKER_CAPACITY then best
          else pickSmaller best (p.1, q.1, q.2.load)) best) init =
      (l.flatMap fun p =>
        if p.2.isDedicated = true ∨ p.2.assignedLoad + meter.cdl > p.2.type.safeLoad then []
        else p.2.breakers.enum.filterMap fun q =>
          if q.2.dedicated = true ∨ q.2.load + meter.cdl > MAX_BREAKER_CAPACITY then none
          else some (p.1, q.1, q.2.load)).foldl pickSmaller init := by
    intro l
    induction l with
    | nil => intro init; rfl
    | cons p l ih =>
      intro init
      simp only [List.foldl_cons, List.flatMap_cons]
      by_cases h1 : p.2.isDedicated = true
      · rw [if_pos h1, if_pos (Or.inl h1)]
        simpa using ih init
      · by_cases h2 : p.2.assignedLoad + meter.cdl > p.2.type.safeLoad
        · rw [if_neg h1, if_pos h2, if_pos (Or.inr h2)]
          simpa using ih init
        · rw [if_neg h1, if_neg h2, if_neg (by tauto)]
          rw [List.foldl_append, singleSearch_inner meter p.1 p.2.breakers.enum init]
          exact ih _
  exact H ts.enum none

/-- `pickSmaller` folding computes `firstMinBy` on the score. -/
theorem foldl_pickSmaller_eq_firstMinBy (l : List (ℕ × ℕ × ℚ)) :
    l.foldl pickSmaller none = firstMinBy (fun e => e.2.2) l := by
  unfold firstMinBy
  apply List.foldl_ext
  intro a b _
  cases a with
  | none => rfl
  | some e0 => rfl

/-- C5 (amended): for a normal meter, the placement search performs no
multi-factor weighted scoring; the eligible breakers are those of
non-dedicated transformers with safe-load headroom that are themselves
non-dedicated and keep `load + meter.cdl ≤ MAX_BREAKER_CAPACITY` (310A),
and the meter joins the least-loaded eligible breaker, ties broken by
iteration order (first found). -/
theorem c5_leastLoaded_choice (meter : IndividualMeter) (ts : List Transformer) :
    (findBestBreakerForEvenDistribution meter ts = none ↔
      eligiblePositions meter ts = []) ∧
    ∀ e, findBestBreakerForEvenDistribution meter ts = some e →
      ∃ l1 l2, eligiblePositions meter ts = l1 ++ e :: l2 ∧
        (∀ c ∈ l1, e.2.2 < c.2.2) ∧
        ∀ c ∈ eligiblePositions meter ts, e.2.2 ≤ c.2.2 := by
  have heq : findBestBreakerForEvenDistribution meter ts =
      firstMinBy (fun e => e.2.2) (eligiblePositions meter ts) :=
    (singleSearch_eq_foldl_eligible meter ts).trans
      (foldl_pickSmaller_eq_firstMinBy _)
  constructor
  · rw [heq]
    exact firstMinBy_none_iff _ _
  · intro e he
    rw [heq] at he
    exact firstMinBy_spec _ he

/-- C5 witness: the characterization applied to a concrete state (two
eligible breakers of loads 30 and 10; the search picks the load-10
one). -/
theorem c5_witness :
    ∃ l1 l2, eligiblePositions wit5Meter wit5Transformers =
        l1 ++ ((0, 1, 10) : ℕ × ℕ × ℚ) :: l2 ∧
      (∀ c ∈ l1, ((0, 1, (10:ℚ)) : ℕ × ℕ × ℚ).2.2 < c.2.2) ∧
      ∀ c ∈ eligiblePositions wit5Meter wit5Transformers,
        ((0, 1, (10:ℚ)) : ℕ × ℕ × ℚ).2.2 ≤ c.2.2 :=
  (c5_leastLoaded_choice wit5Meter wit5Transformers).2 (0, 1, 10)
    (by with_unfolding_all rfl)

/-- C5 counterexample: the search joins the meter to the first of two
equally loaded eligible breakers even though that breaker already hosts
the meter's load category and the other does not — with equal loads every
claimed factor except the category-diversity bonus is symmetric between
the two breakers, so any weighted sum with a positive diversity bonus
ranks the second breaker strictly higher, yet the code never consults
categories and picks the first. -/
theorem c5_counterexample :
    findBestBreakerForEvenDistribution cx5Meter cx5Transformers = some (0, 0, 50) ∧
    (cx5Transformers.map fun t => t.breakers.map fun b =>
      (b.load, decide (cx5Meter.category ∈ b.categories))) = [[(50, true), (50, false)]] ∧
    (∀ base bonus : ℚ, 0 < bonus → base < base + bonus) := by
  refine ⟨by with_unfolding_all rfl, by with_unfolding_all rfl, ?_⟩
  intro base bonus hb
  linarith

/-! ## Theorems about the internal rebalancer (claim C7) -/

/-- Folding the keep-smaller accumulator from `some c` is `firstMinBy`
with `c` as the fallback. -/
theorem firstMinBy_cons_fold {α : Type} (f : α → ℚ) :
    ∀ (l : List α) (c : α),
      l.foldl (fun best x =>
          match best with
          | none => some x
          | some b => if f x < f b then some x else best) (some c) =
        match firstMinBy f l with
        | none => some c
        | some m => if f m < f c then some m else some c := by
  intro l
  induction l with
  | nil => intro c; rfl
  | cons y ys ih =>
    intro c
    rw [List.foldl_cons]
    have hred : (match some c with
        | none => some y
        | some b => if f y < f b then some y else some c : Option α) =
        if f y < f c then some y else some c := rfl
    rw [hred]
    have hcons : firstMinBy f (y :: ys) =
        match firstMinBy f ys with
        | none => some y
        | some m => if f m < f y then some m else some y := ih y
    rw [hcons]
    cases hys : firstMinBy f ys with
    | none =>
      have hnil : ys = [] := (firstMinBy_none_iff f ys).mp hys
      subst hnil
      show (if f y < f c then some y else some c) =
        if f y < f c then some y else some c
      rfl
    | some m =>
      by_cases h1 : f y < f c
      · rw [if_pos h1, ih y, hys]
        show (if f m < f y then some m else some y) =
          match (if f m < f y then some m else some y : Option α) with
          | none => some c
          | some m2 => if f m2 < f c then some m2 else some c
        by_cases h2 : f m < f y
        · rw [if_pos h2]
          show some m = if f m < f c then some m else some c
          rw [if_pos (lt_trans h2 h1)]
        · rw [if_neg h2]
          show some y = if f y < f c then some y else some c
          rw [if_pos h1]
      · rw [if_neg h1, ih c, hys]
        have h1' : f c ≤ f y := le_of_not_lt h1
        show (if f m < f c then some m else some c) =
          match (if f m < f y then some m else some y : Option α) with
          | none => some c
          | some m2 => if f m2 < f c then some m2 else some c
        by_cases h2 : f m < f y
        · rw [if_pos h2]
        · rw [if_neg h2]
          have h2' : f y ≤ f m := le_of_not_lt h2
          show (if f m < f c then some m else some c) =
            if f y < f c then some y else some c
          rw [if_neg h1, if_neg (not_lt.mpr (le_trans h1' h2'))]

/-- `firstMinBy` over a cons. -/
theorem firstMinBy_cons {α : Type} (f : α → ℚ) (a : α) (l : List α) :
    firstMinBy f (a :: l) =
      match firstMinBy f l with
      | none => some a
      | some m => if f m < f a then some m else some a :=
  firstMinBy_cons_fold f l a

/-- Folding the keep-larger accumulator from a `some` never yields
`none`. -/
theorem foldl_maxstep_isSome {α : Type} (f : α → ℚ) :
    ∀ (l : List α) (c : α),
      (l.foldl (fun best x =>
          match best with
          | none => some x
          | some b => if f b ≤ f x then some x else best) (some c)).isSome = true := by
  intro l
  induction l with
  | nil => intro c; rfl
  | cons y ys ih =>
    intro c
    rw [List.foldl_cons]
    have hred : (match some c with
        | none => some y
        | some b => if f b ≤ f y then some y else some c : Option α) =
        if f c ≤ f y then some y else some c := rfl
    rw [hred]
    by_cases h : f c ≤ f y
    · rw [if_pos h]
      exact ih y
    · rw [if_neg h]
      exact ih c

/-- Folding the keep-larger accumulator from `some c` is `lastMaxBy` with
`c` as the fallback. -/
theorem lastMaxBy_cons_fold {α : Type} (f : α → ℚ) :
    ∀ (l : List α) (c : α),
      l.foldl (fun best x =>
          match best with
          | none => some x
          | some b => if f b ≤ f x then some x else best) (some c) =
        match lastMaxBy f l with
        | none => some c
        | some m => if f c ≤ f m then some m else some c := by
  intro l
  induction l with
  | nil => intro c; rfl
  | cons y ys ih =>
    intro c
    rw [List.foldl_cons]
    have hred : (match some c with
        | none => some y
        | some b => if f b ≤ f y then some y else some c : Option α) =
        if f c ≤ f y then some y else some c := rfl
    rw [hred]
    have hcons : lastMaxBy f (y :: ys) =
        match lastMaxBy f ys with
        | none => some y
        | some m => if f y ≤ f m then some m else some y := ih y
    rw [hcons]
    cases hys : lastMaxBy f ys with
    | none =>
      have hnil : ys = [] := by
        cases ys with
        | nil => rfl
        | cons z zs =>
          exfalso
          have hsome := foldl_maxstep_isSome f zs z
          have hnone : (zs.foldl (fun best x =>
              match best with
              | none => some x
              | some b => if f b ≤ f x then some x else best) (some z)) = none := hys
          rw [hnone] at hsome
          cases hsome
      subst hnil
      show (if f c ≤ f y then some y else some c) =
        if f c ≤ f y then some y else some c
      rfl
    | some m =>
      by_cases h1 : f c ≤ f y
      · rw [if_pos h1, ih y, hys]
        show (if f y ≤ f m then some m else some y) =
          match (if f y ≤ f m then some m else some y : Option α) with
          | none => some c
          | some m2 => if f c ≤ f m2 then some m2 else some c
        by_cases h2 : f y ≤ f m
        · rw [if_pos h2]
          show some m = if f c ≤ f m then some m else some c
          rw [if_pos (le_trans h1 h2)]
        · rw [if_neg h2]
          show some y = if f c ≤ f y then some y else some c
          rw [if_pos h1]
      · rw [if_neg h1, ih c, hys]
        have h1' : f y ≤ f c := le_of_not_le h1
        show (if f c ≤ f m then some m else some c) =
          match (if f y ≤ f m then some m else some y : Option α) with
          | none => some c
          | some m2 => if f c ≤ f m2 then some m2 else some c
        by_cases h2 : f y ≤ f m
        · rw [if_pos h2]
        · rw [if_neg h2]
          have h2' : f m ≤ f y := le_of_not_le h2
          show (if f c ≤ f m then some m else some c) =
            if f c ≤ f y then some y else some c
          rw [if_neg h1, if_neg (by intro hc; exact h1 (le_trans hc h2'))]

/-- `lastMaxBy` over a cons. -/
theorem lastMaxBy_cons {α : Type} (f : α → ℚ) (a : α) (l : List α) :
    lastMaxBy f (a :: l) =
      match lastMaxBy f l with
      | none => some a
      | some m => if f a ≤ f m then some m else some a :=
  lastMaxBy_cons_fold f l a

/-- `lastMaxBy` returns a member of the list. -/
theorem lastMaxBy_mem {α : Type} (f : α → ℚ) :
    ∀ {l : List α} {a : α}, lastMaxBy f l = some a → a ∈ l := by
  intro l
  induction l with
  | nil => intro a h; cases h
  | cons y ys ih =>
    intro a h
    rw [lastMaxBy_cons] at h
    cases hys : lastMaxBy f ys with
    | none =>
      rw [hys] at h
      have h2 : some y = some a := h
      injection h2 with h2
      subst h2
      simp
    | some m =>
      rw [hys] at h
      have h2 : (if f y ≤ f m then some m else some y) = some a := h
      by_cases hc : f y ≤ f m
      · rw [if_pos hc] at h2
        injection h2 with h2
        subst h2
        exact List.mem_cons_of_mem _ (ih hys)
      · rw [if_neg hc] at h2
        injection h2 with h2
        subst h2
        simp

/-- `firstMinBy` returns a member of the list. -/
theorem firstMinBy_mem {α : Type} (f : α → ℚ) {l : List α} {a : α}
    (h : firstMinBy f l = some a) : a ∈ l := by
  obtain ⟨l1, l2, hdec, -, -⟩ := firstMinBy_spec f h
  rw [hdec]
  simp

/-- `lastMaxBy` is `none` exactly on the empty list. -/
theorem lastMaxBy_none_iff {α : Type} (f : α → ℚ) (l : List α) :
    lastMaxBy f l = none ↔ l = [] := by
  constructor
  · intro h
    cases l with
    | nil => rfl
    | cons z zs =>
      exfalso
      have hsome := foldl_maxstep_isSome f zs z
      have hnone : (zs.foldl (fun best x =>
          match best with
          | none => some x
          | some b => if f b ≤ f x then some x else best) (some z)) = none := h
      rw [hnone] at hsome
      cases hsome
  · intro h
    subst h
    rfl

/-- A successful `getLast?` returns a member. -/
theorem getLast?_mem_of {α : Type} : ∀ {l : List α} {a : α}, l.getLast? = some a → a ∈ l := by
  intro l
  induction l with
  | nil =>
    intro a h
    cases h
  | cons x xs ih =>
    intro a h
    cases xs with
    | nil =>
      have h2 : some x = some a := h
      injection h2 with h2
      subst h2
      exact List.mem_cons_self _ _
    | cons z zs =>
      rw [List.getLast?_cons_cons] at h
      exact List.mem_cons_of_mem _ (ih h)

/-- Transitivity of a boolean key comparator. -/
theorem keyLe_trans {α : Type} (f : α → ℚ) (a b c : α) (hab : decide (f a ≤ f b) = true)
    (hbc : decide (f b ≤ f c) = true) : decide (f a ≤ f c) = true :=
  decide_eq_true (le_trans (of_decide_eq_true hab) (of_decide_eq_true hbc))

/-- Totality of a boolean key comparator. -/
theorem keyLe_total {α : Type} (f : α → ℚ) (a b : α) :
    (decide (f a ≤ f b) || decide (f b ≤ f a)) = true := by
  rcases le_total (f a) (f b) with h | h
  · rw [decide_eq_true h]
    rfl
  · rw [decide_eq_true h]
    simp

/-- Along a key-sorted list the last element dominates every member. -/
theorem pairwise_getLast_max {α : Type} (f : α → ℚ) :
    ∀ (L : List α) (m : α), List.Pairwise (fun a b => decide (f a ≤ f b) = true) L →
      L.getLast? = some m → ∀ y ∈ L, f y ≤ f m := by
  intro L
  induction L with
  | nil =>
    intro m _ _ y hy
    cases hy
  | cons a L₂ ih =>
    intro m hp hm y hy
    rcases List.pairwise_cons.mp hp with ⟨ha, hp2⟩
    cases L₂ with
    | nil =>
      have h2 : some a = some m := hm
      injection h2 with h2
      subst h2
      have h3 : y = a := List.mem_singleton.mp hy
      subst h3
      exact le_refl _
    | cons z zs =>
      rw [List.getLast?_cons_cons] at hm
      rcases List.mem_cons.mp hy with h | h
      · subst h
        have hmem : m ∈ z :: zs := getLast?_mem_of hm
        exact of_decide_eq_true (ha m hmem)
      · exact ih m hp2 hm y h

/-- The head of the stable sort by key `f` is the first minimiser of
`f`. -/
theorem mergeSort_head?_firstMinBy {α : Type} (f : α → ℚ) (l : List α) :
    (l.mergeSort fun a b => decide (f a ≤ f b)).head? = firstMinBy f l := by
  induction l with
  | nil =>
    rw [List.mergeSort_nil]
    rfl
  | cons x xs ih =>
    obtain ⟨l₁, l₂, hcons, hxs, hl₁⟩ :=
      List.mergeSort_cons (keyLe_trans f) (keyLe_total f) x xs
    have hl₁lt : ∀ b ∈ l₁, f b < f x := by
      intro b hb
      have h1 := hl₁ b hb
      rw [Bool.not_eq_true'] at h1
      exact lt_of_not_le (of_decide_eq_false h1)
    rw [hcons, firstMinBy_cons]
    cases hys : firstMinBy f xs with
    | none =>
      dsimp only
      have hnil : xs = [] := (firstMinBy_none_iff f xs).mp hys
      subst hnil
      have h0 : l₁ ++ l₂ = ([] : List α) := by rw [← hxs, List.mergeSort_nil]
      rcases List.append_eq_nil.mp h0 with ⟨h1, h2⟩
      subst h1
      rfl
    | some m =>
      dsimp only
      have hhead : (xs.mergeSort fun a b => decide (f a ≤ f b)).head? = some m := by
        rw [ih, hys]
      by_cases hc : f m < f x
      · rw [if_pos hc]
        cases hl1 : l₁ with
        | nil =>
          exfalso
          subst hl1
          rw [List.nil_append] at hxs hcons
          rw [hxs] at hhead
          have hmem : m ∈ l₂ := by
            cases l₂ with
            | nil => cases hhead
            | cons z zs =>
              have h2 : some z = some m := hhead
              injection h2 with h2
              subst h2
              exact List.mem_cons_self _ _
          have hsort := List.sorted_mergeSort (keyLe_trans f) (keyLe_total f) (x :: xs)
          rw [hcons] at hsort
          have hxm := List.rel_of_pairwise_cons hsort hmem
          exact absurd (of_decide_eq_true hxm) (not_le_of_lt hc)
        | cons b bs =>
          subst hl1
          have hb : b = m := by
            rw [List.cons_append] at hxs
            rw [hxs] at hhead
            have h2 : some b = some m := hhead
            injection h2
          subst hb
          rfl
      · rw [if_neg hc]
        cases hl1 : l₁ with
        | nil =>
          subst hl1
          rfl
        | cons b bs =>
          exfalso
          subst hl1
          have hb : b = m := by
            rw [List.cons_append] at hxs
            rw [hxs] at hhead
            have h2 : some b = some m := hhead
            injection h2
          subst hb
          exact hc (hl₁lt _ (List.mem_cons_self _ _))

/-- The last of the stable sort by key `f` is the last maximiser of
`f`. -/
theorem mergeSort_getLast?_lastMaxBy {α : Type} (f : α → ℚ) (l : List α) :
    (l.mergeSort fun a b => decide (f a ≤ f b)).getLast? = lastMaxBy f l := by
  induction l with
  | nil =>
    rw [List.mergeSort_nil]
    rfl
  | cons x xs ih =>
    obtain ⟨l₁, l₂, hcons, hxs, hl₁⟩ :=
      List.mergeSort_cons (keyLe_trans f) (keyLe_total f) x xs
    have hl₁lt : ∀ b ∈ l₁, f b < f x := by
      intro b hb
      have h1 := hl₁ b hb
      rw [Bool.not_eq_true'] at h1
      exact lt_of_not_le (of_decide_eq_false h1)
    rw [hcons, lastMaxBy_cons]
    cases hys : lastMaxBy f xs with
    | none =>
      dsimp only
      have hnil : xs = [] := (lastMaxBy_none_iff f xs).mp hys
      subst hnil
      have h0 : l₁ ++ l₂ = ([] : List α) := by rw [← hxs, List.mergeSort_nil]
      rcases List.append_eq_nil.mp h0 with ⟨h1, h2⟩
      subst h1
      subst h2
      rfl
    | some m =>
      dsimp only
      have hlast : (xs.mergeSort fun a b => decide (f a ≤ f b)).getLast? = some m := by
        rw [ih, hys]
      by_cases hc : f x ≤ f m
      · rw [if_pos hc]
        cases hl2 : l₂ with
        | nil =>
          exfalso
          subst hl2
          rw [List.append_nil] at hxs
          rw [hxs] at hlast
          have hmem : m ∈ l₁ := getLast?_mem_of hlast
          exact absurd hc (not_le_of_lt (hl₁lt m hmem))
        | cons z zs =>
          subst hl2
          have hw := List.getLast?_eq_getLast (z :: zs) (List.cons_ne_nil z zs)
          have hwm : (z :: zs).getLast (List.cons_ne_nil z zs) = m := by
            rw [hxs, List.getLast?_append, hw] at hlast
            have h3 : some ((z :: zs).getLast (List.cons_ne_nil z zs)) = some m := hlast
            injection h3
          rw [List.getLast?_append, List.getLast?_cons_cons, hw, hwm]
          rfl
      · rw [if_neg hc]
        cases hl2 : l₂ with
        | nil =>
          subst hl2
          rw [List.getLast?_concat]
        | cons z zs =>
          exfalso
          subst hl2
          have hw := List.getLast?_eq_getLast (z :: zs) (List.cons_ne_nil z zs)
          have hwmem : (z :: zs).getLast (List.cons_ne_nil z zs) ∈ z :: zs :=
            getLast?_mem_of hw
          have hsort := List.sorted_mergeSort (keyLe_trans f) (keyLe_total f) (x :: xs)
          rw [hcons] at hsort
          have hsub := (List.pairwise_append.mp hsort).2.1
          have hxw := List.rel_of_pairwise_cons hsub hwmem
          have hsort2 := List.sorted_mergeSort (keyLe_trans f) (keyLe_total f) xs
          have hwm : f ((z :: zs).getLast (List.cons_ne_nil z zs)) ≤ f m := by
            refine pairwise_getLast_max f _ m hsort2 hlast _ ?_
            rw [hxs]
            exact List.mem_append_right _ hwmem
          exact hc (le_trans (of_decide_eq_true hxw) hwm)

/-- On the cdl-sorted meter list, the movable-meter search succeeds
exactly on the smallest-cdl meter, and only when that meter fits. -/
theorem find_fits_sorted (L : ℚ) (ms : List IndividualMeter) :
    ((ms.mergeSort fun a b => decide (a.cdl ≤ b.cdl)).find? fun m =>
        decide (L + m.cdl ≤ MAX_BREAKER_CAPACITY)) =
      match firstMinBy (fun m => m.cdl) ms with
      | none => none
      | some m => if L + m.cdl ≤ MAX_BREAKER_CAPACITY then some m else none := by
  have hhead := mergeSort_head?_firstMinBy (fun m : IndividualMeter => m.cdl) ms
  cases hS : ms.mergeSort fun a b => decide (a.cdl ≤ b.cdl) with
  | nil =>
    rw [hS] at hhead
    have hfm : firstMinBy (fun m : IndividualMeter => m.cdl) ms = none := hhead.symm
    rw [hfm]
    rfl
  | cons m rest =>
    rw [hS] at hhead
    have hfm : firstMinBy (fun m : IndividualMeter => m.cdl) ms = some m := hhead.symm
    rw [hfm]
    dsimp only
    rw [List.find?_cons]
    by_cases hc : L + m.cdl ≤ MAX_BREAKER_CAPACITY
    · rw [if_pos hc, decide_eq_true hc]
    · rw [if_neg hc, decide_eq_false hc]
      dsimp only
      rw [List.find?_eq_none]
      intro y hy hpy
      have hsort := List.sorted_mergeSort (keyLe_trans (fun m : IndividualMeter => m.cdl))
        (keyLe_total (fun m : IndividualMeter => m.cdl)) ms
      rw [hS] at hsort
      have h1 : m.cdl ≤ y.cdl := of_decide_eq_true (List.rel_of_pairwise_cons hsort hy)
      have h2 : L + y.cdl ≤ MAX_BREAKER_CAPACITY := of_decide_eq_true hpy
      exact hc (le_trans (add_le_add_left h1 L) h2)

/-- The source rebalancing loop computes the specification's rounds. -/
theorem balanceRounds_eq_spec : ∀ (n : ℕ) (t : Transformer),
    balanceRounds n t = specBalanceRounds n t := by
  intro n
  induction n with
  | zero =>
    intro t
    rfl
  | succ n ih =>
    intro t
    unfold balanceRounds specBalanceRounds
    dsimp only
    have hlen := @List.length_mergeSort (ℕ × Breaker)
      (fun a b => decide (a.2.load ≤ b.2.load))
      (t.breakers.enum.filter fun s => decide (0 < s.2.meters.length) && !s.2.dedicated)
    rcases hS : (t.breakers.enum.filter fun s =>
        decide (0 < s.2.meters.length) && !s.2.dedicated).mergeSort
        (fun a b => decide (a.2.load ≤ b.2.load)) with _ | ⟨s0, _ | ⟨s1, rest⟩⟩
    · rw [hS] at hlen
      have h2 : (t.breakers.enum.filter fun s =>
          decide (0 < s.2.meters.length) && !s.2.dedicated).length < 2 := by
        rw [← hlen]
        decide
      rw [hS, if_pos h2]
    · rw [hS] at hlen
      have h2 : (t.breakers.enum.filter fun s =>
          decide (0 < s.2.meters.length) && !s.2.dedicated).length < 2 := by
        rw [← hlen]
        simp only [List.length_cons, List.length_nil]
        omega
      rw [hS, if_pos h2]
    · rw [hS] at hlen
      have h2 : ¬ (t.breakers.enum.filter fun s =>
          decide (0 < s.2.meters.length) && !s.2.dedicated).length < 2 := by
        rw [← hlen]
        simp only [List.length_cons]
        omega
      rw [hS, if_neg h2]
      dsimp only
      have hfm : firstMinBy (fun s : ℕ × Breaker => s.2.load)
          (t.breakers.enum.filter fun s =>
            decide (0 < s.2.meters.length) && !s.2.dedicated) = some s0 := by
        have h := mergeSort_head?_firstMinBy (fun s : ℕ × Breaker => s.2.load)
          (t.breakers.enum.filter fun s =>
            decide (0 < s.2.meters.length) && !s.2.dedicated)
        rw [hS] at h
        exact h.symm
      have hlm : lastMaxBy (fun s : ℕ × Breaker => s.2.load)
          (t.breakers.enum.filter fun s =>
            decide (0 < s.2.meters.length) && !s.2.dedicated) =
          some ((s1 :: rest).getLast (List.cons_ne_nil s1 rest)) := by
        have h := mergeSort_getLast?_lastMaxBy (fun s : ℕ × Breaker => s.2.load)
          (t.breakers.enum.filter fun s =>
            decide (0 < s.2.meters.length) && !s.2.dedicated)
        rw [hS] at h
        rw [List.getLast?_eq_getLast (s0 :: s1 :: rest)
          (List.cons_ne_nil s0 (s1 :: rest))] at h
        rw [List.getLast_cons (List.cons_ne_nil s1 rest)] at h
        exact h.symm
      rw [hfm, hlm]
      dsimp only
      by_cases h20 : ((s1 :: rest).getLast (List.cons_ne_nil s1 rest)).2.load -
          s0.2.load < 20
      · rw [if_pos h20, if_pos h20]
      · rw [if_neg h20, if_neg h20]
        have hfind := find_fits_sorted s0.2.load
          ((s1 :: rest).getLast (List.cons_ne_nil s1 rest)).2.meters
        cases hfm2 : firstMinBy (fun m : IndividualMeter => m.cdl)
            ((s1 :: rest).getLast (List.cons_ne_nil s1 rest)).2.meters with
        | none =>
          rw [hfm2] at hfind
          have hfd : ((((s1 :: rest).getLast (List.cons_ne_nil s1 rest)).2.meters.mergeSort
              fun a b => decide (a.cdl ≤ b.cdl)).find? fun m =>
                decide (s0.2.load + m.cdl ≤ MAX_BREAKER_CAPACITY)) = none := hfind
          rw [hfd]
        | some m =>
          rw [hfm2] at hfind
          have hfd : ((((s1 :: rest).getLast (List.cons_ne_nil s1 rest)).2.meters.mergeSort
              fun a b => decide (a.cdl ≤ b.cdl)).find? fun m =>
                decide (s0.2.load + m.cdl ≤ MAX_BREAKER_CAPACITY)) =
              if s0.2.load + m.cdl ≤ MAX_BREAKER_CAPACITY then some m else none := hfind
          by_cases hfit : s0.2.load + m.cdl ≤ MAX_BREAKER_CAPACITY
          · rw [if_pos hfit] at hfd
            rw [hfd]
            dsimp only
            rw [if_pos hfit]
            exact ih _
          · rw [if_neg hfit] at hfd
            rw [hfd]
            dsimp only
            rw [if_neg hfit]

/-- C7 (amended): the internal rebalancer behaves as the claim words it,
except that a move is admitted whenever the target breaker stays within
`MAX_BREAKER_CAPACITY` (310 A), not the ≈248 A safe ceiling: skipping
dedicated transformers, it runs at most 5 rounds, each taking the least-
and most-loaded non-dedicated breakers holding at least one meter (first,
resp. last, on ties), stopping when fewer than two exist or their load
difference is below 20 A, and otherwise moving the smallest-cdl meter
(first on ties) of the most-loaded breaker when the move keeps the target
within 310 A, stopping if it does not. -/
theorem c7_internal_rebalancer (t : Transformer) :
    balanceTransformerInternally t = specBalanceTransformerInternally t := by
  unfold balanceTransformerInternally specBalanceTransformerInternally
  by_cases h : t.isDedicated = true
  · rw [if_pos h, if_pos h]
  · rw [if_neg h, if_neg h]
    exact balanceRounds_eq_spec 5 t

/-! ## Theorems about the resolver recombination pass (claim C9) -/

/-- A successful base-id lookup returns a stored entry with that base. -/
theorem part1Lookup_mem {entries : List (MeterId × Transformer × Breaker × IndividualMeter)}
    {base : MeterId} {e : MeterId × Transformer × Breaker × IndividualMeter}
    (h : part1Lookup entries base = some e) : e ∈ entries ∧ e.1 = base := by
  unfold part1Lookup at h
  constructor
  · have h2 := List.mem_of_find?_eq_some h
    simpa using h2
  · have h2 := List.find?_some h
    simpa using h2

/-- Every stored part-1 entry records a part-1 noted meter on its own
breaker. -/
theorem part1Entries_mem {allB : List (Transformer × Breaker)}
    {e : MeterId × Transformer × Breaker × IndividualMeter}
    (h : e ∈ part1Entries allB) :
    ∃ p ∈ allB, ∃ m ∈ p.2.meters, m.note = some SplitPart.p1 ∧
      e = (stripP1 m.id, p.1, p.2, m) := by
  unfold part1Entries at h
  rw [List.mem_flatMap] at h
  obtain ⟨p, hp, hmem⟩ := h
  rw [List.mem_map] at hmem
  obtain ⟨m, hm, hEq⟩ := hmem
  rw [List.mem_filter] at hm
  exact ⟨p, hp, m, hm.1, by simpa using hm.2, hEq.symm⟩

/-- Two distinct members satisfying the predicate force a filter of
length at least two. -/
theorem two_mem_filter_length {α : Type} {l : List α} {p : α → Bool} {a b : α}
    (ha : a ∈ l) (hb : b ∈ l) (hab : a ≠ b) (hpa : p a = true) (hpb : p b = true) :
    2 ≤ (l.filter p).length := by
  have ha2 : a ∈ l.filter p := List.mem_filter.mpr ⟨ha, hpa⟩
  have hb2 : b ∈ l.filter p := List.mem_filter.mpr ⟨hb, hpb⟩
  obtain ⟨l1, l2, hdec⟩ := List.append_of_mem ha2
  rw [hdec] at hb2 ⊢
  rw [List.length_append, List.length_cons]
  rcases List.mem_append.mp hb2 with h | h
  · have h3 := List.length_pos_of_mem h
    omega
  · rcases List.mem_cons.mp h with h | h
    · exact absurd h.symm hab
    · have h3 := List.length_pos_of_mem h
      omega

/-- Reading off a successful merge decision. -/
theorem specMergeData_parts {entries : List (MeterId × Transformer × Breaker × IndividualMeter)}
    {p : Transformer × Breaker} {d : (ℕ × ℕ) × (ℕ × ℕ) × ProcessedBreaker}
    (h : specMergeData entries p = some d) :
    ∃ m2, p.2.meters.find? (fun m => m.note = some SplitPart.p2) = some m2 ∧
      ∃ e, part1Lookup entries (stripP2 m2.id) = some e ∧
        d = ((e.2.1.id, e.2.2.1.id), (p.1.id, p.2.id), specMergeGroup p m2 e) := by
  unfold specMergeData at h
  cases hf : p.2.meters.find? fun m => m.note = some SplitPart.p2 with
  | none =>
    rw [hf] at h
    cases h
  | some m2 =>
    rw [hf] at h
    dsimp only at h
    cases hl : part1Lookup entries (stripP2 m2.id) with
    | none =>
      rw [hl] at h
      cases h
    | some e =>
      rw [hl] at h
      dsimp only at h
      injection h with h
      exact ⟨m2, rfl, e, hl, h.symm⟩

/-- A breaker whose part-2 search fails merges nothing. -/
theorem specMergeData_none_of_find_none
    {entries : List (MeterId × Transformer × Breaker × IndividualMeter)}
    {p : Transformer × Breaker}
    (hf : p.2.meters.find? (fun m => m.note = some SplitPart.p2) = none) :
    specMergeData entries p = none := by
  unfold specMergeData
  rw [hf]

/-- A breaker whose part-1 lookup fails merges nothing. -/
theorem specMergeData_none_of_lookup_none
    {entries : List (MeterId × Transformer × Breaker × IndividualMeter)}
    {p : Transformer × Breaker} {m2 : IndividualMeter}
    (hf : p.2.meters.find? (fun m => m.note = some SplitPart.p2) = some m2)
    (hl : part1Lookup entries (stripP2 m2.id) = none) :
    specMergeData entries p = none := by
  unfold specMergeData
  rw [hf]
  dsimp only
  rw [hl]

/-- The merge decision when both searches succeed. -/
theorem specMergeData_some_of
    {entries : List (MeterId × Transformer × Breaker × IndividualMeter)}
    {p : Transformer × Breaker} {m2 : IndividualMeter}
    {e : MeterId × Transformer × Breaker × IndividualMeter}
    (hf : p.2.meters.find? (fun m => m.note = some SplitPart.p2) = some m2)
    (hl : part1Lookup entries (stripP2 m2.id) = some e) :
    specMergeData entries p =
      some ((e.2.1.id, e.2.2.1.id), (p.1.id, p.2.id), specMergeGroup p m2 e) := by
  unfold specMergeData
  rw [hf]
  dsimp only
  rw [hl]

/-- `specHandled` over a cons. -/
theorem specHandled_cons (entries : List (MeterId × Transformer × Breaker × IndividualMeter))
    (p : Transformer × Breaker) (l : List (Transformer × Breaker)) :
    specHandled (p :: l) entries =
      (match specMergeData entries p with
        | some d => [d.1, d.2.1]
        | none => []) ++ specHandled l entries := by
  unfold specHandled
  rw [List.flatMap_cons]

/-- `specPass1` over a cons. -/
theorem specPass1_cons (entries : List (MeterId × Transformer × Breaker × IndividualMeter))
    (p : Transformer × Breaker) (l : List (Transformer × Breaker)) :
    specPass1 (p :: l) entries =
      (match specMergeData entries p with
        | some d => d.2.2 :: specPass1 l entries
        | none => specPass1 l entries) := by
  unfold specPass1
  rw [List.filterMap_cons]
  cases specMergeData entries p with
  | none => rfl
  | some d => rfl

/-- The recombination fold, run from any accumulator whose consumed keys
avoid every still-mergeable breaker, appends exactly the specification's
consumed keys and merged groups. -/
theorem recombine_go (entries : List (MeterId × Transformer × Breaker × IndividualMeter)) :
    ∀ (l : List (Transformer × Breaker)) (acc : List (ℕ × ℕ) × List ProcessedBreaker),
      ((l.map fun p => (p.1.id, p.2.id)).Nodup) →
      (∀ p ∈ l, ∀ d, specMergeData entries p = some d →
        ∀ q ∈ l, (q.1.id, q.2.id) = d.1 → specMergeData entries q = none) →
      (∀ p ∈ l, (p.1.id, p.2.id) ∈ acc.1 → specMergeData entries p = none) →
      l.foldl
        (fun st p =>
          let t := p.1
          let b := p.2
          let key := (t.id, b.id)
          if key ∈ st.1 then st
          else
            match b.meters.find? fun m => m.note = some SplitPart.p2 with
            | none => st
            | some part2Meter =>
              let baseId := stripP2 part2Meter.id
              match part1Lookup entries baseId with
              | none => st
              | some e =>
                let t1 := e.2.1
                let b1 := e.2.2.1
                let meter1 := e.2.2.2
                let key1 := (t1.id, b1.id)
                let originalMeter : IndividualMeter :=
                  { meter1 with id := baseId, cdl := meter1.cdl + part2Meter.cdl, note := none }
                let allMetersInPair :=
                  originalMeter ::
                    ((b1.meters.filter fun m => decide (m.id ≠ meter1.id)) ++
                      (b.meters.filter fun m => decide (m.id ≠ part2Meter.id)))
                (st.1 ++ [key1, key],
                 st.2 ++ [{ id := PBId.meterBase baseId, tid := t1.id, lead := b1.number,
                            second := some b.number, meters := allMetersInPair }]))
        acc =
      (acc.1 ++ specHandled l entries, acc.2 ++ specPass1 l entries) := by
  intro l
  induction l with
  | nil =>
    intro acc _ _ _
    simp [specHandled, specPass1]
  | cons p l ih =>
    intro acc hn h2 hacc
    rw [List.foldl_cons]
    dsimp only
    rw [specHandled_cons, specPass1_cons]
    by_cases hkey : (p.1.id, p.2.id) ∈ acc.1
    · have hmd := hacc p (List.mem_cons_self _ _) hkey
      rw [if_pos hkey, hmd]
      dsimp only
      rw [List.nil_append]
      exact ih acc (by simpa using (List.nodup_cons.mp hn).2)
        (fun q hq d hd q2 hq2 => h2 q (List.mem_cons_of_mem _ hq) d hd q2
          (List.mem_cons_of_mem _ hq2))
        (fun q hq => hacc q (List.mem_cons_of_mem _ hq))
    · rw [if_neg hkey]
      cases hf : p.2.meters.find? fun m => m.note = some SplitPart.p2 with
      | none =>
        have hmd := @specMergeData_none_of_find_none entries p hf
        rw [hmd]
        dsimp only
        rw [List.nil_append]
        exact ih acc (by simpa using (List.nodup_cons.mp hn).2)
          (fun q hq d hd q2 hq2 => h2 q (List.mem_cons_of_mem _ hq) d hd q2
            (List.mem_cons_of_mem _ hq2))
          (fun q hq => hacc q (List.mem_cons_of_mem _ hq))
      | some m2 =>
        dsimp only
        cases hl : part1Lookup entries (stripP2 m2.id) with
        | none =>
          have hmd := specMergeData_none_of_lookup_none hf hl
          rw [hmd]
          dsimp only
          rw [List.nil_append]
          exact ih acc (by simpa using (List.nodup_cons.mp hn).2)
            (fun q hq d hd q2 hq2 => h2 q (List.mem_cons_of_mem _ hq) d hd q2
              (List.mem_cons_of_mem _ hq2))
            (fun q hq => hacc q (List.mem_cons_of_mem _ hq))
        | some e =>
          have hmd := specMergeData_some_of hf hl
          rw [hmd]
          dsimp only
          have hacc2 : ∀ q ∈ l,
              (q.1.id, q.2.id) ∈ acc.1 ++ [(e.2.1.id, e.2.2.1.id), (p.1.id, p.2.id)] →
              specMergeData entries q = none := by
            intro q hq hmem
            rcases List.mem_append.mp hmem with hmem | hmem
            · exact hacc q (List.mem_cons_of_mem _ hq) hmem
            · rcases List.mem_cons.mp hmem with hmem | hmem
              · exact h2 p (List.mem_cons_self _ _) _ hmd q
                  (List.mem_cons_of_mem _ hq) hmem
              · exfalso
                have hmem2 : (q.1.id, q.2.id) = (p.1.id, p.2.id) := by
                  simpa using hmem
                have hnotin := (List.nodup_cons.mp hn).1
                have hin : (q.1.id, q.2.id) ∈ List.map (fun p => (p.1.id, p.2.id)) l :=
                  List.mem_map_of_mem _ hq
                rw [hmem2] at hin
                exact hnotin hin
          have hstep := ih (acc.1 ++ [(e.2.1.id, e.2.2.1.id), (p.1.id, p.2.id)],
              acc.2 ++ [specMergeGroup p m2 e])
            (by simpa using (List.nodup_cons.mp hn).2)
            (fun q hq d hd q2 hq2 => h2 q (List.mem_cons_of_mem _ hq) d hd q2
              (List.mem_cons_of_mem _ hq2))
            hacc2
          refine hstep.trans ?_
          simp [List.append_assoc]

/-! ## Shared facts about the placement and consolidation searches -/

/-- Enumerated lists have pairwise distinct entries. -/
theorem enum_nodup {α : Type} (l : List α) : l.enum.Nodup := by
  have h := List.enum_map_fst l
  have h2 : (l.enum.map Prod.fst).Nodup := by
    rw [h]
    exact List.nodup_range _
  exact h2.of_map _

/-- Entries of one enumeration sharing an index are equal. -/
theorem enum_index_inj {α : Type} {l : List α} {p q : ℕ × α}
    (hp : p ∈ l.enum) (hq : q ∈ l.enum) (h : p.1 = q.1) : p = q := by
  obtain ⟨i, a⟩ := p
  obtain ⟨j, b⟩ := q
  have hp2 : l[i]? = some a := List.mem_enum_iff_getElem?.mp hp
  have hq2 : l[j]? = some b := List.mem_enum_iff_getElem?.mp hq
  have hij : i = j := h
  subst hij
  rw [hp2] at hq2
  injection hq2 with hq2
  rw [hq2]

/-- What membership in `eligiblePositions` says about the state. -/
theorem eligible_mem_ok {meter : IndividualMeter} {ts : List Transformer} {e : ℕ × ℕ × ℚ}
    (h : e ∈ eligiblePositions meter ts) :
    ∃ t b, ts[e.1]? = some t ∧ t.breakers[e.2.1]? = some b ∧
      t.isDedicated = false ∧ ¬(t.assignedLoad + meter.cdl > t.type.safeLoad) ∧
      b.dedicated = false ∧ ¬(b.load + meter.cdl > MAX_BREAKER_CAPACITY) ∧
      e.2.2 = b.load := by
  unfold eligiblePositions at h
  rw [List.mem_flatMap] at h
  obtain ⟨p, hp, hmem⟩ := h
  by_cases hc : p.2.isDedicated = true ∨ p.2.assignedLoad + meter.cdl > p.2.type.safeLoad
  · rw [if_pos hc] at hmem
    cases hmem
  · rw [if_neg hc] at hmem
    rw [List.mem_filterMap] at hmem
    obtain ⟨q, hq, hqe⟩ := hmem
    by_cases hc2 : q.2.dedicated = true ∨ q.2.load + meter.cdl > MAX_BREAKER_CAPACITY
    · rw [if_pos hc2] at hqe
      cases hqe
    · rw [if_neg hc2] at hqe
      injection hqe with hqe
      subst hqe
      obtain ⟨i, t⟩ := p
      obtain ⟨j, b⟩ := q
      rcases not_or.mp hc with ⟨hc1a, hc1b⟩
      rcases not_or.mp hc2 with ⟨hc2a, hc2b⟩
      exact ⟨t, b, List.mem_enum_iff_getElem?.mp hp, List.mem_enum_iff_getElem?.mp hq,
        Bool.not_eq_true _ ▸ hc1a, hc1b, Bool.not_eq_true _ ▸ hc2a, hc2b, rfl⟩

/-- Membership in `orderedPairs`: both components are members, distinct
when the list has no duplicates. -/
theorem mem_orderedPairs {α : Type} :
    ∀ {l : List α} {pr : α × α}, pr ∈ orderedPairs l →
      pr.1 ∈ l ∧ pr.2 ∈ l ∧ (l.Nodup → pr.1 ≠ pr.2) := by
  intro l
  induction l with
  | nil =>
    intro pr h
    cases h
  | cons x xs ih =>
    intro pr h
    unfold orderedPairs at h
    rw [List.mem_append] at h
    rcases h with h | h
    · rw [List.mem_map] at h
      obtain ⟨y, hy, hEq⟩ := h
      subst hEq
      refine ⟨List.mem_cons_self _ _, List.mem_cons_of_mem _ hy, ?_⟩
      intro hnd hEq2
      rw [List.nodup_cons] at hnd
      have hxy : x = y := hEq2
      exact hnd.1 (hxy ▸ hy)
    · obtain ⟨h1, h2, h3⟩ := ih h
      exact ⟨List.mem_cons_of_mem _ h1, List.mem_cons_of_mem _ h2,
        fun hnd => h3 (List.nodup_cons.mp hnd).2⟩

/-- `pickSmaller4` folding computes `firstMinBy` on the score. -/
theorem foldl_pickSmaller4_eq_firstMinBy (l : List (ℕ × ℕ × ℕ × ℚ)) :
    l.foldl pickSmaller4 none = firstMinBy (fun e => e.2.2.2) l := by
  unfold firstMinBy
  apply List.foldl_ext
  intro a b _
  cases a with
  | none => rfl
  | some e0 => rfl

/-- The pair search is the `pickSmaller4` fold over the candidate
pairs. -/
theorem pairSearch_eq_foldl (meter : IndividualMeter) (ts : List Transformer) :
    findBestBreakerPairForEvenDistribution meter ts =
      (pairCandidates meter ts).foldl pickSmaller4 none := by
  unfold findBestBreakerPairForEvenDistribution pairCandidates
  dsimp only
  have H : ∀ (l : List (ℕ × Transformer)) (init : Option (ℕ × ℕ × ℕ × ℚ)),
      l.foldl (fun best p =>
        if p.2.isDedicated = true then best
        else if p.2.assignedLoad + meter.cdl > p.2.type.safeLoad then best
        else
          if (p.2.breakers.enum.filter fun q =>
              !q.2.dedicated && decide (q.2.load + meter.cdl / 2 ≤ MAX_BREAKER_CAPACITY)).length < 2
          then best
          else
            (orderedPairs (p.2.breakers.enum.filter fun q =>
                !q.2.dedicated &&
                  decide (q.2.load + meter.cdl / 2 ≤ MAX_BREAKER_CAPACITY))).foldl
              (fun best pr =>
                pickSmaller4 best (p.1, pr.1.1, pr.2.1, pr.1.2.load + pr.2.2.load))
              best) init =
      (l.flatMap fun p =>
        if p.2.isDedicated = true ∨ p.2.assignedLoad + meter.cdl > p.2.type.safeLoad then []
        else
          if (p.2.breakers.enum.filter fun q =>
              !q.2.dedicated && decide (q.2.load + meter.cdl / 2 ≤ MAX_BREAKER_CAPACITY)).length < 2
          then []
          else
            (orderedPairs (p.2.breakers.enum.filter fun q =>
                !q.2.dedicated &&
                  decide (q.2.load + meter.cdl / 2 ≤ MAX_BREAKER_CAPACITY))).map
              fun pr => (p.1, pr.1.1, pr.2.1, pr.1.2.load + pr.2.2.load)).foldl
        pickSmaller4 init := by
    intro l
    induction l with
    | nil => intro init; rfl
    | cons p l ih =>
      intro init
      simp only [List.foldl_cons, List.flatMap_cons]
      by_cases h1 : p.2.isDedicated = true
      · rw [if_pos h1, if_pos (Or.inl h1)]
        simpa using ih init
      · by_cases h2 : p.2.assignedLoad + meter.cdl > p.2.type.safeLoad
        · rw [if_neg h1, if_pos h2, if_pos (Or.inr h2)]
          simpa using ih init
        · rw [if_neg h1, if_neg h2, if_neg (not_or.mpr ⟨h1, h2⟩)]
          by_cases h3 : (p.2.breakers.enum.filter fun q =>
              !q.2.dedicated &&
                decide (q.2.load + meter.cdl / 2 ≤ MAX_BREAKER_CAPACITY)).length < 2
          · rw [if_pos h3, if_pos h3]
            simpa using ih init
          · rw [if_neg h3, if_neg h3, List.foldl_append, List.foldl_map]
            exact ih _
  exact H ts.enum none

/-- What membership in `pairCandidates` says about the state. -/
theorem pairCand_mem_ok {meter : IndividualMeter} {ts : List Transformer}
    {r : ℕ × ℕ × ℕ × ℚ} (h : r ∈ pairCandidates meter ts) :
    ∃ t b1 b2, ts[r.1]? = some t ∧ t.isDedicated = false ∧
      ¬(t.assignedLoad + meter.cdl > t.type.safeLoad) ∧
      t.breakers[r.2.1]? = some b1 ∧ t.breakers[r.2.2.1]? = some b2 ∧ r.2.1 ≠ r.2.2.1 ∧
      b1.dedicated = false ∧ b2.dedicated = false ∧
      b1.load + meter.cdl / 2 ≤ MAX_BREAKER_CAPACITY ∧
      b2.load + meter.cdl / 2 ≤ MAX_BREAKER_CAPACITY := by
  unfold pairCandidates at h
  rw [List.mem_flatMap] at h
  obtain ⟨p, hp, hmem⟩ := h
  dsimp only at hmem
  by_cases hc : p.2.isDedicated = true ∨ p.2.assignedLoad + meter.cdl > p.2.type.safeLoad
  · rw [if_pos hc] at hmem
    cases hmem
  · rw [if_neg hc] at hmem
    by_cases h3 : (p.2.breakers.enum.filter fun q =>
        !q.2.dedicated && decide (q.2.load + meter.cdl / 2 ≤ MAX_BREAKER_CAPACITY)).length < 2
    · rw [if_pos h3] at hmem
      cases hmem
    · rw [if_neg h3] at hmem
      rw [List.mem_map] at hmem
      obtain ⟨pr, hpr, hEq⟩ := hmem
      obtain ⟨hpr1, hpr2, hprne⟩ := mem_orderedPairs hpr
      have hnd : (p.2.breakers.enum.filter fun q =>
          !q.2.dedicated && decide (q.2.load + meter.cdl / 2 ≤ MAX_BREAKER_CAPACITY)).Nodup :=
        (enum_nodup _).filter _
      rw [List.mem_filter] at hpr1 hpr2
      have hsplit1 := hpr1.2
      have hsplit2 := hpr2.2
      rw [Bool.and_eq_true] at hsplit1 hsplit2
      obtain ⟨hd1, hl1⟩ := hsplit1
      obtain ⟨hd2, hl2⟩ := hsplit2
      rcases not_or.mp hc with ⟨hc1, hc2⟩
      subst hEq
      obtain ⟨i, t⟩ := p
      refine ⟨t, pr.1.2, pr.2.2, List.mem_enum_iff_getElem?.mp hp,
        Bool.not_eq_true _ ▸ hc1, hc2, ?_, ?_, ?_, ?_, ?_, ?_, ?_⟩
      · exact List.mem_enum_iff_getElem?.mp (by simpa using hpr1.1)
      · exact List.mem_enum_iff_getElem?.mp (by simpa using hpr2.1)
      · intro hEq2
        exact hprne hnd (enum_index_inj hpr1.1 hpr2.1 hEq2)
      · simpa using hd1
      · simpa using hd2
      · exact of_decide_eq_true hl1
      · exact of_decide_eq_true hl2

/-- The inner breaker loop of the consolidation search skips exactly the
excluded breakers and feeds the fitting rest, in order, to
`pickSmaller`. -/
theorem consSearch_inner (meter : IndividualMeter) (srcParentId srcBreakerId : ℕ)
    (ti : ℕ) (pid : ℕ) :
    ∀ (bs : List (ℕ × Breaker)) (init : Option (ℕ × ℕ × ℚ)),
      bs.foldl (fun best q =>
          if (q.2.id = srcBreakerId ∧ pid = srcParentId) ∨ q.2.dedicated = true ∨
              q.2.meters.length = 0 then best
          else if q.2.load + meter.cdl ≤ MAX_BREAKER_CAPACITY then
            pickSmaller best (ti, q.1, q.2.load)
          else best) init =
        (bs.filterMap fun q =>
          if (q.2.id = srcBreakerId ∧ pid = srcParentId) ∨ q.2.dedicated = true ∨
              q.2.meters.length = 0 then none
          else if q.2.load + meter.cdl ≤ MAX_BREAKER_CAPACITY then
            some (ti, q.1, q.2.load)
          else none).foldl pickSmaller init := by
  intro bs
  induction bs with
  | nil => intro init; rfl
  | cons q bs ih =>
    intro init
    simp only [List.foldl_cons, List.filterMap_cons]
    by_cases h : (q.2.id = srcBreakerId ∧ pid = srcParentId) ∨ q.2.dedicated = true ∨
        q.2.meters.length = 0
    · simp only [if_pos h]
      exact ih init
    · simp only [if_neg h]
      by_cases h2 : q.2.load + meter.cdl ≤ MAX_BREAKER_CAPACITY
      · simp only [if_pos h2]
        exact ih (pickSmaller init (ti, q.1, q.2.load))
      · simp only [if_neg h2]
        exact ih init

/-- The consolidation target search is the `pickSmaller` fold over its
candidates. -/
theorem consSearch_eq_foldl (meter : IndividualMeter) (srcParentId srcBreakerId : ℕ)
    (ts : List Transformer) :
    findConsolidationTarget meter srcParentId srcBreakerId ts =
      (consCandidates meter srcParentId srcBreakerId ts).foldl pickSmaller none := by
  unfold findConsolidationTarget consCandidates
  dsimp only
  have H : ∀ (l : List (ℕ × Transformer)) (init : Option (ℕ × ℕ × ℚ)),
      l.foldl (fun best p =>
        if p.2.isDedicated = true then best
        else if p.2.id ≠ srcParentId ∧ p.2.assignedLoad + meter.cdl > p.2.type.safeLoad
        then best
        else
          p.2.breakers.enum.foldl (fun best q =>
            if (q.2.id = srcBreakerId ∧ p.2.id = srcParentId) ∨ q.2.dedicated = true ∨
                q.2.meters.length = 0 then best
            else if q.2.load + meter.cdl ≤ MAX_BREAKER_CAPACITY then
              pickSmaller best (p.1, q.1, q.2.load)
            else best) best) init =
      (l.flatMap fun p =>
        if p.2.isDedicated = true then []
        else if p.2.id ≠ srcParentId ∧ p.2.assignedLoad + meter.cdl > p.2.type.safeLoad
        then []
        else
          p.2.breakers.enum.filterMap fun q =>
            if (q.2.id = srcBreakerId ∧ p.2.id = srcParentId) ∨ q.2.dedicated = true ∨
                q.2.meters.length = 0 then none
            else if q.2.load + meter.cdl ≤ MAX_BREAKER_CAPACITY then
              some (p.1, q.1, q.2.load)
            else none).foldl pickSmaller init := by
    intro l
    induction l with
    | nil => intro init; rfl
    | cons p l ih =>
      intro init
      simp only [List.foldl_cons, List.flatMap_cons]
      by_cases h1 : p.2.isDedicated = true
      · rw [if_pos h1, if_pos h1]
        simpa using ih init
      · by_cases h2 : p.2.id ≠ srcParentId ∧
            p.2.assignedLoad + meter.cdl > p.2.type.safeLoad
        · rw [if_neg h1, if_neg h1, if_pos h2, if_pos h2]
          simpa using ih init
        · rw [if_neg h1, if_neg h1, if_neg h2, if_neg h2, List.foldl_append,
            consSearch_inner meter srcParentId srcBreakerId p.1 p.2.id
              p.2.breakers.enum init]
          exact ih _
  exact H ts.enum none

/-- What membership in `consCandidates` says about the state. -/
theorem consCand_mem_ok {meter : IndividualMeter} {srcParentId srcBreakerId : ℕ}
    {ts : List Transformer} {r : ℕ × ℕ × ℚ}
    (h : r ∈ consCandidates meter srcParentId srcBreakerId ts) :
    ∃ t b, ts[r.1]? = some t ∧ t.breakers[r.2.1]? = some b ∧
      t.isDedicated = false ∧ ¬(b.id = srcBreakerId ∧ t.id = srcParentId) ∧
      b.dedicated = false ∧ 0 < b.meters.length ∧
      b.load + meter.cdl ≤ MAX_BREAKER_CAPACITY ∧ r.2.2 = b.load := by
  unfold consCandidates at h
  rw [List.mem_flatMap] at h
  obtain ⟨p, hp, hmem⟩ := h
  by_cases h1 : p.2.isDedicated = true
  · rw [if_pos h1] at hmem
    cases hmem
  · rw [if_neg h1] at hmem
    by_cases h2 : p.2.id ≠ srcParentId ∧ p.2.assignedLoad + meter.cdl > p.2.type.safeLoad
    · rw [if_pos h2] at hmem
      cases hmem
    · rw [if_neg h2] at hmem
      rw [List.mem_filterMap] at hmem
      obtain ⟨q, hq, hqe⟩ := hmem
      by_cases h3 : (q.2.id = srcBreakerId ∧ p.2.id = srcParentId) ∨
          q.2.dedicated = true ∨ q.2.meters.length = 0
      · rw [if_pos h3] at hqe
        cases hqe
      · rw [if_neg h3] at hqe
        by_cases h4 : q.2.load + meter.cdl ≤ MAX_BREAKER_CAPACITY
        · rw [if_pos h4] at hqe
          injection hqe with hqe
          subst hqe
          obtain ⟨i, t⟩ := p
          obtain ⟨j, b⟩ := q
          rcases not_or.mp h3 with ⟨h3a, h3rest⟩
          rcases not_or.mp h3rest with ⟨h3b, h3c⟩
          exact ⟨t, b, List.mem_enum_iff_getElem?.mp hp, List.mem_enum_iff_getElem?.mp hq,
            Bool.not_eq_true _ ▸ h1, h3a, Bool.not_eq_true _ ▸ h3b,
            Nat.pos_of_ne_zero h3c, h4, rfl⟩
        · rw [if_neg h4] at hqe
          cases hqe

/-- What membership in `collectSingles` says about the state. -/
theorem collectSingles_mem {ts : List Transformer} {s : SingleSrc}
    (h : s ∈ collectSingles ts) :
    ∃ t b, ts[s.ti]? = some t ∧ t.breakers[s.bi]? = some b ∧ b.meters = [s.meter] ∧
      b.dedicated = false ∧ s.parentId = t.id ∧ s.breakerId = b.id ∧ s.load = b.load := by
  unfold collectSingles at h
  rw [List.mem_flatMap] at h
  obtain ⟨p, hp, hmem⟩ := h
  rw [List.mem_filterMap] at hmem
  obtain ⟨q, hq, hqe⟩ := hmem
  cases hms : q.2.meters with
  | nil =>
    rw [hms] at hqe
    cases hqe
  | cons m rest =>
    cases rest with
    | cons m2 rest2 =>
      rw [hms] at hqe
      cases hqe
    | nil =>
      rw [hms] at hqe
      dsimp only at hqe
      by_cases hcond : (!q.2.dedicated && decide (20 ≤ m.capacity) &&
          decide (m.capacity ≤ 300)) = true
      · rw [if_pos hcond] at hqe
        injection hqe with hqe
        subst hqe
        obtain ⟨i, t⟩ := p
        obtain ⟨j, b⟩ := q
        rw [Bool.and_eq_true, Bool.and_eq_true] at hcond
        refine ⟨t, b, List.mem_enum_iff_getElem?.mp hp, List.mem_enum_iff_getElem?.mp hq,
          hms, ?_, rfl, rfl, rfl⟩
        have hd := hcond.1.1
        simpa using hd
      · rw [if_neg hcond] at hqe
        cases hqe

/-- A guarded appending fold is an append of a `filterMap`. -/
theorem foldl_filterAppend {α β : Type} (C : α → Prop) [DecidablePred C] (g : α → β) :
    ∀ (l : List α) (acc : List β),
      l.foldl (fun acc p => if C p then acc else acc ++ [g p]) acc =
        acc ++ l.filterMap fun p => if C p then none else some (g p) := by
  intro l
  induction l with
  | nil =>
    intro acc
    simp
  | cons x xs ih =>
    intro acc
    rw [List.foldl_cons, List.filterMap_cons]
    by_cases h : C x
    · rw [if_pos h, if_pos h]
      dsimp only
      exact ih acc
    · rw [if_neg h, if_neg h]
      dsimp only
      rw [ih (acc ++ [g x])]
      simp [List.append_assoc]

/-- C9 (amended): under distinct breaker keys and at most one split-noted
meter per breaker, `getProcessedBreakers` recombines exactly as the
amended description says: for each breaker whose meter list contains a
meter noted `'جزء 2'` (only the first such meter), the `'جزء 1'` sibling
is looked up by base id in a global map over all transformers (latest
entry per base id — not restricted to the same transformer), the merged
logical group carries the reconstituted meter with cdl the sum of the two
halves followed by both breakers' remaining meters, both breakers' keys
are consumed, and the remaining non-empty unconsumed breakers are emitted
as their own groups, all sorted by transformer id and leading breaker
number. -/
theorem c9_resolver_recombination (ts : List Transformer)
    (h1 : breakerKeysNodup ts) (h2 : onePartNotedPerBreaker ts) :
    getProcessedBreakers ts = specProcessedBreakers ts := by
  have H2 : ∀ p ∈ allBreakersWithTransformer ts, ∀ d,
      specMergeData (part1Entries (allBreakersWithTransformer ts)) p = some d →
      ∀ q ∈ allBreakersWithTransformer ts, (q.1.id, q.2.id) = d.1 →
      specMergeData (part1Entries (allBreakersWithTransformer ts)) q = none := by
    intro p hp d hmd q hq hkey
    obtain ⟨m2, hf, e, hl, hde⟩ := specMergeData_parts hmd
    obtain ⟨hee, hbase⟩ := part1Lookup_mem hl
    obtain ⟨pb1, hpb1, m1, hm1, hnote1, heq⟩ := part1Entries_mem hee
    subst heq
    have hd1 : d.1 = (pb1.1.id, pb1.2.id) := by rw [hde]
    have hqq : q = pb1 := by
      have hinj := List.inj_on_of_nodup_map h1
      refine hinj hq hpb1 ?_
      show (q.1.id, q.2.id) = (pb1.1.id, pb1.2.id)
      rw [hkey, hd1]
    rw [hqq]
    cases hf2 : pb1.2.meters.find? fun m => m.note = some SplitPart.p2 with
    | none => exact specMergeData_none_of_find_none hf2
    | some m2b =>
      exfalso
      have hm2b : m2b ∈ pb1.2.meters := List.mem_of_find?_eq_some hf2
      have hn2b : m2b.note = some SplitPart.p2 := by
        have h3 := List.find?_some hf2
        simpa using h3
      have hne : m1 ≠ m2b := by
        intro hEq
        rw [← hEq, hnote1] at hn2b
        cases hn2b
      have hpa : (fun m : IndividualMeter => decide (m.note ≠ none)) m1 = true := by
        show decide (m1.note ≠ none) = true
        rw [hnote1]
        rfl
      have hpb : (fun m : IndividualMeter => decide (m.note ≠ none)) m2b = true := by
        show decide (m2b.note ≠ none) = true
        rw [hn2b]
        rfl
      have hlen := @two_mem_filter_length IndividualMeter pb1.2.meters
        (fun m => decide (m.note ≠ none)) m1 m2b hm1 hm2b hne hpa hpb
      have hone := h2 pb1 hpb1
      omega
  have hrec : recombinePass (allBreakersWithTransformer ts)
      (part1Entries (allBreakersWithTransformer ts)) =
      (specHandled (allBreakersWithTransformer ts)
         (part1Entries (allBreakersWithTransformer ts)),
       specPass1 (allBreakersWithTransformer ts)
         (part1Entries (allBreakersWithTransformer ts))) :=
    recombine_go (part1Entries (allBreakersWithTransformer ts))
      (allBreakersWithTransformer ts) ([], []) h1 H2
      (fun p hp hmem => absurd hmem (List.not_mem_nil _))
  unfold getProcessedBreakers specProcessedBreakers
  dsimp only
  rw [hrec]
  dsimp only
  rw [foldl_filterAppend
    (fun p : Transformer × Breaker =>
      (p.1.id, p.2.id) ∈ specHandled (allBreakersWithTransformer ts)
        (part1Entries (allBreakersWithTransformer ts)) ∨ p.2.meters.length = 0)
    (fun p : Transformer × Breaker =>
      { id := PBId.tb p.1.id p.2.id, tid := p.1.id, lead := p.2.number,
        second := none, meters := p.2.meters : ProcessedBreaker })
    (allBreakersWithTransformer ts)
    (specPass1 (allBreakersWithTransformer ts)
      (part1Entries (allBreakersWithTransformer ts)))]
  rfl

/-- C9 witness: the amended recombination applied to a concrete state
(the two halves of meter `5_0` on different breakers of one transformer,
a plain meter beside the part-1 half). -/
theorem c9_witness :
    breakerKeysNodup wit9 ∧ onePartNotedPerBreaker wit9 ∧
      getProcessedBreakers wit9 = specProcessedBreakers wit9 := by
  refine ⟨?_, ?_, ?_⟩
  · unfold breakerKeysNodup
    with_unfolding_all decide
  · unfold onePartNotedPerBreaker
    with_unfolding_all decide
  · exact c9_resolver_recombination wit9
      (by unfold breakerKeysNodup; with_unfolding_all decide)
      (by unfold onePartNotedPerBreaker; with_unfolding_all decide)

set_option maxRecDepth 8000 in
/-- C9 counterexample: on the plan the engine itself produces for `cx9`,
both halves of meter `2_0` sit on one breaker; the resolver then merges
that breaker with itself (emitting `lead = 4`, `second = 4`, not a pair
of distinct breakers) and duplicates its remaining meters, so the
processed groups carry 1000 A of cdl against the plan's 600 A — the
part-1 sibling is neither on another breaker nor is double counting
avoided. -/
theorem c9_counterexample :
    ((performBalancedDistributionMultiTransformer cx9).map fun r =>
        (totalMeterLoad r.transformers,
         ((getProcessedBreakers r.transformers).map fun pb => metersLoad pb.meters).sum)) =
      some (600, 1000) ∧
    ((performBalancedDistributionMultiTransformer cx9).map fun r =>
        (getProcessedBreakers r.transformers).map fun pb => (pb.lead, pb.second)) =
      some [(1, none), (4, some 4), (6, some 6)] ∧
    (600 : ℚ) ≠ 1000 := by
  refine ⟨?_, ?_, ?_⟩
  · with_unfolding_all rfl
  · with_unfolding_all rfl
  · norm_num

set_option maxRecDepth 4000 in
/-- C7 counterexample: on `cx7Transformer` (breakers loaded 300 and 230)
the rebalancer moves the 40 A meter onto the 230 A breaker, landing it at
270 A — a move that does not keep the target under the ≈248 A breaker
safe ceiling the claim requires, because the code bounds moves by the
310 A `MAX_BREAKER_CAPACITY` instead. -/
theorem c7_counterexample :
    (balanceTransformerInternally cx7Transformer).breakers.map
        (fun b => (b.number, b.load)) = [(1, 260), (2, 270)] ∧
      MAX_BREAKER_SAFE_CAPACITY < 270 := by
  constructor
  · with_unfolding_all rfl
  · with_unfolding_all exact of_decide_eq_true rfl

/-! ## Basic facts about the bookkeeping operations -/

/-- Stat refresh leaves the meter list unchanged. -/
theorem updateBreakerStats_meters (b : Breaker) :
    (updateBreakerStats b).meters = b.meters := rfl

/-- Stat refresh leaves the dedication flag unchanged. -/
theorem updateBreakerStats_dedicated (b : Breaker) :
    (updateBreakerStats b).dedicated = b.dedicated := rfl

/-- Stat refresh leaves the breaker id unchanged. -/
theorem updateBreakerStats_id (b : Breaker) :
    (updateBreakerStats b).id = b.id := rfl

/-- Stat refresh stores the sum of the meters' cdls as the load. -/
theorem updateBreakerStats_load (b : Breaker) :
    (updateBreakerStats b).load = metersLoad b.meters := rfl

/-- `metersLoad` over flattened breaker contents. -/
theorem metersLoad_flatMap (bs : List Breaker) :
    metersLoad (bs.flatMap (·.meters)) = (bs.map fun b => metersLoad b.meters).sum := by
  induction bs with
  | nil => rfl
  | cons b bs ih =>
    rw [List.flatMap_cons, metersLoad_append, List.map_cons, List.sum_cons, ih]

/-- `allMeters` over a cons. -/
theorem allMeters_cons (t : Transformer) (ts : List Transformer) :
    allMeters (t :: ts) = t.breakers.flatMap (·.meters) ++ allMeters ts := by
  unfold allMeters
  rw [List.flatMap_cons]

/-- `allMeters` over an append. -/
theorem allMeters_append (ts1 ts2 : List Transformer) :
    allMeters (ts1 ++ ts2) = allMeters ts1 ++ allMeters ts2 := by
  unfold allMeters
  rw [List.flatMap_append]

/-- Refreshing stats does not move meters. -/
theorem flatMap_meters_map_ubs (bs : List Breaker) :
    (bs.map updateBreakerStats).flatMap (·.meters) = bs.flatMap (·.meters) := by
  induction bs with
  | nil => rfl
  | cons b bs ih =>
    rw [List.map_cons, List.flatMap_cons, List.flatMap_cons, updateBreakerStats_meters, ih]

/-- The members of a refreshed state. -/
theorem updateAllStats_mem {ts : List Transformer} {t' : Transformer}
    (h : t' ∈ updateAllStats ts) :
    ∃ t ∈ ts, t' = { t with breakers := t.breakers.map updateBreakerStats, assignedLoad := ((t.breakers.map updateBreakerStats).map (·.load)).sum } := by
  unfold updateAllStats at h
  rw [List.mem_map] at h
  obtain ⟨t, ht, hEq⟩ := h
  exact ⟨t, ht, hEq.symm⟩

/-- Refreshing stats does not move meters (state level). -/
theorem allMeters_updateAllStats (ts : List Transformer) :
    allMeters (updateAllStats ts) = allMeters ts := by
  unfold updateAllStats
  induction ts with
  | nil => rfl
  | cons t ts ih =>
    rw [List.map_cons, allMeters_cons, allMeters_cons, ih]
    congr 1
    exact flatMap_meters_map_ubs t.breakers

/-- `sumAssigned` over a cons. -/
theorem sumAssigned_cons (t : Transformer) (ts : List Transformer) :
    sumAssigned (t :: ts) = t.assignedLoad + sumAssigned ts := by
  unfold sumAssigned
  rw [List.map_cons, List.sum_cons]

/-- After a stat refresh the assigned loads sum to the carried meter
load. -/
theorem sumAssigned_updateAllStats (ts : List Transformer) :
    sumAssigned (updateAllStats ts) = totalMeterLoad ts := by
  unfold totalMeterLoad
  induction ts with
  | nil => rfl
  | cons t ts ih =>
    show sumAssigned (updateAllStats (t :: ts)) = _
    unfold updateAllStats
    rw [List.map_cons, sumAssigned_cons, allMeters_cons, metersLoad_append]
    unfold updateAllStats at ih
    rw [ih]
    congr 1
    show ((t.breakers.map updateBreakerStats).map (·.load)).sum =
      metersLoad (t.breakers.flatMap (·.meters))
    rw [metersLoad_flatMap, List.map_map]
    exact congrArg List.sum (List.map_congr_left (fun b _ => updateBreakerStats_load b))

/-- Refreshing stats preserves the flag invariant. -/
theorem updateAllStats_flagInv {ts : List Transformer} (h : FlagInv ts) :
    FlagInv (updateAllStats ts) := by
  intro t' ht'
  obtain ⟨t, ht, hEq⟩ := updateAllStats_mem ht'
  subst hEq
  intro b' hb'
  have hb2 : b' ∈ t.breakers.map updateBreakerStats := hb'
  rw [List.mem_map] at hb2
  obtain ⟨b, hb, hEq2⟩ := hb2
  subst hEq2
  obtain ⟨hflag, hshape⟩ := h t ht b hb
  refine ⟨?_, ?_⟩
  · rw [updateBreakerStats_dedicated]
    exact hflag
  · intro hded
    rw [updateBreakerStats_dedicated] at hded
    obtain ⟨m, hm, hn⟩ := hshape hded
    exact ⟨m, by rw [updateBreakerStats_meters, hm], hn⟩

/-- Refreshing stats on a capacity core gives the full capacity
invariant. -/
theorem updateAllStats_capInv {ts : List Transformer} (h : CapCore ts) :
    CapInv (updateAllStats ts) := by
  intro t' ht'
  obtain ⟨t, ht, hEq⟩ := updateAllStats_mem ht'
  subst hEq
  intro b' hb'
  have hb2 : b' ∈ t.breakers.map updateBreakerStats := hb'
  rw [List.mem_map] at hb2
  obtain ⟨b, hb, hEq2⟩ := hb2
  subst hEq2
  obtain ⟨hcdl, hcap⟩ := h t ht b hb
  refine ⟨?_, ?_⟩
  · rw [updateBreakerStats_meters]
    exact hcdl
  · intro hded
    rw [updateBreakerStats_dedicated] at hded
    rw [updateBreakerStats_load, updateBreakerStats_meters]
    exact ⟨rfl, hcap hded⟩

/-- Refreshing stats preserves distinct ids. -/
theorem updateAllStats_idsInv {ts : List Transformer} (h : IdsInv ts) :
    IdsInv (updateAllStats ts) := by
  constructor
  · have heq : (updateAllStats ts).map (·.id) = ts.map (·.id) := by
      unfold updateAllStats
      rw [List.map_map]
      exact List.map_congr_left (fun t _ => rfl)
    rw [heq]
    exact h.1
  · intro t' ht'
    obtain ⟨t, ht, hEq⟩ := updateAllStats_mem ht'
    subst hEq
    have heq : (t.breakers.map updateBreakerStats).map (·.id) = t.breakers.map (·.id) := by
      rw [List.map_map]
      exact List.map_congr_left (fun b _ => rfl)
    show ((t.breakers.map updateBreakerStats).map (·.id)).Nodup
    rw [heq]
    exact h.2 t ht

/-- Decompose an in-place modification at a valid index. -/
theorem modify_decomp {α : Type} [Inhabited α] (f : α → α) (i : ℕ) (l : List α) {a : α}
    (h : l[i]? = some a) :
    ∃ l1 l2, l = l1 ++ a :: l2 ∧ l1.length = i ∧
      List.modify f i l = l1 ++ f a :: l2 := by
  obtain ⟨hi, hget⟩ := List.getElem?_eq_some_iff.mp h
  obtain ⟨l1, l2, hdecomp, hlen, hset⟩ := @List.exists_of_set α i (f a) l hi
  refine ⟨l1, l2, by rw [← hget]; exact hdecomp, hlen, ?_⟩
  rw [List.modify_eq_set, h]
  simp only [Option.getD_some]
  exact hset

/-- Replacing one member of a list of witnesses preserves a pointwise
property. -/
theorem forall_mem_replace {α : Type} {P : α → Prop} {T1 T2 : List α} {y x : α}
    (h : ∀ a ∈ T1 ++ y :: T2, P a) (hx : P x) : ∀ a ∈ T1 ++ x :: T2, P a := by
  intro a ha
  rcases List.mem_append.mp ha with h1 | h1
  · exact h a (List.mem_append_left _ h1)
  · rcases List.mem_cons.mp h1 with h1 | h1
    · subst h1
      exact hx
    · exact h a (List.mem_append_right _ (List.mem_cons_of_mem _ h1))

/-- The replaced member itself satisfied the pointwise property. -/
theorem mem_append_cons_self {α : Type} {P : α → Prop} {T1 T2 : List α} {y : α}
    (h : ∀ a ∈ T1 ++ y :: T2, P a) : P y :=
  h y (List.mem_append_right _ (List.mem_cons_self _ _))

/-- Weak membership in a modified list. -/
theorem mem_modify {α : Type} {f : α → α} {i : ℕ} {l : List α} :
    ∀ a' ∈ List.modify f i l, a' ∈ l ∨ ∃ a ∈ l, a' = f a := by
  intro a' ha'
  rw [List.mem_iff_getElem?] at ha'
  obtain ⟨k, hk⟩ := ha'
  rw [List.getElem?_modify] at hk
  cases hlk : l[k]? with
  | none =>
    rw [hlk] at hk
    cases hk
  | some y =>
    rw [hlk] at hk
    have hk2 : some (if i = k then f y else y) = some a' := hk
    injection hk2 with hk2
    have hy : y ∈ l := by
      rw [List.mem_iff_getElem?]
      exact ⟨k, hlk⟩
    by_cases hik : i = k
    · rw [if_pos hik] at hk2
      exact Or.inr ⟨y, hy, hk2.symm⟩
    · rw [if_neg hik] at hk2
      exact Or.inl (hk2 ▸ hy)

/-- Modifying through a field-preserving function fixes the field map. -/
theorem map_field_modify {α β : Type} [Inhabited α] (f : α → α) (fld : α → β) (i : ℕ)
    (l : List α) (hpres : ∀ a, fld (f a) = fld a) :
    (List.modify f i l).map fld = l.map fld := by
  cases hget : l[i]? with
  | none =>
    rw [List.modify_eq_set, hget]
    have hlen : l.length ≤ i := List.getElem?_eq_none_iff.mp hget
    rw [List.set_eq_of_length_le hlen]
  | some a =>
    obtain ⟨l1, l2, hd, _, hm⟩ := modify_decomp f i l hget
    rw [hm, hd, List.map_append, List.map_append, List.map_cons, List.map_cons, hpres]

/-- Decompose a push at valid indices. -/
theorem pushMeterAt_spec {ts : List Transformer} {ti bi : ℕ} {t : Transformer} {b : Breaker}
    (m : IndividualMeter) (ht : ts[ti]? = some t) (hb : t.breakers[bi]? = some b) :
    ∃ T1 T2 B1 B2, ts = T1 ++ t :: T2 ∧ t.breakers = B1 ++ b :: B2 ∧
      pushMeterAt ts ti bi m =
        T1 ++ { t with breakers := B1 ++ { b with meters := b.meters ++ [m] } :: B2 } :: T2 := by
  obtain ⟨B1, B2, hbd, hbl, hbmod⟩ :=
    modify_decomp (fun b => { b with meters := b.meters ++ [m] }) bi t.breakers hb
  obtain ⟨T1, T2, htd, htl, htmod⟩ :=
    modify_decomp (fun t => { t with breakers := List.modify (fun b => { b with meters := b.meters ++ [m] }) bi t.breakers }) ti ts ht
  refine ⟨T1, T2, B1, B2, htd, hbd, ?_⟩
  show List.modify _ ti ts = _
  rw [htmod, hbmod]

/-- A push appends exactly the pushed meter to the carried contents. -/
theorem allMeters_push {ts : List Transformer} {ti bi : ℕ} {t : Transformer} {b : Breaker}
    (m : IndividualMeter) (ht : ts[ti]? = some t) (hb : t.breakers[bi]? = some b) :
    (allMeters (pushMeterAt ts ti bi m)).Perm (allMeters ts ++ [m]) := by
  obtain ⟨T1, T2, B1, B2, hts, hbs, hpush⟩ := pushMeterAt_spec m ht hb
  rw [hpush, hts, List.perm_iff_count]
  intro a
  simp [allMeters_append, allMeters_cons, hbs, List.count_append, List.count_cons]
  omega

/-- A push onto a non-dedicated breaker preserves the flag invariant. -/
theorem flagInv_push {ts : List Transformer} {ti bi : ℕ} {t : Transformer} {b : Breaker}
    {m : IndividualMeter} (h : FlagInv ts) (ht : ts[ti]? = some t)
    (hb : t.breakers[bi]? = some b) (hded : b.dedicated = false) :
    FlagInv (pushMeterAt ts ti bi m) := by
  obtain ⟨T1, T2, B1, B2, hts, hbs, hpush⟩ := pushMeterAt_spec m ht hb
  rw [hpush]
  rw [hts] at h
  refine forall_mem_replace h ?_
  have htf := mem_append_cons_self h
  unfold TransFlag at htf ⊢
  rw [hbs] at htf
  intro b' hb'
  have hb'2 : b' ∈ B1 ++ { b with meters := b.meters ++ [m] } :: B2 := hb'
  have hrep := forall_mem_replace
    (x := ({ b with meters := b.meters ++ [m] } : Breaker)) htf ?_
  · exact hrep b' hb'2
  · have hold := mem_append_cons_self htf
    refine ⟨hold.1, ?_⟩
    intro habs
    have habs2 : b.dedicated = true := habs
    rw [hded] at habs2
    cases habs2

/-- A push within the headroom of a non-dedicated breaker preserves the
capacity core. -/
theorem capCore_push {ts : List Transformer} {ti bi : ℕ} {t : Transformer} {b : Breaker}
    {m : IndividualMeter} (h : CapCore ts) (ht : ts[ti]? = some t)
    (hb : t.breakers[bi]? = some b)
    (hcap : metersLoad b.meters + m.cdl ≤ MAX_BREAKER_CAPACITY) (hm : 0 ≤ m.cdl) :
    CapCore (pushMeterAt ts ti bi m) := by
  obtain ⟨T1, T2, B1, B2, hts, hbs, hpush⟩ := pushMeterAt_spec m ht hb
  rw [hpush]
  rw [hts] at h
  refine forall_mem_replace h ?_
  have htf := mem_append_cons_self h
  unfold TransCapCore at htf ⊢
  rw [hbs] at htf
  intro b' hb'
  have hb'2 : b' ∈ B1 ++ { b with meters := b.meters ++ [m] } :: B2 := hb'
  have hrep := forall_mem_replace
    (x := ({ b with meters := b.meters ++ [m] } : Breaker)) htf ?_
  · exact hrep b' hb'2
  · have hold := mem_append_cons_self htf
    refine ⟨?_, ?_⟩
    · intro x hx
      have hx2 : x ∈ b.meters ++ [m] := hx
      rcases List.mem_append.mp hx2 with h1 | h1
      · exact hold.1 x h1
      · rw [List.mem_singleton] at h1
        subst h1
        exact hm
    · intro _
      show metersLoad (b.meters ++ [m]) ≤ MAX_BREAKER_CAPACITY
      rw [metersLoad_append]
      have : metersLoad [m] = m.cdl := by simp [metersLoad]
      rw [this]
      exact hcap

/-- A push changes no ids and no id bounds. -/
theorem idState_push {ts : List Transformer} {ti bi : ℕ} (m : IndividualMeter) {c : ℕ}
    (h1 : IdsInv ts) (h2 : ∀ t ∈ ts, t.id < c) :
    IdsInv (pushMeterAt ts ti bi m) ∧ ∀ t ∈ pushMeterAt ts ti bi m, t.id < c := by
  have hmap : (pushMeterAt ts ti bi m).map (·.id) = ts.map (·.id) := by
    unfold pushMeterAt
    exact map_field_modify (fun t => { t with breakers := List.modify (fun b => { b with meters := b.meters ++ [m] }) bi t.breakers }) (fun x => x.id) ti ts (fun a => rfl)
  have hmem : ∀ t' ∈ pushMeterAt ts ti bi m,
      (t'.breakers.map (·.id)).Nodup ∧ t'.id < c := by
    intro t' ht'
    have hm2 := mem_modify t' ht'
    rcases hm2 with hm2 | ⟨t, ht, hEq⟩
    · exact ⟨h1.2 t' hm2, h2 t' hm2⟩
    · subst hEq
      constructor
      · show ((List.modify (fun b => { b with meters := b.meters ++ [m] }) bi
            t.breakers).map (·.id)).Nodup
        rw [map_field_modify (fun b => { b with meters := b.meters ++ [m] }) (fun x => x.id) bi t.breakers (fun a => rfl)]
        exact h1.2 t ht
      · exact h2 t ht
  exact ⟨⟨hmap ▸ h1.1, fun t ht => (hmem t ht).1⟩, fun t ht => (hmem t ht).2⟩

/-- A successful single-breaker search certifies its returned position. -/
theorem singleSearch_ok {meter : IndividualMeter} {ts : List Transformer} {e : ℕ × ℕ × ℚ}
    (h : findBestBreakerForEvenDistribution meter ts = some e) :
    ∃ t b, ts[e.1]? = some t ∧ t.breakers[e.2.1]? = some b ∧
      t.isDedicated = false ∧ ¬(t.assignedLoad + meter.cdl > t.type.safeLoad) ∧
      b.dedicated = false ∧ ¬(b.load + meter.cdl > MAX_BREAKER_CAPACITY) ∧
      e.2.2 = b.load := by
  have h2 : e ∈ eligiblePositions meter ts := by
    rw [singleSearch_eq_foldl_eligible, foldl_pickSmaller_eq_firstMinBy] at h
    exact firstMinBy_mem _ h
  exact eligible_mem_ok h2

/-- A successful pair search certifies its returned pair. -/
theorem pairSearch_ok {meter : IndividualMeter} {ts : List Transformer}
    {r : ℕ × ℕ × ℕ × ℚ} (h : findBestBreakerPairForEvenDistribution meter ts = some r) :
    ∃ t b1 b2, ts[r.1]? = some t ∧ t.isDedicated = false ∧
      ¬(t.assignedLoad + meter.cdl > t.type.safeLoad) ∧
      t.breakers[r.2.1]? = some b1 ∧ t.breakers[r.2.2.1]? = some b2 ∧ r.2.1 ≠ r.2.2.1 ∧
      b1.dedicated = false ∧ b2.dedicated = false ∧
      b1.load + meter.cdl / 2 ≤ MAX_BREAKER_CAPACITY ∧
      b2.load + meter.cdl / 2 ≤ MAX_BREAKER_CAPACITY := by
  have h2 : r ∈ pairCandidates meter ts := by
    rw [pairSearch_eq_foldl, foldl_pickSmaller4_eq_firstMinBy] at h
    exact firstMinBy_mem _ h
  exact pairCand_mem_ok h2

/-- A successful consolidation search certifies its returned target. -/
theorem consSearch_ok {meter : IndividualMeter} {srcParentId srcBreakerId : ℕ}
    {ts : List Transformer} {r : ℕ × ℕ × ℚ}
    (h : findConsolidationTarget meter srcParentId srcBreakerId ts = some r) :
    ∃ t b, ts[r.1]? = some t ∧ t.breakers[r.2.1]? = some b ∧
      t.isDedicated = false ∧ ¬(b.id = srcBreakerId ∧ t.id = srcParentId) ∧
      b.dedicated = false ∧ 0 < b.meters.length ∧
      b.load + meter.cdl ≤ MAX_BREAKER_CAPACITY ∧ r.2.2 = b.load := by
  have h2 : r ∈ consCandidates meter srcParentId srcBreakerId ts := by
    rw [consSearch_eq_foldl, foldl_pickSmaller_eq_firstMinBy] at h
    exact firstMinBy_mem _ h
  exact consCand_mem_ok h2

/-- The single search fails exactly when nothing is eligible. -/
theorem singleSearch_none_iff (meter : IndividualMeter) (ts : List Transformer) :
    findBestBreakerForEvenDistribution meter ts = none ↔
      eligiblePositions meter ts = [] := by
  rw [singleSearch_eq_foldl_eligible, foldl_pickSmaller_eq_firstMinBy]
  exact firstMinBy_none_iff _ _

/-- The pair search fails exactly when no candidate pair exists. -/
theorem pairSearch_none_iff (meter : IndividualMeter) (ts : List Transformer) :
    findBestBreakerPairForEvenDistribution meter ts = none ↔
      pairCandidates meter ts = [] := by
  rw [pairSearch_eq_foldl, foldl_pickSmaller4_eq_firstMinBy]
  exact firstMinBy_none_iff _ _

/-- The full capacity invariant implies the core. -/
theorem capInv_core {ts : List Transformer} (h : CapInv ts) : CapCore ts := by
  intro t ht b hb
  obtain ⟨h1, h2⟩ := h t ht b hb
  exact ⟨h1, fun hd => (h2 hd).2⟩

/-- A split half halves the cdl. -/
theorem splitHalf_cdl (meter : IndividualMeter) (p : SplitPart) :
    (splitHalf meter p).cdl = meter.cdl / 2 := rfl

/-- A fresh transformer satisfies the flag invariant. -/
theorem transFlag_new (ty : TransformerType) (id : ℕ) :
    TransFlag (createNewTransformer ty id) := by
  intro b hb
  have hb2 : b ∈ (List.range ty.breakers).map fun i =>
      ({ id := i + 1, number := i + 1, load := 0, meters := [], utilizationPercent := 0,
         meterTypes := ∅, categories := ∅, timePatterns := ∅, dedicated := false } : Breaker) := hb
  rw [List.mem_map] at hb2
  obtain ⟨i, _, hEq⟩ := hb2
  subst hEq
  exact ⟨rfl, fun h => by cases h⟩

/-- A fresh transformer satisfies the full capacity invariant. -/
theorem transCapInv_new (ty : TransformerType) (id : ℕ) :
    TransCapInv (createNewTransformer ty id) := by
  intro b hb
  have hb2 : b ∈ (List.range ty.breakers).map fun i =>
      ({ id := i + 1, number := i + 1, load := 0, meters := [], utilizationPercent := 0,
         meterTypes := ∅, categories := ∅, timePatterns := ∅, dedicated := false } : Breaker) := hb
  rw [List.mem_map] at hb2
  obtain ⟨i, _, hEq⟩ := hb2
  subst hEq
  refine ⟨?_, ?_⟩
  · intro x hx
    cases hx
  · intro _
    refine ⟨rfl, ?_⟩
    norm_num [metersLoad, MAX_BREAKER_CAPACITY]

/-- A fresh transformer's breaker ids are distinct. -/
theorem breakerIds_new (ty : TransformerType) (id : ℕ) :
    ((createNewTransformer ty id).breakers.map (·.id)).Nodup := by
  show (((List.range ty.breakers).map fun i =>
      ({ id := i + 1, number := i + 1, load := 0, meters := [], utilizationPercent := 0,
         meterTypes := ∅, categories := ∅, timePatterns := ∅, dedicated := false } : Breaker)).map
      (·.id)).Nodup
  rw [List.map_map]
  have heq : ((List.range ty.breakers).map ((·.id) ∘ fun i =>
      ({ id := i + 1, number := i + 1, load := 0, meters := [], utilizationPercent := 0,
         meterTypes := ∅, categories := ∅, timePatterns := ∅, dedicated := false } : Breaker))) =
      (List.range ty.breakers).map (· + 1) := List.map_congr_left (fun i _ => rfl)
  rw [heq]
  exact (List.nodup_range _).map (fun a b h => by omega)

/-- A fresh transformer carries no meters. -/
theorem allMeters_new (ty : TransformerType) (id : ℕ) :
    (createNewTransformer ty id).breakers.flatMap (·.meters) = [] := by
  show ((List.range ty.breakers).map fun i =>
      ({ id := i + 1, number := i + 1, load := 0, meters := [], utilizationPercent := 0,
         meterTypes := ∅, categories := ∅, timePatterns := ∅, dedicated := false } : Breaker)).flatMap
      (·.meters) = []
  induction List.range ty.breakers with
  | nil => rfl
  | cons i l ih =>
    rw [List.map_cons, List.flatMap_cons, ih]
    rfl

/-- A dedicated transformer for a note-free meter satisfies the flag
invariant. -/
theorem transFlag_ded {m : IndividualMeter} (id : ℕ) (hnote : m.note = none) :
    TransFlag (mkDedicatedTransformer m id) := by
  intro b hb
  have hb2 : b ∈ [({ id := 1, number := 1, load := 0, meters := [m], utilizationPercent := 0, meterTypes := ∅, categories := ∅, timePatterns := ∅, dedicated := true } : Breaker)] := hb
  rw [List.mem_singleton] at hb2
  subst hb2
  exact ⟨rfl, fun _ => ⟨m, rfl, hnote⟩⟩

/-- A dedicated transformer for a nonnegative meter satisfies the full
capacity invariant. -/
theorem transCapInv_ded {m : IndividualMeter} (id : ℕ) (hm : 0 ≤ m.cdl) :
    TransCapInv (mkDedicatedTransformer m id) := by
  intro b hb
  have hb2 : b ∈ [({ id := 1, number := 1, load := 0, meters := [m], utilizationPercent := 0, meterTypes := ∅, categories := ∅, timePatterns := ∅, dedicated := true } : Breaker)] := hb
  rw [List.mem_singleton] at hb2
  subst hb2
  refine ⟨?_, fun hd => by cases hd⟩
  intro x hx
  rw [List.mem_singleton] at hx
  subst hx
  exact hm

/-- A dedicated transformer's single breaker id list is duplicate
free. -/
theorem breakerIds_ded (m : IndividualMeter) (id : ℕ) :
    ((mkDedicatedTransformer m id).breakers.map (·.id)).Nodup := by
  show ([(1 : ℕ)]).Nodup
  exact List.nodup_singleton _

/-- The single meter of a dedicated transformer. -/
theorem allMeters_ded (m : IndividualMeter) (id : ℕ) :
    (mkDedicatedTransformer m id).breakers.flatMap (·.meters) = [m] := rfl

/-- Appending a fresh transformer preserves the flag invariant. -/
theorem flagInv_append_new {ts : List Transformer} (ty : TransformerType) (c : ℕ)
    (h : FlagInv ts) : FlagInv (ts ++ [createNewTransformer ty c]) := by
  intro t ht
  rcases List.mem_append.mp ht with h1 | h1
  · exact h t h1
  · rw [List.mem_singleton] at h1
    subst h1
    exact transFlag_new ty c

/-- Appending a fresh transformer preserves the capacity invariant. -/
theorem capInv_append_new {ts : List Transformer} (ty : TransformerType) (c : ℕ)
    (h : CapInv ts) : CapInv (ts ++ [createNewTransformer ty c]) := by
  intro t ht
  rcases List.mem_append.mp ht with h1 | h1
  · exact h t h1
  · rw [List.mem_singleton] at h1
    subst h1
    exact transCapInv_new ty c

/-- Appending a fresh transformer with the running counter id keeps ids
distinct and bounded. -/
theorem idState_append_new {ts : List Transformer} (ty : TransformerType) {c : ℕ}
    (h1 : IdsInv ts) (h2 : ∀ t ∈ ts, t.id < c) :
    IdsInv (ts ++ [createNewTransformer ty c]) ∧
      ∀ t ∈ ts ++ [createNewTransformer ty c], t.id < c + 1 := by
  refine ⟨⟨?_, ?_⟩, ?_⟩
  · rw [List.map_append]
    rw [List.nodup_append]
    refine ⟨h1.1, List.nodup_singleton _, ?_⟩
    intro x hx hy
    rw [List.mem_map] at hx
    obtain ⟨t, ht, hEq⟩ := hx
    have hxc : x = c := by
      have : x ∈ [(createNewTransformer ty c).id] := hy
      rw [List.mem_singleton] at this
      exact this
    subst hxc
    have := h2 t ht
    rw [hEq] at this
    omega
  · intro t ht
    rcases List.mem_append.mp ht with ha | ha
    · exact h1.2 t ha
    · rw [List.mem_singleton] at ha
      subst ha
      exact breakerIds_new ty c
  · intro t ht
    rcases List.mem_append.mp ht with ha | ha
    · have := h2 t ha
      omega
    · rw [List.mem_singleton] at ha
      subst ha
      show c < c + 1
      omega

/-- Modifying one index leaves the others unread. -/
theorem modify_getElem_ne {α : Type} (f : α → α) {i j : ℕ} (hij : i ≠ j) (l : List α) :
    (List.modify f i l)[j]? = l[j]? := by
  rw [List.getElem?_modify]
  cases hx : l[j]? with
  | none => rfl
  | some a =>
    show some (if i = j then f a else a) = some a
    rw [if_neg hij]

/-- Reading back the transformer a push just modified. -/
theorem push_getElem_self {ts : List Transformer} {ti : ℕ} {t : Transformer} (bi : ℕ)
    (m : IndividualMeter) (ht : ts[ti]? = some t) :
    (pushMeterAt ts ti bi m)[ti]? =
      some { t with breakers := List.modify (fun b => { b with meters := b.meters ++ [m] }) bi t.breakers } := by
  unfold pushMeterAt
  rw [List.getElem?_modify, ht]
  simp

/-- Refreshing stats keeps every transformer id below a bound. -/
theorem idBound_updateAllStats {ts : List Transformer} {c : ℕ}
    (h : ∀ t ∈ ts, t.id < c) : ∀ t ∈ updateAllStats ts, t.id < c := by
  intro t' ht'
  obtain ⟨t, ht, hEq⟩ := updateAllStats_mem ht'
  subst hEq
  exact h t ht

/-- Effects of a successful single-breaker placement before the stat
refresh: the meter is appended, flags and ids are untouched, and the
capacity core survives. -/
theorem place_single_core {meter : IndividualMeter} {ts : List Transformer} {e : ℕ × ℕ × ℚ}
    (hs : findBestBreakerForEvenDistribution meter ts = some e) :
    (allMeters (pushMeterAt ts e.1 e.2.1 meter)).Perm (allMeters ts ++ [meter]) ∧
    (FlagInv ts → FlagInv (pushMeterAt ts e.1 e.2.1 meter)) ∧
    (CapInv ts → 0 ≤ meter.cdl → CapCore (pushMeterAt ts e.1 e.2.1 meter)) ∧
    ∀ c, IdsInv ts → (∀ t ∈ ts, t.id < c) →
      IdsInv (pushMeterAt ts e.1 e.2.1 meter) ∧
        ∀ t ∈ pushMeterAt ts e.1 e.2.1 meter, t.id < c := by
  obtain ⟨t, b, ht, hb, htd, hts, hbd, hbcap, hload⟩ := singleSearch_ok hs
  refine ⟨allMeters_push meter ht hb, fun h => flagInv_push h ht hb hbd, ?_,
    fun c h1 h2 => idState_push meter h1 h2⟩
  intro h hm
  refine capCore_push (capInv_core h) ht hb ?_ hm
  have hmem_t : t ∈ ts := List.getElem?_mem ht
  have hmem_b : b ∈ t.breakers := List.getElem?_mem hb
  have hacc := ((h t hmem_t) b hmem_b).2 hbd
  rw [← hacc.1]
  exact not_lt.mp hbcap

/-- Effects of a successful pair placement before the stat refresh: the
two halves are appended, flags and ids are untouched, and the capacity
core survives. -/
theorem place_dual_core {meter : IndividualMeter} {ts : List Transformer} {r : ℕ × ℕ × ℕ × ℚ}
    (hs : findBestBreakerPairForEvenDistribution meter ts = some r) :
    (allMeters (pushPair ts r meter)).Perm
      (allMeters ts ++ [splitHalf meter SplitPart.p1, splitHalf meter SplitPart.p2]) ∧
    (FlagInv ts → FlagInv (pushPair ts r meter)) ∧
    (CapInv ts → 0 ≤ meter.cdl → CapCore (pushPair ts r meter)) ∧
    ∀ c, IdsInv ts → (∀ t ∈ ts, t.id < c) →
      IdsInv (pushPair ts r meter) ∧ ∀ t ∈ pushPair ts r meter, t.id < c := by
  unfold pushPair
  obtain ⟨t, b1, b2, ht, htd, hsafe, hb1, hb2, hne, hd1, hd2, hc1, hc2⟩ := pairSearch_ok hs
  have ht1 : (pushMeterAt ts r.1 r.2.1 (splitHalf meter SplitPart.p1))[r.1]? =
      some { t with breakers := List.modify (fun b => { b with meters := b.meters ++ [splitHalf meter SplitPart.p1] }) r.2.1 t.breakers } :=
    push_getElem_self _ _ ht
  have hb2' : ({ t with breakers := List.modify (fun b => { b with meters := b.meters ++ [splitHalf meter SplitPart.p1] }) r.2.1 t.breakers } : Transformer).breakers[r.2.2.1]? = some b2 := by
    show (List.modify _ r.2.1 t.breakers)[r.2.2.1]? = some b2
    rw [modify_getElem_ne _ hne]
    exact hb2
  refine ⟨?_, ?_, ?_, ?_⟩
  · refine (allMeters_push (splitHalf meter SplitPart.p2) ht1 hb2').trans ?_
    refine ((allMeters_push (splitHalf meter SplitPart.p1) ht hb1).append_right _).trans ?_
    rw [List.append_assoc]
    exact List.Perm.refl _
  · intro h
    exact flagInv_push (flagInv_push h ht hb1 hd1) ht1 hb2' hd2
  · intro h hm
    have hmem_t : t ∈ ts := List.getElem?_mem ht
    have hmem_b1 : b1 ∈ t.breakers := List.getElem?_mem hb1
    have hmem_b2 : b2 ∈ t.breakers := List.getElem?_mem hb2
    have hacc1 := ((h t hmem_t) b1 hmem_b1).2 hd1
    have hacc2 := ((h t hmem_t) b2 hmem_b2).2 hd2
    have hhalf : 0 ≤ meter.cdl / 2 := div_nonneg hm (by norm_num)
    have hcore1 : CapCore (pushMeterAt ts r.1 r.2.1 (splitHalf meter SplitPart.p1)) := by
      refine capCore_push (capInv_core h) ht hb1 ?_ ?_
      · rw [splitHalf_cdl, ← hacc1.1]
        exact hc1
      · rw [splitHalf_cdl]
        exact hhalf
    refine capCore_push hcore1 ht1 hb2' ?_ ?_
    · rw [splitHalf_cdl, ← hacc2.1]
      exact hc2
    · rw [splitHalf_cdl]
      exact hhalf
  · intro c h1 h2
    have hp1 := @idState_push ts r.1 r.2.1 (splitHalf meter SplitPart.p1) c h1 h2
    exact @idState_push _ r.1 r.2.2.1 (splitHalf meter SplitPart.p2) c hp1.1 hp1.2

/-- Effects of adding a best-fit fallback transformer: no meters move,
every invariant survives, and the counter advances by one. -/
theorem fb_effects (meter : IndividualMeter) (ts : List Transformer) (c : ℕ) :
    allMeters (addBestFitTransformerForMeter meter ts c).1 = allMeters ts ∧
    (FlagInv ts → FlagInv (addBestFitTransformerForMeter meter ts c).1) ∧
    (CapInv ts → CapInv (addBestFitTransformerForMeter meter ts c).1) ∧
    (addBestFitTransformerForMeter meter ts c).2 = c + 1 ∧
    (IdsInv ts → (∀ t ∈ ts, t.id < c) →
      IdsInv (addBestFitTransformerForMeter meter ts c).1 ∧
        ∀ t ∈ (addBestFitTransformerForMeter meter ts c).1, t.id < c + 1) := by
  have hfb1 : (addBestFitTransformerForMeter meter ts c).1 =
      ts ++ [createNewTransformer ((sortedTypesAsc.find? fun t => decide (meter.cdl ≤ t.safeLoad)).getD tType1500) c] := rfl
  have hnil : allMeters [createNewTransformer ((sortedTypesAsc.find? fun t => decide (meter.cdl ≤ t.safeLoad)).getD tType1500) c] = [] := by
    rw [allMeters_cons, allMeters_new]
    rfl
  refine ⟨?_, ?_, ?_, rfl, ?_⟩
  · rw [hfb1, allMeters_append, hnil]
    exact List.append_nil _
  · rw [hfb1]
    exact fun h => flagInv_append_new _ c h
  · rw [hfb1]
    exact fun h => capInv_append_new _ c h
  · rw [hfb1]
    exact fun h1 h2 => idState_append_new _ h1 h2

/-- One iteration of the placement loop: on success the placed forms of
the meter join the carried multiset, the flag invariant survives, the
capacity invariant survives for a nonnegative meter, and the ids stay
distinct with the counter still bounding them. -/
theorem placeOneMeter_spec {meter : IndividualMeter} {st st2 : List Transformer × ℕ}
    (h : placeOneMeter meter st = some st2) :
    (allMeters st2.1).Perm (allMeters st.1 ++ placedForms meter) ∧
    (FlagInv st.1 → FlagInv st2.1) ∧
    (CapInv st.1 → 0 ≤ meter.cdl → CapInv st2.1) ∧
    (IdsInv st.1 → (∀ t ∈ st.1, t.id < st.2) →
      IdsInv st2.1 ∧ (∀ t ∈ st2.1, t.id < st2.2) ∧ st.2 ≤ st2.2) := by
  unfold placeOneMeter at h
  dsimp only at h
  by_cases hdual : 400 ≤ meter.capacity ∧ meter.capacity ≤ 800
  case pos =>
    rw [if_pos hdual, if_pos hdual] at h
    have hforms : placedForms meter =
        [splitHalf meter SplitPart.p1, splitHalf meter SplitPart.p2] := by
      unfold placedForms
      rw [if_pos hdual]
    cases hs : findBestBreakerPairForEvenDistribution meter st.1 with
    | some r =>
      rw [hs] at h
      have h2 : some (updateAllStats (pushPair st.1 r meter), st.2) = some st2 := h
      injection h2 with h2
      subst h2
      obtain ⟨hp, hf, hc, hi⟩ := place_dual_core hs
      refine ⟨?_, ?_, ?_, ?_⟩
      · show (allMeters (updateAllStats (pushPair st.1 r meter))).Perm _
        rw [allMeters_updateAllStats, hforms]
        exact hp
      · intro hF
        exact updateAllStats_flagInv (hf hF)
      · intro hC hm
        exact updateAllStats_capInv (hc hC hm)
      · intro h1 h2b
        obtain ⟨hi1, hi2⟩ := hi st.2 h1 h2b
        exact ⟨updateAllStats_idsInv hi1, idBound_updateAllStats hi2, le_refl _⟩
    | none =>
      rw [hs] at h
      cases hs2 : findBestBreakerPairForEvenDistribution meter (addBestFitTransformerForMeter meter st.1 st.2).1 with
      | some r =>
        rw [hs2] at h
        have h4 : some (updateAllStats (pushPair (addBestFitTransformerForMeter meter st.1 st.2).1 r meter), (addBestFitTransformerForMeter meter st.1 st.2).2) = some st2 := h
        injection h4 with h4
        subst h4
        obtain ⟨hall, hflag, hcap, _, hids⟩ := fb_effects meter st.1 st.2
        obtain ⟨hp, hf, hc, hi⟩ := place_dual_core hs2
        refine ⟨?_, ?_, ?_, ?_⟩
        · show (allMeters (updateAllStats (pushPair (addBestFitTransformerForMeter meter st.1 st.2).1 r meter))).Perm _
          rw [allMeters_updateAllStats, hforms]
          refine hp.trans ?_
          rw [hall]
        · intro hF
          exact updateAllStats_flagInv (hf (hflag hF))
        · intro hC hm
          exact updateAllStats_capInv (hc (hcap hC) hm)
        · intro h1 h2b
          obtain ⟨hia, hib⟩ := hids h1 h2b
          obtain ⟨hi1, hi2⟩ := hi (st.2 + 1) hia hib
          refine ⟨updateAllStats_idsInv hi1, ?_, ?_⟩
          · show ∀ t ∈ updateAllStats (pushPair (addBestFitTransformerForMeter meter st.1 st.2).1 r meter), t.id < st.2 + 1
            exact idBound_updateAllStats hi2
          · show st.2 ≤ st.2 + 1
            omega
      | none =>
        rw [hs2] at h
        have h4 : (none : Option (List Transformer × ℕ)) = some st2 := h
        exact Option.noConfusion h4
  case neg =>
    rw [if_neg hdual, if_neg hdual] at h
    have hforms : placedForms meter = [meter] := by
      unfold placedForms
      rw [if_neg hdual]
    cases hs : findBestBreakerForEvenDistribution meter st.1 with
    | some e =>
      rw [hs] at h
      have h2 : some (updateAllStats (pushMeterAt st.1 e.1 e.2.1 meter), st.2) = some st2 := h
      injection h2 with h2
      subst h2
      obtain ⟨hp, hf, hc, hi⟩ := place_single_core hs
      refine ⟨?_, ?_, ?_, ?_⟩
      · show (allMeters (updateAllStats (pushMeterAt st.1 e.1 e.2.1 meter))).Perm _
        rw [allMeters_updateAllStats, hforms]
        exact hp
      · intro hF
        exact updateAllStats_flagInv (hf hF)
      · intro hC hm
        exact updateAllStats_capInv (hc hC hm)
      · intro h1 h2b
        obtain ⟨hi1, hi2⟩ := hi st.2 h1 h2b
        exact ⟨updateAllStats_idsInv hi1, idBound_updateAllStats hi2, le_refl _⟩
    | none =>
      rw [hs] at h
      cases hs2 : findBestBreakerForEvenDistribution meter (addBestFitTransformerForMeter meter st.1 st.2).1 with
      | some e =>
        rw [hs2] at h
        have h4 : some (updateAllStats (pushMeterAt (addBestFitTransformerForMeter meter st.1 st.2).1 e.1 e.2.1 meter), (addBestFitTransformerForMeter meter st.1 st.2).2) = some st2 := h
        injection h4 with h4
        subst h4
        obtain ⟨hall, hflag, hcap, _, hids⟩ := fb_effects meter st.1 st.2
        obtain ⟨hp, hf, hc, hi⟩ := place_single_core hs2
        refine ⟨?_, ?_, ?_, ?_⟩
        · show (allMeters (updateAllStats (pushMeterAt (addBestFitTransformerForMeter meter st.1 st.2).1 e.1 e.2.1 meter))).Perm _
          rw [allMeters_updateAllStats, hforms]
          refine hp.trans ?_
          rw [hall]
        · intro hF
          exact updateAllStats_flagInv (hf (hflag hF))
        · intro hC hm
          exact updateAllStats_capInv (hc (hcap hC) hm)
        · intro h1 h2b
          obtain ⟨hia, hib⟩ := hids h1 h2b
          obtain ⟨hi1, hi2⟩ := hi (st.2 + 1) hia hib
          refine ⟨updateAllStats_idsInv hi1, ?_, ?_⟩
          · show ∀ t ∈ updateAllStats (pushMeterAt (addBestFitTransformerForMeter meter st.1 st.2).1 e.1 e.2.1 meter), t.id < st.2 + 1
            exact idBound_updateAllStats hi2
          · show st.2 ≤ st.2 + 1
            omega
      | none =>
        rw [hs2] at h
        have h4 : (none : Option (List Transformer × ℕ)) = some st2 := h
        exact Option.noConfusion h4

/-- The carried meters of a one-transformer state. -/
theorem allMeters_singleton (t : Transformer) :
    allMeters [t] = t.breakers.flatMap (·.meters) := by
  rw [allMeters_cons]
  show t.breakers.flatMap (·.meters) ++ [] = t.breakers.flatMap (·.meters)
  exact List.append_nil _

/-- A fresh transformer contributes no meters to a state. -/
theorem allMeters_singleton_new (ty : TransformerType) (c : ℕ) :
    allMeters [createNewTransformer ty c] = [] := by
  rw [allMeters_singleton, allMeters_new]

/-- A dedicated transformer contributes exactly its meter to a state. -/
theorem allMeters_singleton_ded (m : IndividualMeter) (c : ℕ) :
    allMeters [mkDedicatedTransformer m c] = [m] := by
  rw [allMeters_singleton, allMeters_ded]

/-- Appending any transformer whose id is the running counter keeps ids
distinct and bounded. -/
theorem idState_append_any {ts : List Transformer} {t0 : Transformer} {c : ℕ}
    (h1 : IdsInv ts) (h2 : ∀ t ∈ ts, t.id < c) (hid : t0.id = c)
    (hbids : ((t0.breakers.map (·.id)).Nodup)) :
    IdsInv (ts ++ [t0]) ∧ ∀ t ∈ ts ++ [t0], t.id < c + 1 := by
  refine ⟨⟨?_, ?_⟩, ?_⟩
  · rw [List.map_append, List.nodup_append]
    refine ⟨h1.1, List.nodup_singleton _, ?_⟩
    intro x hx hy
    rw [List.mem_map] at hx
    obtain ⟨t, ht, hEq⟩ := hx
    have hxc : x = c := by
      have hmem : x ∈ [t0.id] := hy
      rw [List.mem_singleton] at hmem
      rw [hmem]
      exact hid
    subst hxc
    have := h2 t ht
    rw [hEq] at this
    omega
  · intro t ht
    rcases List.mem_append.mp ht with ha | ha
    · exact h1.2 t ha
    · rw [List.mem_singleton] at ha
      subst ha
      exact hbids
  · intro t ht
    rcases List.mem_append.mp ht with ha | ha
    · have := h2 t ha
      omega
    · rw [List.mem_singleton] at ha
      subst ha
      omega

/-- Appending a dedicated transformer for a note-free meter preserves the
flag invariant. -/
theorem flagInv_append_ded {ts : List Transformer} {m : IndividualMeter} (c : ℕ)
    (hnote : m.note = none) (h : FlagInv ts) :
    FlagInv (ts ++ [mkDedicatedTransformer m c]) := by
  intro t ht
  rcases List.mem_append.mp ht with ha | ha
  · exact h t ha
  · rw [List.mem_singleton] at ha
    subst ha
    exact transFlag_ded c hnote

/-- Appending a dedicated transformer for a nonnegative meter preserves
the capacity invariant. -/
theorem capInv_append_ded {ts : List Transformer} {m : IndividualMeter} (c : ℕ)
    (hm : 0 ≤ m.cdl) (h : CapInv ts) :
    CapInv (ts ++ [mkDedicatedTransformer m c]) := by
  intro t ht
  rcases List.mem_append.mp ht with ha | ha
  · exact h t ha
  · rw [List.mem_singleton] at ha
    subst ha
    exact transCapInv_ded c hm

/-- Step 1 fold: the dedicated-transformer fold appends exactly the
dedicated meters, keeps every invariant, and advances the counter. -/
theorem dedFold_spec (ms : List IndividualMeter) (st : List Transformer × ℕ)
    (hnotes : ∀ m ∈ ms, m.note = none) (hcdl : ∀ m ∈ ms, 0 ≤ m.cdl)
    (hF : FlagInv st.1) (hC : CapInv st.1)
    (h1 : IdsInv st.1) (h2 : ∀ t ∈ st.1, t.id < st.2) :
    allMeters (ms.foldl (fun st m => (st.1 ++ [mkDedicatedTransformer m st.2], st.2 + 1)) st).1 = allMeters st.1 ++ ms ∧
    FlagInv (ms.foldl (fun st m => (st.1 ++ [mkDedicatedTransformer m st.2], st.2 + 1)) st).1 ∧
    CapInv (ms.foldl (fun st m => (st.1 ++ [mkDedicatedTransformer m st.2], st.2 + 1)) st).1 ∧
    IdsInv (ms.foldl (fun st m => (st.1 ++ [mkDedicatedTransformer m st.2], st.2 + 1)) st).1 ∧
    (∀ t ∈ (ms.foldl (fun st m => (st.1 ++ [mkDedicatedTransformer m st.2], st.2 + 1)) st).1,
      t.id < (ms.foldl (fun st m => (st.1 ++ [mkDedicatedTransformer m st.2], st.2 + 1)) st).2) ∧
    st.2 ≤ (ms.foldl (fun st m => (st.1 ++ [mkDedicatedTransformer m st.2], st.2 + 1)) st).2 := by
  revert hnotes hcdl hF hC h1 h2
  induction ms generalizing st with
  | nil =>
    intro hnotes hcdl hF hC h1 h2
    exact ⟨(List.append_nil _).symm, hF, hC, h1, h2, le_refl _⟩
  | cons m ms ih =>
    intro hnotes hcdl hF hC h1 h2
    rw [List.foldl_cons]
    have hid := idState_append_any h1 h2 (rfl : (mkDedicatedTransformer m st.2).id = st.2)
      (breakerIds_ded m st.2)
    obtain ⟨ha, hf, hc, hi, hb, hle⟩ := ih (st.1 ++ [mkDedicatedTransformer m st.2], st.2 + 1)
      (fun x hx => hnotes x (List.mem_cons_of_mem _ hx))
      (fun x hx => hcdl x (List.mem_cons_of_mem _ hx))
      (flagInv_append_ded st.2 (hnotes m (List.mem_cons_self _ _)) hF)
      (capInv_append_ded st.2 (hcdl m (List.mem_cons_self _ _)) hC)
      hid.1 hid.2
    refine ⟨?_, hf, hc, hi, hb, le_trans (Nat.le_succ _) hle⟩
    rw [ha]
    show allMeters (st.1 ++ [mkDedicatedTransformer m st.2]) ++ ms = allMeters st.1 ++ m :: ms
    rw [allMeters_append, allMeters_singleton_ded, List.append_assoc, List.singleton_append]

/-- Step 2 fold: the planned-type fold adds only empty transformers,
keeps every invariant, and advances the counter. -/
theorem planFold_spec (tys : List TransformerType) (st : List Transformer × ℕ)
    (hF : FlagInv st.1) (hC : CapInv st.1)
    (h1 : IdsInv st.1) (h2 : ∀ t ∈ st.1, t.id < st.2) :
    allMeters (tys.foldl (fun st ty => (st.1 ++ [createNewTransformer ty st.2], st.2 + 1)) st).1 = allMeters st.1 ∧
    FlagInv (tys.foldl (fun st ty => (st.1 ++ [createNewTransformer ty st.2], st.2 + 1)) st).1 ∧
    CapInv (tys.foldl (fun st ty => (st.1 ++ [createNewTransformer ty st.2], st.2 + 1)) st).1 ∧
    IdsInv (tys.foldl (fun st ty => (st.1 ++ [createNewTransformer ty st.2], st.2 + 1)) st).1 ∧
    (∀ t ∈ (tys.foldl (fun st ty => (st.1 ++ [createNewTransformer ty st.2], st.2 + 1)) st).1,
      t.id < (tys.foldl (fun st ty => (st.1 ++ [createNewTransformer ty st.2], st.2 + 1)) st).2) ∧
    st.2 ≤ (tys.foldl (fun st ty => (st.1 ++ [createNewTransformer ty st.2], st.2 + 1)) st).2 := by
  revert hF hC h1 h2
  induction tys generalizing st with
  | nil =>
    intro hF hC h1 h2
    exact ⟨rfl, hF, hC, h1, h2, le_refl _⟩
  | cons ty tys ih =>
    intro hF hC h1 h2
    rw [List.foldl_cons]
    have hid := idState_append_new ty h1 h2
    obtain ⟨ha, hf, hc, hi, hb, hle⟩ := ih (st.1 ++ [createNewTransformer ty st.2], st.2 + 1)
      (flagInv_append_new ty st.2 hF)
      (capInv_append_new ty st.2 hC)
      hid.1 hid.2
    refine ⟨?_, hf, hc, hi, hb, le_trans (Nat.le_succ _) hle⟩
    rw [ha]
    show allMeters (st.1 ++ [createNewTransformer ty st.2]) = allMeters st.1
    rw [allMeters_append, allMeters_singleton_new, List.append_nil]

/-- The placement fold: on success the placed forms of every meter join
the carried multiset in order, and every invariant survives. -/
theorem placeFold_spec {ms : List IndividualMeter} {st st2 : List Transformer × ℕ}
    (hms : ∀ m ∈ ms, 0 ≤ m.cdl)
    (h : ms.foldlM (fun st m => placeOneMeter m st) st = some st2) :
    (allMeters st2.1).Perm (allMeters st.1 ++ ms.flatMap placedForms) ∧
    (FlagInv st.1 → FlagInv st2.1) ∧
    (CapInv st.1 → CapInv st2.1) ∧
    (IdsInv st.1 → (∀ t ∈ st.1, t.id < st.2) →
      IdsInv st2.1 ∧ (∀ t ∈ st2.1, t.id < st2.2) ∧ st.2 ≤ st2.2) := by
  revert hms h
  induction ms generalizing st with
  | nil =>
    intro hms h
    rw [List.foldlM_nil] at h
    have h2 : some st = some st2 := h
    injection h2 with h2
    subst h2
    refine ⟨?_, fun hF => hF, fun hC => hC, fun h1 h2 => ⟨h1, h2, le_refl _⟩⟩
    rw [List.flatMap_nil, List.append_nil]
  | cons m ms ih =>
    intro hms h
    rw [List.foldlM_cons] at h
    cases hp : placeOneMeter m st with
    | none =>
      rw [hp] at h
      exact Option.noConfusion (show (none : Option (List Transformer × ℕ)) = some st2 from h)
    | some st1' =>
      rw [hp] at h
      have h2 : ms.foldlM (fun st m => placeOneMeter m st) st1' = some st2 := h
      obtain ⟨hp1, hf1, hc1, hi1⟩ := placeOneMeter_spec hp
      obtain ⟨hp2, hf2, hc2, hi2⟩ :=
        ih (fun x hx => hms x (List.mem_cons_of_mem _ hx)) h2
      refine ⟨?_, fun hF => hf2 (hf1 hF),
        fun hC => hc2 (hc1 hC (hms m (List.mem_cons_self _ _))), ?_⟩
      · refine hp2.trans ?_
        rw [List.flatMap_cons]
        refine (hp1.append_right _).trans ?_
        rw [List.append_assoc]
      · intro ha hb
        obtain ⟨ha1, hb1, hle1⟩ := hi1 ha hb
        obtain ⟨ha2, hb2, hle2⟩ := hi2 ha1 hb1
        exact ⟨ha2, hb2, le_trans hle1 hle2⟩

/-- Two in-place modifications at the same index compose. -/
theorem modify_modify_same {α : Type} (f g : α → α) (i : ℕ) (l : List α) :
    List.modify f i (List.modify g i l) = List.modify (fun a => f (g a)) i l := by
  apply List.ext_getElem?
  intro n
  rw [List.getElem?_modify, List.getElem?_modify, List.getElem?_modify]
  cases l[n]? with
  | none => rfl
  | some a =>
    show some (if i = n then f (if i = n then g a else a) else if i = n then g a else a) =
      some (if i = n then f (g a) else a)
    by_cases h : i = n
    · rw [if_pos h, if_pos h, if_pos h]
    · rw [if_neg h, if_neg h, if_neg h]

/-- In-place modifications at distinct indices commute. -/
theorem modify_modify_comm {α : Type} (f g : α → α) {i j : ℕ} (hij : i ≠ j) (l : List α) :
    List.modify f i (List.modify g j l) = List.modify g j (List.modify f i l) := by
  apply List.ext_getElem?
  intro n
  rw [List.getElem?_modify, List.getElem?_modify, List.getElem?_modify, List.getElem?_modify]
  cases l[n]? with
  | none => rfl
  | some a =>
    show some (if i = n then f (if j = n then g a else a) else if j = n then g a else a) =
      some (if j = n then g (if i = n then f a else a) else if i = n then f a else a)
    by_cases hi : i = n
    · have hj : ¬ j = n := fun hj => hij (hi.trans hj.symm)
      rw [if_pos hi, if_neg hj, if_neg hj, if_pos hi]
    · by_cases hj : j = n
      · rw [if_neg hi, if_pos hj, if_pos hj, if_neg hi]
      · rw [if_neg hi, if_neg hj, if_neg hj, if_neg hi]

/-- Members of a modified list: untouched, or the image of the modified
entry. -/
theorem mem_modify_getElem {α : Type} [Inhabited α] (f : α → α) {i : ℕ} {l : List α}
    {a : α} (h : l[i]? = some a) :
    ∀ a' ∈ List.modify f i l, a' ∈ l ∨ a' = f a := by
  intro a' ha'
  obtain ⟨l1, l2, hd, hlen, hm⟩ := modify_decomp f i l h
  rw [hm] at ha'
  rcases List.mem_append.mp ha' with h1 | h1
  · refine Or.inl ?_
    rw [hd]
    exact List.mem_append.mpr (Or.inl h1)
  · rcases List.mem_cons.mp h1 with h2 | h2
    · exact Or.inr h2
    · refine Or.inl ?_
      rw [hd]
      exact List.mem_append.mpr (Or.inr (List.mem_cons_of_mem _ h2))

/-- The carried meters around one in-place breaker modification. -/
theorem flatMap_modify_decomp (f : Breaker → Breaker) (i : ℕ) (bs : List Breaker)
    {b : Breaker} (hb : bs[i]? = some b) :
    ∃ F1 F2, bs.flatMap (·.meters) = F1 ++ (b.meters ++ F2) ∧
      (List.modify f i bs).flatMap (·.meters) = F1 ++ ((f b).meters ++ F2) := by
  obtain ⟨L1, L2, hdec, hlen, hmod⟩ := modify_decomp f i bs hb
  refine ⟨L1.flatMap (·.meters), L2.flatMap (·.meters), ?_, ?_⟩
  · rw [hdec, List.flatMap_append, List.flatMap_cons]
  · rw [hmod, List.flatMap_append, List.flatMap_cons]

/-- The carried meters around two in-place breaker modifications at
distinct indices, as a balanced permutation. -/
theorem flatMap_modify_modify_perm {bs : List Breaker} {i j : ℕ} {bi bj : Breaker}
    (hij : i ≠ j) (hbi : bs[i]? = some bi) (hbj : bs[j]? = some bj)
    (fi fj : Breaker → Breaker) :
    ((List.modify fj j (List.modify fi i bs)).flatMap (·.meters) ++
        (bi.meters ++ bj.meters)).Perm
      (bs.flatMap (·.meters) ++ ((fi bi).meters ++ (fj bj).meters)) := by
  obtain ⟨F1, F2, hF0, hF1⟩ := flatMap_modify_decomp fi i bs hbi
  have hbj' : (List.modify fi i bs)[j]? = some bj := by
    rw [modify_getElem_ne fi hij]
    exact hbj
  obtain ⟨G1, G2, hG0, hG1⟩ := flatMap_modify_decomp fj j (List.modify fi i bs) hbj'
  rw [List.perm_iff_count]
  intro a
  have hW := congrArg (List.count a) (hG0.symm.trans hF1)
  rw [hF0, hG1]
  simp only [List.count_append] at hW ⊢
  omega

/-- `metersLoad` is permutation invariant. -/
theorem metersLoad_perm {ms1 ms2 : List IndividualMeter} (h : ms1.Perm ms2) :
    metersLoad ms1 = metersLoad ms2 := by
  unfold metersLoad
  exact (h.map (·.cdl)).sum_eq

/-- `metersLoad` of a snoc. -/
theorem metersLoad_snoc (ms : List IndividualMeter) (m : IndividualMeter) :
    metersLoad (ms ++ [m]) = metersLoad ms + m.cdl := by
  rw [metersLoad_append]
  have : metersLoad [m] = m.cdl := by
    show m.cdl + 0 = m.cdl
    ring
  rw [this]

/-- Filtering nonnegative meters cannot raise the load. -/
theorem metersLoad_filter_le (p : IndividualMeter → Bool) (ms : List IndividualMeter)
    (h : ∀ m ∈ ms, 0 ≤ m.cdl) : metersLoad (ms.filter p) ≤ metersLoad ms := by
  induction ms with
  | nil => exact le_refl _
  | cons m ms ih =>
    have ih2 := ih fun x hx => h x (List.mem_cons_of_mem _ hx)
    have hm := h m (List.mem_cons_self _ _)
    rw [List.filter_cons]
    by_cases hp : p m = true
    · rw [if_pos hp]
      show metersLoad (m :: List.filter p ms) ≤ metersLoad (m :: ms)
      unfold metersLoad at ih2 ⊢
      rw [List.map_cons, List.sum_cons, List.map_cons, List.sum_cons]
      linarith
    · rw [if_neg hp]
      show metersLoad (List.filter p ms) ≤ metersLoad (m :: ms)
      unfold metersLoad at ih2 ⊢
      rw [List.map_cons, List.sum_cons]
      linarith

/-- A breaker of a state with duplicate-free meter ids has
duplicate-free meter ids itself. -/
theorem nodup_of_mem_flatMap {bs : List Breaker} {b : Breaker}
    (hb : b ∈ bs) (hN : ((bs.flatMap (·.meters)).map (·.id)).Nodup) :
    ((b.meters.map (·.id)).Nodup) := by
  obtain ⟨l1, l2, hdec⟩ := List.append_of_mem hb
  rw [hdec, List.flatMap_append, List.flatMap_cons, List.map_append, List.map_append] at hN
  exact hN.of_append_right.of_append_left

/-- Removing one meter by its id and appending it back is a permutation
when ids are duplicate free. -/
theorem filter_ne_id_perm {ms : List IndividualMeter} {m : IndividualMeter}
    (hm : m ∈ ms) (hN : (ms.map (·.id)).Nodup) :
    (ms.filter (fun x => decide (x.id ≠ m.id)) ++ [m]).Perm ms := by
  induction ms with
  | nil => cases hm
  | cons a ms ih =>
    rw [List.map_cons, List.nodup_cons] at hN
    rcases List.mem_cons.mp hm with h1 | h1
    · subst h1
      rw [List.filter_cons]
      have hcond : (decide (m.id ≠ m.id)) = false := by simp
      rw [hcond]
      simp only [Bool.false_eq_true, if_false]
      have hfeq : ms.filter (fun x => decide (x.id ≠ m.id)) = ms := by
        apply List.filter_eq_self.mpr
        intro x hx
        rw [decide_eq_true_eq]
        intro heq
        exact hN.1 (by rw [← heq]; exact List.mem_map.mpr ⟨x, hx, rfl⟩)
      rw [hfeq]
      exact List.perm_append_comm
    · have hane : a.id ≠ m.id := by
        intro heq
        exact hN.1 (by rw [heq]; exact List.mem_map.mpr ⟨m, h1, rfl⟩)
      rw [List.filter_cons]
      have hcond : (decide (a.id ≠ m.id)) = true := decide_eq_true hane
      rw [hcond]
      rw [if_pos rfl, List.cons_append]
      exact (ih h1 hN.2).cons a

/-- What membership in the rebalancer's eligible list certifies. -/
theorem balEligible_mem {t : Transformer} {s : ℕ × Breaker}
    (h : s ∈ t.breakers.enum.filter fun s =>
      decide (0 < s.2.meters.length) && !s.2.dedicated) :
    t.breakers[s.1]? = some s.2 ∧ 0 < s.2.meters.length ∧ s.2.dedicated = false := by
  rw [List.mem_filter] at h
  obtain ⟨hmem, hcond⟩ := h
  rw [Bool.and_eq_true] at hcond
  obtain ⟨h1, h2⟩ := hcond
  refine ⟨List.mem_enum_iff_getElem?.mp hmem, of_decide_eq_true h1, ?_⟩
  simpa using h2

/-- The eligible list has duplicate-free indices, and so does its sorted
version. -/
theorem balSorted_fst_nodup (t : Transformer) :
    (((t.breakers.enum.filter fun s =>
        decide (0 < s.2.meters.length) && !s.2.dedicated).mergeSort
          fun a b => decide (a.2.load ≤ b.2.load)).map Prod.fst).Nodup := by
  have h1 : (t.breakers.enum.map Prod.fst).Nodup := by
    rw [List.enum_map_fst]
    exact List.nodup_range _
  have h2 : ((t.breakers.enum.filter fun s =>
      decide (0 < s.2.meters.length) && !s.2.dedicated).map Prod.fst).Nodup :=
    ((List.filter_sublist _).map Prod.fst).nodup h1
  exact ((List.mergeSort_perm _ _).map Prod.fst).nodup_iff.mpr h2

/-- Replacing a breaker's meter list by a permutation of itself preserves
carried meters, flags, capacities, ids, and dedication. -/
theorem setSorted_inv {t : Transformer} {i : ℕ} {b0 : Breaker}
    (hg : t.breakers[i]? = some b0) (sorted : List IndividualMeter)
    (hperm : sorted.Perm b0.meters) (hF : TransFlag t) (hC : TransCapInv t) :
    ((setBreakerMeters t i sorted).breakers.flatMap (·.meters)).Perm
      (t.breakers.flatMap (·.meters)) ∧
    TransFlag (setBreakerMeters t i sorted) ∧ TransCapInv (setBreakerMeters t i sorted) ∧
    (setBreakerMeters t i sorted).id = t.id ∧
    (setBreakerMeters t i sorted).isDedicated = t.isDedicated ∧
    ((setBreakerMeters t i sorted).breakers.map (·.id)) = t.breakers.map (·.id) := by
  unfold setBreakerMeters
  obtain ⟨F1, F2, hbs, hmod⟩ :=
    flatMap_modify_decomp (fun b => { b with meters := sorted }) i t.breakers hg
  refine ⟨?_, ?_, ?_, rfl, rfl, ?_⟩
  · rw [hmod, hbs]
    exact List.Perm.append_left F1 (hperm.append_right F2)
  · intro b' hb'
    rcases mem_modify_getElem (fun b => { b with meters := sorted }) hg b' hb' with hcase | hcase
    · exact hF b' hcase
    · subst hcase
      have hFb := hF b0 (List.getElem?_mem hg)
      refine ⟨hFb.1, ?_⟩
      intro habs
      obtain ⟨m, hm1, hm2⟩ := hFb.2 habs
      refine ⟨m, ?_, hm2⟩
      show sorted = [m]
      have hperm2 := hperm
      rw [hm1] at hperm2
      exact List.perm_singleton.mp hperm2
  · intro b' hb'
    rcases mem_modify_getElem (fun b => { b with meters := sorted }) hg b' hb' with hcase | hcase
    · exact hC b' hcase
    · subst hcase
      have hCb := hC b0 (List.getElem?_mem hg)
      refine ⟨?_, ?_⟩
      · intro x hx
        have hx2 : x ∈ sorted := hx
        exact hCb.1 x (hperm.mem_iff.mp hx2)
      · intro hded
        have hded2 : b0.dedicated = false := hded
        obtain ⟨hacc, hbound⟩ := hCb.2 hded2
        constructor
        · show b0.load = metersLoad sorted
          rw [hacc]
          exact (metersLoad_perm hperm).symm
        · show metersLoad sorted ≤ MAX_BREAKER_CAPACITY
          rw [metersLoad_perm hperm]
          exact hbound
  · exact map_field_modify (fun b => { b with meters := sorted }) (fun x => x.id) i
      t.breakers (fun b => rfl)

/-- The rebalancer's five-modification chain collapses to one refreshed
modification per touched breaker. -/
theorem balance_chain_eq (most1 least1 : ℕ) (hne : least1 ≠ most1)
    (sorted filtered apnd : List IndividualMeter) (bs : List Breaker) :
    List.modify updateBreakerStats least1
      (List.modify updateBreakerStats most1
        (List.modify (fun b => { b with meters := apnd }) least1
          (List.modify (fun b => { b with meters := filtered }) most1
            (List.modify (fun b => { b with meters := sorted }) most1 bs)))) =
    List.modify (fun b => updateBreakerStats { b with meters := apnd }) least1
      (List.modify (fun b => updateBreakerStats { b with meters := filtered }) most1 bs) := by
  apply List.ext_getElem?
  intro k
  rw [List.getElem?_modify, List.getElem?_modify, List.getElem?_modify, List.getElem?_modify,
    List.getElem?_modify, List.getElem?_modify, List.getElem?_modify]
  cases bs[k]? with
  | none => rfl
  | some a =>
    by_cases h1 : least1 = k
    · have h2 : ¬ most1 = k := fun h => hne (h1.trans h.symm)
      simp [h1, h2]
    · by_cases h2 : most1 = k
      · simp [h1, h2]
      · simp [h1, h2]

/-- Every rebalancing round preserves the carried meter multiset, the
flag and capacity invariants, the transformer's id, its dedication flag,
and its breaker id list. -/
theorem balanceRounds_inv : ∀ (n : ℕ) (t : Transformer),
    TransFlag t → TransCapInv t →
    (((t.breakers.flatMap (·.meters)).map (·.id)).Nodup) →
    ((balanceRounds n t).breakers.flatMap (·.meters)).Perm (t.breakers.flatMap (·.meters)) ∧
    TransFlag (balanceRounds n t) ∧ TransCapInv (balanceRounds n t) ∧
    (balanceRounds n t).id = t.id ∧
    (balanceRounds n t).isDedicated = t.isDedicated ∧
    ((balanceRounds n t).breakers.map (·.id)) = t.breakers.map (·.id) := by
  intro n
  induction n with
  | zero =>
    intro t hF hC hN
    exact ⟨List.Perm.refl _, hF, hC, rfl, rfl, rfl⟩
  | succ n ih =>
    intro t hF hC hN
    unfold balanceRounds
    dsimp only
    rcases hS : (t.breakers.enum.filter fun s =>
        decide (0 < s.2.meters.length) && !s.2.dedicated).mergeSort
        (fun a b => decide (a.2.load ≤ b.2.load)) with _ | ⟨s0, _ | ⟨s1, rest⟩⟩
    · rw [hS]
      exact ⟨List.Perm.refl _, hF, hC, rfl, rfl, rfl⟩
    · rw [hS]
      exact ⟨List.Perm.refl _, hF, hC, rfl, rfl, rfl⟩
    · rw [hS]
      dsimp only
      have hs0m : s0 ∈ (t.breakers.enum.filter fun s =>
          decide (0 < s.2.meters.length) && !s.2.dedicated).mergeSort
          (fun a b => decide (a.2.load ≤ b.2.load)) := by
        rw [hS]
        exact List.mem_cons_self _ _
      have hs0e := List.mem_mergeSort.mp hs0m
      obtain ⟨hg0, hlen0, hd0⟩ := balEligible_mem hs0e
      have hnodup := balSorted_fst_nodup t
      rw [hS, List.map_cons, List.nodup_cons] at hnodup
      generalize hM : (s1 :: rest).getLast (List.cons_ne_nil s1 rest) = M
      have hMtail : M ∈ s1 :: rest := by
        rw [← hM]
        exact List.getLast_mem _
      have hMm : M ∈ (t.breakers.enum.filter fun s =>
          decide (0 < s.2.meters.length) && !s.2.dedicated).mergeSort
          (fun a b => decide (a.2.load ≤ b.2.load)) := by
        rw [hS]
        exact List.mem_cons_of_mem _ hMtail
      have hMe := List.mem_mergeSort.mp hMm
      obtain ⟨hgM, hlenM, hdM⟩ := balEligible_mem hMe
      have hne : s0.1 ≠ M.1 := by
        intro heq
        exact hnodup.1 (heq ▸ List.mem_map.mpr ⟨M, hMtail, rfl⟩)
      have hFM := hF M.2 (List.getElem?_mem hgM)
      have hF0 := hF s0.2 (List.getElem?_mem hg0)
      have hCM := hC M.2 (List.getElem?_mem hgM)
      have hC0 := hC s0.2 (List.getElem?_mem hg0)
      by_cases h20 : M.2.load - s0.2.load < 20
      · rw [if_pos h20]
        exact ⟨List.Perm.refl _, hF, hC, rfl, rfl, rfl⟩
      · rw [if_neg h20]
        set sorted := M.2.meters.mergeSort fun a b => decide (a.cdl ≤ b.cdl) with hsorteddef
        have hspermM : sorted.Perm M.2.meters := by
          rw [hsorteddef]
          exact List.mergeSort_perm _ _
        have hsortnn : ∀ x ∈ sorted, 0 ≤ x.cdl := by
          rw [hsorteddef]
          exact fun x hx => hCM.1 x (List.mem_mergeSort.mp hx)
        have hNsorted : ((sorted.map (·.id)).Nodup) := by
          rw [hsorteddef]
          exact ((List.mergeSort_perm M.2.meters (fun a b => decide (a.cdl ≤ b.cdl))).map
            (·.id)).nodup_iff.mpr (nodup_of_mem_flatMap (List.getElem?_mem hgM) hN)
        cases hfind : sorted.find? fun m =>
            decide (s0.2.load + m.cdl ≤ MAX_BREAKER_CAPACITY) with
        | none =>
          exact setSorted_inv hgM sorted hspermM hF hC
        | some mv =>
          dsimp only
          have hmv_sorted : mv ∈ sorted := List.mem_of_find?_eq_some hfind
          have hmv_mem : mv ∈ M.2.meters := hspermM.mem_iff.mp hmv_sorted
          have hcond := List.find?_some hfind
          have hmv_fit : s0.2.load + mv.cdl ≤ MAX_BREAKER_CAPACITY := of_decide_eq_true hcond
          set filtered := sorted.filter fun m => decide (m.id ≠ mv.id) with hfiltdef
          set apnd := s0.2.meters ++ [mv] with hapnddef
          have hfiltperm : (filtered ++ [mv]).Perm sorted := by
            rw [hfiltdef]
            exact filter_ne_id_perm hmv_sorted hNsorted
          have ht4 : updateBreakerAt (updateBreakerAt (setBreakerMeters (setBreakerMeters
              (setBreakerMeters t M.1 sorted) M.1 filtered) s0.1 apnd) M.1) s0.1 =
              { t with breakers := List.modify (fun b => updateBreakerStats { b with meters := apnd }) s0.1 (List.modify (fun b => updateBreakerStats { b with meters := filtered }) M.1 t.breakers) } :=
            congrArg (fun l => { t with breakers := l })
              (balance_chain_eq M.1 s0.1 hne sorted filtered apnd t.breakers)
          rw [ht4]
          set bs4 := List.modify (fun b => updateBreakerStats { b with meters := apnd }) s0.1 (List.modify (fun b => updateBreakerStats { b with meters := filtered }) M.1 t.breakers) with hbs4def
          have hg0pp : (List.modify (fun b => updateBreakerStats { b with meters := filtered }) M.1 t.breakers)[s0.1]? = some s0.2 := by
            rw [modify_getElem_ne _ (Ne.symm hne)]
            exact hg0
          have hcases : ∀ b' ∈ bs4, b' ∈ t.breakers ∨
              b' = updateBreakerStats { M.2 with meters := filtered } ∨
              b' = updateBreakerStats { s0.2 with meters := apnd } := by
            rw [hbs4def]
            intro b' hb'
            rcases mem_modify_getElem _ hg0pp b' hb' with hcase | hcase
            · rcases mem_modify_getElem _ hgM b' hcase with hcase2 | hcase2
              · exact Or.inl hcase2
              · exact Or.inr (Or.inl hcase2)
            · exact Or.inr (Or.inr hcase)
          have hperm4 : (bs4.flatMap (·.meters)).Perm (t.breakers.flatMap (·.meters)) := by
            rw [hbs4def]
            have big := flatMap_modify_modify_perm (Ne.symm hne) hgM hg0
              (fun b => updateBreakerStats { b with meters := filtered })
              (fun b => updateBreakerStats { b with meters := apnd })
            have hyx : ((((fun b => updateBreakerStats { b with meters := filtered }) M.2).meters ++ ((fun b => updateBreakerStats { b with meters := apnd }) s0.2).meters)).Perm (M.2.meters ++ s0.2.meters) := by
              show (filtered ++ apnd).Perm (M.2.meters ++ s0.2.meters)
              rw [hapnddef]
              refine (List.Perm.append_left filtered List.perm_append_comm).trans ?_
              rw [← List.append_assoc]
              exact List.Perm.append_right _ (hfiltperm.trans hspermM)
            exact (List.perm_append_right_iff _).mp
              (big.trans (List.Perm.append_left _ hyx))
          have hFn : TransFlag ({ t with breakers := bs4 } : Transformer) := by
            intro b' hb'
            have hb'2 : b' ∈ bs4 := hb'
            rcases hcases b' hb'2 with h | h | h
            · exact hF b' h
            · subst h
              refine ⟨?_, ?_⟩
              · show M.2.dedicated = t.isDedicated
                exact hFM.1
              · intro habs
                have habs2 : M.2.dedicated = true := habs
                rw [hdM] at habs2
                cases habs2
            · subst h
              refine ⟨?_, ?_⟩
              · show s0.2.dedicated = t.isDedicated
                exact hF0.1
              · intro habs
                have habs2 : s0.2.dedicated = true := habs
                rw [hd0] at habs2
                cases habs2
          have hCn : TransCapInv ({ t with breakers := bs4 } : Transformer) := by
            intro b' hb'
            have hb'2 : b' ∈ bs4 := hb'
            rcases hcases b' hb'2 with h | h | h
            · exact hC b' h
            · subst h
              refine ⟨?_, ?_⟩
              · intro x hx
                have hx2 : x ∈ filtered := hx
                rw [hfiltdef] at hx2
                exact hsortnn x (List.mem_of_mem_filter hx2)
              · intro _
                refine ⟨(updateBreakerStats_load _).trans
                  (congrArg metersLoad (updateBreakerStats_meters _).symm), ?_⟩
                show metersLoad (updateBreakerStats { M.2 with meters := filtered }).meters ≤
                  MAX_BREAKER_CAPACITY
                rw [updateBreakerStats_meters]
                show metersLoad filtered ≤ MAX_BREAKER_CAPACITY
                have hle1 : metersLoad filtered ≤ metersLoad sorted := by
                  rw [hfiltdef]
                  exact metersLoad_filter_le _ sorted hsortnn
                have hle2 := metersLoad_perm hspermM
                have hle3 := (hCM.2 hdM).2
                linarith
            · subst h
              refine ⟨?_, ?_⟩
              · intro x hx
                have hx2 : x ∈ apnd := hx
                rw [hapnddef] at hx2
                rcases List.mem_append.mp hx2 with h1 | h1
                · exact hC0.1 x h1
                · rw [List.mem_singleton] at h1
                  subst h1
                  exact hCM.1 x hmv_mem
              · intro _
                refine ⟨(updateBreakerStats_load _).trans
                  (congrArg metersLoad (updateBreakerStats_meters _).symm), ?_⟩
                show metersLoad (updateBreakerStats { s0.2 with meters := apnd }).meters ≤
                  MAX_BREAKER_CAPACITY
                rw [updateBreakerStats_meters]
                show metersLoad apnd ≤ MAX_BREAKER_CAPACITY
                rw [hapnddef, metersLoad_snoc, ← (hC0.2 hd0).1]
                exact hmv_fit
          have hNn : (((bs4.flatMap (·.meters)).map (·.id)).Nodup) :=
            (hperm4.map (·.id)).nodup_iff.mpr hN
          have hbids4 : bs4.map (·.id) = t.breakers.map (·.id) := by
            rw [hbs4def]
            rw [map_field_modify (fun b => updateBreakerStats { b with meters := apnd }) (fun x => x.id) s0.1 _ (fun b => updateBreakerStats_id _)]
            rw [map_field_modify (fun b => updateBreakerStats { b with meters := filtered }) (fun x => x.id) M.1 t.breakers (fun b => updateBreakerStats_id _)]
          obtain ⟨p, f, c, i1, i2, i3⟩ := ih { t with breakers := bs4 } hFn hCn hNn
          exact ⟨p.trans hperm4, f, c, i1, i2, i3.trans hbids4⟩

/-- `balanceTransformerInternally` preserves meters, invariants, id,
dedication, and breaker ids. -/
theorem balanceTransformerInternally_inv (t : Transformer)
    (hF : TransFlag t) (hC : TransCapInv t)
    (hN : ((t.breakers.flatMap (·.meters)).map (·.id)).Nodup) :
    ((balanceTransformerInternally t).breakers.flatMap (·.meters)).Perm
      (t.breakers.flatMap (·.meters)) ∧
    TransFlag (balanceTransformerInternally t) ∧
    TransCapInv (balanceTransformerInternally t) ∧
    (balanceTransformerInternally t).id = t.id ∧
    (balanceTransformerInternally t).isDedicated = t.isDedicated ∧
    ((balanceTransformerInternally t).breakers.map (·.id)) = t.breakers.map (·.id) := by
  unfold balanceTransformerInternally
  by_cases h : t.isDedicated
  · rw [if_pos h]
    exact ⟨List.Perm.refl _, hF, hC, rfl, rfl, rfl⟩
  · rw [if_neg h]
    exact balanceRounds_inv 5 t hF hC hN

/-- A transformer of a state with duplicate-free meter ids carries
duplicate-free meter ids. -/
theorem nodup_of_mem_allMeters {ts : List Transformer} {t : Transformer}
    (ht : t ∈ ts) (hN : meterIdsNodup ts) :
    (((t.breakers.flatMap (·.meters)).map (·.id)).Nodup) := by
  obtain ⟨l1, l2, hdec⟩ := List.append_of_mem ht
  unfold meterIdsNodup allMeters at hN
  rw [hdec, List.flatMap_append, List.flatMap_cons, List.map_append, List.map_append] at hN
  exact hN.of_append_right.of_append_left

/-- Distinct meter ids restrict to the tail of a state. -/
theorem meterIdsNodup_tail {t : Transformer} {ts : List Transformer}
    (hN : meterIdsNodup (t :: ts)) : meterIdsNodup ts := by
  unfold meterIdsNodup at hN ⊢
  rw [allMeters_cons, List.map_append] at hN
  exact hN.of_append_right

/-- Mapping the internal rebalancer over a state preserves meters,
invariants, transformer ids, and breaker id lists. -/
theorem balance_map_inv : ∀ (ts : List Transformer),
    FlagInv ts → CapInv ts → meterIdsNodup ts →
    (allMeters (ts.map balanceTransformerInternally)).Perm (allMeters ts) ∧
    FlagInv (ts.map balanceTransformerInternally) ∧
    CapInv (ts.map balanceTransformerInternally) ∧
    ((ts.map balanceTransformerInternally).map (·.id)) = ts.map (·.id) ∧
    ((∀ t ∈ ts, ((t.breakers.map (·.id)).Nodup)) →
      ∀ t' ∈ ts.map balanceTransformerInternally, ((t'.breakers.map (·.id)).Nodup)) := by
  intro ts
  induction ts with
  | nil =>
    intro _ _ _
    exact ⟨List.Perm.refl _, fun t ht => absurd ht (List.not_mem_nil t),
      fun t ht => absurd ht (List.not_mem_nil t), rfl,
      fun _ t' ht' => absurd ht' (List.not_mem_nil t')⟩
  | cons t ts ih =>
    intro hF hC hN
    have hNt : (((t.breakers.flatMap (·.meters)).map (·.id)).Nodup) :=
      nodup_of_mem_allMeters (List.mem_cons_self _ _) hN
    obtain ⟨p1, f1, c1, i1, d1, b1⟩ := balanceTransformerInternally_inv t
      (hF t (List.mem_cons_self _ _)) (hC t (List.mem_cons_self _ _)) hNt
    obtain ⟨p2, f2, c2, i2, b2⟩ := ih (fun x hx => hF x (List.mem_cons_of_mem _ hx))
      (fun x hx => hC x (List.mem_cons_of_mem _ hx)) (meterIdsNodup_tail hN)
    refine ⟨?_, ?_, ?_, ?_, ?_⟩
    · rw [List.map_cons, allMeters_cons, allMeters_cons]
      exact p1.append p2
    · intro t' ht'
      rw [List.map_cons] at ht'
      rcases List.mem_cons.mp ht' with h | h
      · subst h
        exact f1
      · exact f2 t' h
    · intro t' ht'
      rw [List.map_cons] at ht'
      rcases List.mem_cons.mp ht' with h | h
      · subst h
        exact c1
      · exact c2 t' h
    · rw [List.map_cons, List.map_cons, List.map_cons, i1, i2]
    · intro hB t' ht'
      rw [List.map_cons] at ht'
      rcases List.mem_cons.mp ht' with h | h
      · subst h
        rw [b1]
        exact hB t (List.mem_cons_self _ _)
      · exact b2 (fun x hx => hB x (List.mem_cons_of_mem _ hx)) t' h

/-- The carried meters around one in-place transformer modification. -/
theorem allMeters_modify_decomp (f : Transformer → Transformer) (i : ℕ)
    (ts : List Transformer) {t : Transformer} (ht : ts[i]? = some t) :
    ∃ F1 F2, allMeters ts = F1 ++ (t.breakers.flatMap (·.meters) ++ F2) ∧
      allMeters (List.modify f i ts) = F1 ++ ((f t).breakers.flatMap (·.meters) ++ F2) := by
  obtain ⟨L1, L2, hdec, hlen, hmod⟩ := modify_decomp f i ts ht
  refine ⟨allMeters L1, allMeters L2, ?_, ?_⟩
  · rw [hdec, allMeters_append, allMeters_cons]
  · rw [hmod, allMeters_append, allMeters_cons]

/-- The carried meters around two in-place transformer modifications at
distinct indices, as a balanced permutation. -/
theorem allMeters_modify_modify_perm {ts : List Transformer} {i j : ℕ}
    {ti tj : Transformer} (hij : i ≠ j) (hti : ts[i]? = some ti)
    (htj : ts[j]? = some tj) (fi fj : Transformer → Transformer) :
    (allMeters (List.modify fj j (List.modify fi i ts)) ++
        (ti.breakers.flatMap (·.meters) ++ tj.breakers.flatMap (·.meters))).Perm
      (allMeters ts ++
        ((fi ti).breakers.flatMap (·.meters) ++ (fj tj).breakers.flatMap (·.meters))) := by
  obtain ⟨F1, F2, hF0, hF1⟩ := allMeters_modify_decomp fi i ts hti
  have htj' : (List.modify fi i ts)[j]? = some tj := by
    rw [modify_getElem_ne fi hij]
    exact htj
  obtain ⟨G1, G2, hG0, hG1⟩ := allMeters_modify_decomp fj j (List.modify fi i ts) htj'
  rw [List.perm_iff_count]
  intro a
  have hW := congrArg (List.count a) (hG0.symm.trans hF1)
  rw [hF0, hG1]
  simp only [List.count_append] at hW ⊢
  omega

/-- An id-preserving in-place modification keeps the id invariant. -/
theorem idsInv_modify {ts : List Transformer} {f : Transformer → Transformer} {i : ℕ}
    (hid : ∀ t, (f t).id = t.id)
    (hbid : ∀ t, ((f t).breakers.map (·.id)) = t.breakers.map (·.id))
    (h : IdsInv ts) : IdsInv (List.modify f i ts) := by
  constructor
  · rw [map_field_modify f (fun x => x.id) i ts hid]
    exact h.1
  · intro t' ht'
    rcases mem_modify t' ht' with hc | ⟨t, ht, hEq⟩
    · exact h.2 t' hc
    · subst hEq
      rw [hbid t]
      exact h.2 t ht

/-- Emptying a non-dedicated breaker preserves the flag invariant. -/
theorem flagInv_setEmpty {ts : List Transformer} {ti bi : ℕ} {t : Transformer}
    {b : Breaker} (ht : ts[ti]? = some t) (hb : t.breakers[bi]? = some b)
    (hbd : b.dedicated = false) (h : FlagInv ts) :
    FlagInv (setBreakerMetersIn ts ti bi []) := by
  intro t' ht'
  have ht'2 : t' ∈ List.modify (fun x => setBreakerMeters x bi []) ti ts := ht'
  rcases mem_modify_getElem _ ht t' ht'2 with hc | hc
  · exact h t' hc
  · subst hc
    intro b' hb'
    have hb'2 : b' ∈ List.modify (fun x => { x with meters := ([] : List IndividualMeter) }) bi t.breakers := hb'
    rcases mem_modify_getElem _ hb b' hb'2 with hc2 | hc2
    · exact h t (List.getElem?_mem ht) b' hc2
    · subst hc2
      refine ⟨?_, ?_⟩
      · show b.dedicated = t.isDedicated
        exact (h t (List.getElem?_mem ht) b (List.getElem?_mem hb)).1
      · intro habs
        have habs2 : b.dedicated = true := habs
        rw [hbd] at habs2
        cases habs2

/-- Emptying a breaker preserves the capacity core. -/
theorem capCore_setEmpty {ts : List Transformer} {ti bi : ℕ} {t : Transformer}
    {b : Breaker} (ht : ts[ti]? = some t) (hb : t.breakers[bi]? = some b)
    (h : CapCore ts) : CapCore (setBreakerMetersIn ts ti bi []) := by
  intro t' ht'
  have ht'2 : t' ∈ List.modify (fun x => setBreakerMeters x bi []) ti ts := ht'
  rcases mem_modify_getElem _ ht t' ht'2 with hc | hc
  · exact h t' hc
  · subst hc
    intro b' hb'
    have hb'2 : b' ∈ List.modify (fun x => { x with meters := ([] : List IndividualMeter) }) bi t.breakers := hb'
    rcases mem_modify_getElem _ hb b' hb'2 with hc2 | hc2
    · exact h t (List.getElem?_mem ht) b' hc2
    · subst hc2
      refine ⟨?_, ?_⟩
      · intro x hx
        have hx2 : x ∈ ([] : List IndividualMeter) := hx
        cases hx2
      · intro _
        show metersLoad ([] : List IndividualMeter) ≤ MAX_BREAKER_CAPACITY
        norm_num [metersLoad, MAX_BREAKER_CAPACITY]

/-- One consolidation move conserves the carried meters and every
invariant. -/
theorem applyConsolidation_spec {ts : List Transformer} {src : SingleSrc}
    {tgt : ℕ × ℕ × ℚ} {tsrc : Transformer} {bsrc : Breaker}
    (hfind : findConsolidationTarget src.meter src.parentId src.breakerId ts = some tgt)
    (hts : ts[src.ti]? = some tsrc) (hbs : tsrc.breakers[src.bi]? = some bsrc)
    (hbm : bsrc.meters = [src.meter]) (hbd : bsrc.dedicated = false)
    (hpid : src.parentId = tsrc.id) (hbid : src.breakerId = bsrc.id)
    (hF : FlagInv ts) (hC : CapInv ts) :
    (allMeters (applyConsolidation ts src tgt)).Perm (allMeters ts) ∧
    FlagInv (applyConsolidation ts src tgt) ∧
    CapInv (applyConsolidation ts src tgt) ∧
    (IdsInv ts → IdsInv (applyConsolidation ts src tgt)) := by
  obtain ⟨t, b, htg, hbg, htd, hnid, hbd2, hblen, hcap, hload⟩ := consSearch_ok hfind
  have hneSrcTgt : ¬(tgt.1 = src.ti ∧ tgt.2.1 = src.bi) := by
    rintro ⟨h1, h2⟩
    rw [h1, hts] at htg
    injection htg with htg
    subst htg
    rw [h2, hbs] at hbg
    injection hbg with hbg
    subst hbg
    exact hnid ⟨hbid.symm, hpid.symm⟩
  have hmem_srcmeter : src.meter ∈ bsrc.meters := by
    rw [hbm]
    exact List.mem_singleton.mpr rfl
  have hnn : 0 ≤ src.meter.cdl :=
    (hC tsrc (List.getElem?_mem hts) bsrc (List.getElem?_mem hbs)).1 src.meter hmem_srcmeter
  have hFp : FlagInv (pushMeterAt ts tgt.1 tgt.2.1 src.meter) := flagInv_push hF htg hbg hbd2
  have hCacc := ((hC t (List.getElem?_mem htg) b (List.getElem?_mem hbg)).2 hbd2).1
  have hCp : CapCore (pushMeterAt ts tgt.1 tgt.2.1 src.meter) := by
    refine capCore_push (capInv_core hC) htg hbg ?_ hnn
    rw [← hCacc]
    exact hcap
  obtain ⟨tsome, hpst, hpsb⟩ : ∃ tsome,
      (pushMeterAt ts tgt.1 tgt.2.1 src.meter)[src.ti]? = some tsome ∧
        tsome.breakers[src.bi]? = some bsrc := by
    by_cases hcase : tgt.1 = src.ti
    · have hne2 : tgt.2.1 ≠ src.bi := fun h2 => hneSrcTgt ⟨hcase, h2⟩
      refine ⟨{ tsrc with breakers := List.modify (fun b0 => { b0 with meters := b0.meters ++ [src.meter] }) tgt.2.1 tsrc.breakers }, ?_, ?_⟩
      · rw [hcase]
        exact push_getElem_self _ _ hts
      · show (List.modify (fun b0 => { b0 with meters := b0.meters ++ [src.meter] }) tgt.2.1 tsrc.breakers)[src.bi]? = some bsrc
        rw [modify_getElem_ne _ hne2]
        exact hbs
    · refine ⟨tsrc, ?_, hbs⟩
      have htmp : (pushMeterAt ts tgt.1 tgt.2.1 src.meter)[src.ti]? = ts[src.ti]? :=
        modify_getElem_ne _ hcase ts
      exact htmp.trans hts
  refine ⟨?_, updateAllStats_flagInv (flagInv_setEmpty hpst hpsb hbd hFp),
    updateAllStats_capInv (capCore_setEmpty hpst hpsb hCp), ?_⟩
  · show (allMeters (updateAllStats (setBreakerMetersIn
      (pushMeterAt ts tgt.1 tgt.2.1 src.meter) src.ti src.bi []))).Perm (allMeters ts)
    rw [allMeters_updateAllStats]
    by_cases hcase : tgt.1 = src.ti
    · have hne2 : tgt.2.1 ≠ src.bi := fun h2 => hneSrcTgt ⟨hcase, h2⟩
      have hteq : tsrc = t := by
        rw [hcase, hts] at htg
        injection htg
      subst hteq
      have hcollapse : setBreakerMetersIn (pushMeterAt ts tgt.1 tgt.2.1 src.meter) src.ti src.bi [] = List.modify (fun t0 => setBreakerMeters { t0 with breakers := List.modify (fun b0 => { b0 with meters := b0.meters ++ [src.meter] }) tgt.2.1 t0.breakers } src.bi []) src.ti ts := by
        rw [hcase]
        show List.modify (fun t0 => setBreakerMeters t0 src.bi []) src.ti (List.modify (fun t0 => { t0 with breakers := List.modify (fun b0 => { b0 with meters := b0.meters ++ [src.meter] }) tgt.2.1 t0.breakers }) src.ti ts) = _
        exact modify_modify_same _ _ _ _
      rw [hcollapse]
      obtain ⟨F1, F2, hd0, hd1⟩ := allMeters_modify_decomp (fun t0 => setBreakerMeters { t0 with breakers := List.modify (fun b0 => { b0 with meters := b0.meters ++ [src.meter] }) tgt.2.1 t0.breakers } src.bi []) src.ti ts hts
      rw [hd1, hd0]
      refine List.Perm.append_left F1 (List.Perm.append_right F2 ?_)
      show ((List.modify (fun b0 : Breaker => { b0 with meters := ([] : List IndividualMeter) }) src.bi (List.modify (fun b0 : Breaker => { b0 with meters := b0.meters ++ [src.meter] }) tgt.2.1 tsrc.breakers)).flatMap (·.meters)).Perm (tsrc.breakers.flatMap (·.meters))
      have bigB := flatMap_modify_modify_perm hne2 hbg hbs
        (fun b0 => { b0 with meters := b0.meters ++ [src.meter] })
        (fun b0 => { b0 with meters := ([] : List IndividualMeter) })
      have hE : ((((fun b0 : Breaker => { b0 with meters := b0.meters ++ [src.meter] }) b).meters ++ ((fun b0 : Breaker => { b0 with meters := ([] : List IndividualMeter) }) bsrc).meters)).Perm (b.meters ++ bsrc.meters) := by
        show ((b.meters ++ [src.meter]) ++ ([] : List IndividualMeter)).Perm (b.meters ++ bsrc.meters)
        rw [List.append_nil, hbm]
      exact (List.perm_append_right_iff _).mp (bigB.trans (List.Perm.append_left _ hE))
    · have hpushed_eq : setBreakerMetersIn (pushMeterAt ts tgt.1 tgt.2.1 src.meter) src.ti src.bi [] = List.modify (fun t0 => setBreakerMeters t0 src.bi []) src.ti (List.modify (fun t0 => { t0 with breakers := List.modify (fun b0 => { b0 with meters := b0.meters ++ [src.meter] }) tgt.2.1 t0.breakers }) tgt.1 ts) := rfl
      rw [hpushed_eq]
      have bigA := allMeters_modify_modify_perm hcase htg hts
        (fun t0 => { t0 with breakers := List.modify (fun b0 => { b0 with meters := b0.meters ++ [src.meter] }) tgt.2.1 t0.breakers })
        (fun t0 => setBreakerMeters t0 src.bi [])
      obtain ⟨G1, G2, hG0, hG1⟩ := flatMap_modify_decomp
        (fun b0 => { b0 with meters := b0.meters ++ [src.meter] }) tgt.2.1 t.breakers hbg
      obtain ⟨H1, H2, hH0, hH1⟩ := flatMap_modify_decomp
        (fun b0 => { b0 with meters := ([] : List IndividualMeter) }) src.bi tsrc.breakers hbs
      dsimp only at hG1 hH1
      have hE : ((((fun t0 : Transformer => { t0 with breakers := List.modify (fun b0 : Breaker => { b0 with meters := b0.meters ++ [src.meter] }) tgt.2.1 t0.breakers }) t).breakers.flatMap (·.meters) ++ ((fun t0 : Transformer => setBreakerMeters t0 src.bi []) tsrc).breakers.flatMap (·.meters))).Perm (t.breakers.flatMap (·.meters) ++ tsrc.breakers.flatMap (·.meters)) := by
        show (((List.modify (fun b0 : Breaker => { b0 with meters := b0.meters ++ [src.meter] }) tgt.2.1 t.breakers).flatMap (·.meters)) ++ ((List.modify (fun b0 : Breaker => { b0 with meters := ([] : List IndividualMeter) }) src.bi tsrc.breakers).flatMap (·.meters))).Perm (t.breakers.flatMap (·.meters) ++ tsrc.breakers.flatMap (·.meters))
        rw [hG1, hH1, hG0, hH0, hbm]
        rw [List.perm_iff_count]
        intro a
        simp only [List.count_append, List.count_nil]
        omega
      exact (List.perm_append_right_iff _).mp (bigA.trans (List.Perm.append_left _ hE))
  · intro h
    refine updateAllStats_idsInv ?_
    refine idsInv_modify (fun t0 => rfl) ?_ ?_
    · intro t0
      exact map_field_modify (fun x => { x with meters := ([] : List IndividualMeter) })
        (fun x => x.id) src.bi t0.breakers (fun x => rfl)
    · refine idsInv_modify (fun t0 => rfl) ?_ h
      intro t0
      exact map_field_modify (fun b0 => { b0 with meters := b0.meters ++ [src.meter] })
        (fun x => x.id) tgt.2.1 t0.breakers (fun x => rfl)

/-- A successful pass over the collected sources conserves meters and
invariants. -/
theorem trySources_spec : ∀ (srcs : List SingleSrc) (ts ts2 : List Transformer),
    (∀ s ∈ srcs, s ∈ collectSingles ts) → FlagInv ts → CapInv ts →
    trySources srcs ts = some ts2 →
    (allMeters ts2).Perm (allMeters ts) ∧ FlagInv ts2 ∧ CapInv ts2 ∧
      (IdsInv ts → IdsInv ts2) := by
  intro srcs
  induction srcs with
  | nil =>
    intro ts ts2 _ _ _ h
    exact Option.noConfusion (show (none : Option (List Transformer)) = some ts2 from h)
  | cons src rest ih =>
    intro ts ts2 hmem hF hC h
    unfold trySources at h
    cases hfind : findConsolidationTarget src.meter src.parentId src.breakerId ts with
    | some tgt =>
      rw [hfind] at h
      have h2 : some (applyConsolidation ts src tgt) = some ts2 := h
      injection h2 with h2
      subst h2
      obtain ⟨t0, b0, hts, hbs, hbm, hbd, hpid, hbid2, hld⟩ :=
        collectSingles_mem (hmem src (List.mem_cons_self _ _))
      exact applyConsolidation_spec hfind hts hbs hbm hbd hpid hbid2 hF hC
    | none =>
      rw [hfind] at h
      have h2 : trySources rest ts = some ts2 := h
      exact ih ts ts2 (fun s hs => hmem s (List.mem_cons_of_mem _ hs)) hF hC h2

/-- The consolidation loop conserves meters and invariants. -/
theorem consolidateLoop_spec : ∀ (fuel : ℕ) (ts : List Transformer),
    FlagInv ts → CapInv ts →
    (allMeters (consolidateLoop fuel ts)).Perm (allMeters ts) ∧
    FlagInv (consolidateLoop fuel ts) ∧ CapInv (consolidateLoop fuel ts) ∧
    (IdsInv ts → IdsInv (consolidateLoop fuel ts)) := by
  intro fuel
  induction fuel with
  | zero =>
    intro ts hF hC
    exact ⟨List.Perm.refl _, hF, hC, fun h => h⟩
  | succ fuel ih =>
    intro ts hF hC
    unfold consolidateLoop
    dsimp only
    by_cases hemp : (collectSingles ts).isEmpty = true
    · rw [if_pos hemp]
      exact ⟨List.Perm.refl _, hF, hC, fun h => h⟩
    · rw [if_neg hemp]
      cases htry : trySources ((collectSingles ts).mergeSort fun a b =>
          decide (a.load ≤ b.load)) ts with
      | some ts2 =>
        obtain ⟨p1, f1, c1, i1⟩ := trySources_spec _ ts ts2
          (fun s hs => List.mem_mergeSort.mp hs) hF hC htry
        obtain ⟨p2, f2, c2, i2⟩ := ih ts2 f1 c1
        exact ⟨p2.trans p1, f2, c2, fun h => i2 (i1 h)⟩
      | none =>
        exact ⟨List.Perm.refl _, hF, hC, fun h => h⟩

/-- A breaker list with only empty meter lists carries nothing. -/
theorem flatMap_meters_nil {bs : List Breaker} (h : ∀ b ∈ bs, b.meters = []) :
    bs.flatMap (·.meters) = [] := by
  induction bs with
  | nil => rfl
  | cons b bs ih =>
    rw [List.flatMap_cons, h b (List.mem_cons_self _ _),
      ih (fun x hx => h x (List.mem_cons_of_mem _ hx))]
    rfl

/-- The active-transformer filter drops only meterless transformers. -/
theorem allMeters_filter_active (ts : List Transformer) :
    allMeters (ts.filter fun t =>
      t.breakers.any (fun b => decide (0 < b.meters.length)) || t.isDedicated) =
      allMeters ts := by
  induction ts with
  | nil => rfl
  | cons t ts ih =>
    rw [List.filter_cons]
    by_cases hp : ((t.breakers.any fun b => decide (0 < b.meters.length)) || t.isDedicated) = true
    · rw [if_pos hp, allMeters_cons, allMeters_cons, ih]
    · have hany : (t.breakers.any fun b => decide (0 < b.meters.length)) = false := by
        cases h1 : t.breakers.any fun b => decide (0 < b.meters.length)
        · rfl
        · exfalso
          apply hp
          rw [h1]
          rfl
      have hmeters : ∀ b ∈ t.breakers, b.meters = [] := by
        intro b hb
        by_contra hne
        have hlen : 0 < b.meters.length := by
          cases hm : b.meters with
          | nil => exact absurd hm hne
          | cons x xs =>
            simp only [List.length_cons]
            omega
        have hcon : t.breakers.any (fun b => decide (0 < b.meters.length)) = true :=
          List.any_eq_true.mpr ⟨b, hb, decide_eq_true hlen⟩
        rw [hany] at hcon
        cases hcon
      rw [if_neg hp, ih, allMeters_cons, flatMap_meters_nil hmeters, List.nil_append]

/-- Filtering preserves the id invariant. -/
theorem idsInv_filter {ts : List Transformer} (p : Transformer → Bool) (h : IdsInv ts) :
    IdsInv (ts.filter p) := by
  constructor
  · exact ((List.filter_sublist ts).map (·.id)).nodup h.1
  · intro t ht
    exact h.2 t (List.mem_of_mem_filter ht)

/-- Renumbering moves no meters (any start index). -/
theorem allMeters_enumFrom_map (n : ℕ) (ts : List Transformer) :
    allMeters ((List.enumFrom n ts).map fun p => { p.2 with id := p.1 + 1 }) =
      allMeters ts := by
  induction ts generalizing n with
  | nil => rfl
  | cons t ts ih =>
    rw [List.enumFrom_cons, List.map_cons, allMeters_cons, allMeters_cons, ih]

/-- Renumbering moves no meters. -/
theorem allMeters_renumber (ts : List Transformer) :
    allMeters (ts.enum.map fun p => { p.2 with id := p.1 + 1 }) = allMeters ts :=
  allMeters_enumFrom_map 0 ts

/-- A renumbered transformer is an id-rewrite of an original one. -/
theorem mem_renumber {ts : List Transformer} {t' : Transformer}
    (h : t' ∈ ts.enum.map fun p => { p.2 with id := p.1 + 1 }) :
    ∃ t ∈ ts, ∃ k, t' = { t with id := k } := by
  rw [List.mem_map] at h
  obtain ⟨p, hp, hEq⟩ := h
  exact ⟨p.2, List.getElem?_mem (List.mem_enum_iff_getElem?.mp hp), p.1 + 1, hEq.symm⟩

/-- Renumbering preserves the flag invariant. -/
theorem flagInv_renumber {ts : List Transformer} (h : FlagInv ts) :
    FlagInv (ts.enum.map fun p => { p.2 with id := p.1 + 1 }) := by
  intro t' ht'
  obtain ⟨t, ht, k, hEq⟩ := mem_renumber ht'
  subst hEq
  intro b hb
  have hb2 : b ∈ t.breakers := hb
  exact h t ht b hb2

/-- Renumbering preserves the capacity invariant. -/
theorem capInv_renumber {ts : List Transformer} (h : CapInv ts) :
    CapInv (ts.enum.map fun p => { p.2 with id := p.1 + 1 }) := by
  intro t' ht'
  obtain ⟨t, ht, k, hEq⟩ := mem_renumber ht'
  subst hEq
  intro b hb
  have hb2 : b ∈ t.breakers := hb
  exact h t ht b hb2

/-- Renumbering restores distinct transformer ids and keeps breaker
ids. -/
theorem idsInv_renumber {ts : List Transformer} (h : IdsInv ts) :
    IdsInv (ts.enum.map fun p => { p.2 with id := p.1 + 1 }) := by
  constructor
  · have heq : ((ts.enum.map fun p => { p.2 with id := p.1 + 1 }).map (·.id)) =
        (ts.enum.map Prod.fst).map (fun x => x + 1) := by
      rw [List.map_map, List.map_map]
      exact List.map_congr_left (fun p _ => rfl)
    rw [heq, List.enum_map_fst]
    exact (List.nodup_range _).map (fun a b hab => by omega)
  · intro t' ht'
    obtain ⟨t, ht, k, hEq⟩ := mem_renumber ht'
    subst hEq
    show ((t.breakers.map (·.id)).Nodup)
    exact h.2 t ht

/-- The post-placement stages conserve the carried meters and end in a
state satisfying every invariant with accurate sums. -/
theorem finish_spec {ts : List Transformer} (hF : FlagInv ts) (hC : CapInv ts)
    (hI : IdsInv ts) (hN : meterIdsNodup ts) :
    (allMeters (finishStages ts)).Perm (allMeters ts) ∧
    FlagInv (finishStages ts) ∧ CapInv (finishStages ts) ∧ IdsInv (finishStages ts) ∧
    sumAssigned (finishStages ts) = metersLoad (allMeters (finishStages ts)) := by
  obtain ⟨bA, bFm, bCm, bIdm, bBm⟩ := balance_map_inv ts hF hC hN
  have hF4 : FlagInv (updateAllStats (ts.map balanceTransformerInternally)) :=
    updateAllStats_flagInv bFm
  have hC4 : CapInv (updateAllStats (ts.map balanceTransformerInternally)) :=
    updateAllStats_capInv (capInv_core bCm)
  have hI4 : IdsInv (updateAllStats (ts.map balanceTransformerInternally)) :=
    updateAllStats_idsInv ⟨by rw [bIdm]; exact hI.1, bBm hI.2⟩
  have hA4 : (allMeters (updateAllStats (ts.map balanceTransformerInternally))).Perm
      (allMeters ts) := by
    rw [allMeters_updateAllStats]
    exact bA
  obtain ⟨cA, cF, cC, cI⟩ := consolidateLoop_spec 20
    (updateAllStats (ts.map balanceTransformerInternally)) hF4 hC4
  have aF : FlagInv ((consolidateSingleMeterBreakers (updateAllStats (ts.map balanceTransformerInternally))).filter fun t => t.breakers.any (fun b => decide (0 < b.meters.length)) || t.isDedicated) :=
    fun t ht => cF t (List.mem_of_mem_filter ht)
  have aC : CapInv ((consolidateSingleMeterBreakers (updateAllStats (ts.map balanceTransformerInternally))).filter fun t => t.breakers.any (fun b => decide (0 < b.meters.length)) || t.isDedicated) :=
    fun t ht => cC t (List.mem_of_mem_filter ht)
  have aI : IdsInv ((consolidateSingleMeterBreakers (updateAllStats (ts.map balanceTransformerInternally))).filter fun t => t.breakers.any (fun b => decide (0 < b.meters.length)) || t.isDedicated) :=
    idsInv_filter _ (cI hI4)
  have rF := flagInv_renumber aF
  have rC := capInv_renumber aC
  have rI := idsInv_renumber aI
  refine ⟨?_, updateAllStats_flagInv rF, updateAllStats_capInv (capInv_core rC),
    updateAllStats_idsInv rI, ?_⟩
  · show (allMeters (updateAllStats (((consolidateSingleMeterBreakers (updateAllStats (ts.map balanceTransformerInternally))).filter fun t => t.breakers.any (fun b => decide (0 < b.meters.length)) || t.isDedicated).enum.map fun p => { p.2 with id := p.1 + 1 }))).Perm (allMeters ts)
    rw [allMeters_updateAllStats, allMeters_renumber, allMeters_filter_active]
    exact cA.trans hA4
  · show sumAssigned (updateAllStats (((consolidateSingleMeterBreakers (updateAllStats (ts.map balanceTransformerInternally))).filter fun t => t.breakers.any (fun b => decide (0 < b.meters.length)) || t.isDedicated).enum.map fun p => { p.2 with id := p.1 + 1 })) = metersLoad (allMeters (updateAllStats (((consolidateSingleMeterBreakers (updateAllStats (ts.map balanceTransformerInternally))).filter fun t => t.breakers.any (fun b => decide (0 < b.meters.length)) || t.isDedicated).enum.map fun p => { p.2 with id := p.1 + 1 })))
    rw [sumAssigned_updateAllStats, allMeters_updateAllStats]
    rfl

/-- Shape of an expanded meter. -/
theorem expandGroup_mem {g : MeterGroup} {m : IndividualMeter} (h : m ∈ expandGroup g) :
    m.note = none ∧ m.cdl = g.cdlPerMeter ∧ m.capacity = g.capacity ∧
      m.id.gid = g.id ∧ m.id.part = none := by
  unfold expandGroup at h
  rw [List.mem_map] at h
  obtain ⟨i, _, hEq⟩ := h
  subst hEq
  exact ⟨rfl, rfl, rfl, rfl, rfl⟩

/-- Every expanded meter comes from its group with the group's cdl and
capacity and no split note. -/
theorem mem_expand {gs : List MeterGroup} {m : IndividualMeter}
    (h : m ∈ gs.flatMap expandGroup) :
    ∃ g ∈ gs, m.note = none ∧ m.cdl = g.cdlPerMeter ∧ m.capacity = g.capacity := by
  rw [List.mem_flatMap] at h
  obtain ⟨g, hg, hm⟩ := h
  obtain ⟨h1, h2, h3, _, _⟩ := expandGroup_mem hm
  exact ⟨g, hg, h1, h2, h3⟩

/-- With distinct group ids, the expanded meters have distinct
(group, index) bases. -/
theorem expand_base_nodup : ∀ (gs : List MeterGroup), ((gs.map (·.id)).Nodup) →
    (((gs.flatMap expandGroup).map fun m => (m.id.gid, m.id.idx)).Nodup) := by
  intro gs
  induction gs with
  | nil =>
    intro _
    exact List.nodup_nil
  | cons g gs ih =>
    intro hN
    rw [List.map_cons, List.nodup_cons] at hN
    rw [List.flatMap_cons, List.map_append, List.nodup_append]
    refine ⟨?_, ih hN.2, ?_⟩
    · unfold expandGroup
      rw [List.map_map]
      have heq : ((List.range g.count).map ((fun m : IndividualMeter => (m.id.gid, m.id.idx)) ∘ fun i => ({ id := ⟨g.id, i, none⟩, type := g.type, typeName := g.typeName, count := g.count, capacity := g.capacity, demandFactor := g.demandFactor, coincidenceFactor := g.coincidenceFactor, cdlPerMeter := g.cdlPerMeter, totalCDL := g.totalCDL, category := g.category, timePattern := g.timePattern, cdl := g.cdlPerMeter, note := none } : IndividualMeter))) = (List.range g.count).map fun i => (g.id, i) :=
        List.map_congr_left (fun i _ => rfl)
      rw [heq]
      refine (List.nodup_range _).map ?_
      intro a b hab
      injection hab with h1 h2
    · intro x hx hy
      rw [List.mem_map] at hx
      obtain ⟨m, hm, hEq⟩ := hx
      rw [List.mem_map] at hy
      obtain ⟨m2, hm2, hEq2⟩ := hy
      rw [List.mem_flatMap] at hm2
      obtain ⟨g2, hg2, hmg2⟩ := hm2
      apply hN.1
      rw [List.mem_map]
      refine ⟨g2, hg2, ?_⟩
      have h1 : m.id.gid = g.id := (expandGroup_mem hm).2.2.2.1
      have h2 : m2.id.gid = g2.id := (expandGroup_mem hmg2).2.2.2.1
      have h3 : m2.id.gid = m.id.gid := by
        rw [← hEq] at hEq2
        exact congrArg Prod.fst hEq2
      rw [← h2, h3, h1]

/-- A placed form keeps its meter's (group, index) base. -/
theorem placedForms_base {m f : IndividualMeter} (h : f ∈ placedForms m) :
    f.id.gid = m.id.gid ∧ f.id.idx = m.id.idx := by
  unfold placedForms at h
  by_cases hd : 400 ≤ m.capacity ∧ m.capacity ≤ 800
  · rw [if_pos hd] at h
    rcases List.mem_cons.mp h with h1 | h1
    · subst h1
      exact ⟨rfl, rfl⟩
    · rw [List.mem_singleton] at h1
      subst h1
      exact ⟨rfl, rfl⟩
  · rw [if_neg hd] at h
    rw [List.mem_singleton] at h
    subst h
    exact ⟨rfl, rfl⟩

/-- With distinct bases, the placed forms carry distinct full ids. -/
theorem placedForms_ids_nodup : ∀ (l : List IndividualMeter),
    ((l.map fun m => (m.id.gid, m.id.idx)).Nodup) →
    (((l.flatMap placedForms).map (·.id)).Nodup) := by
  intro l
  induction l with
  | nil =>
    intro _
    exact List.nodup_nil
  | cons m l ih =>
    intro hN
    rw [List.map_cons, List.nodup_cons] at hN
    rw [List.flatMap_cons, List.map_append, List.nodup_append]
    refine ⟨?_, ih hN.2, ?_⟩
    · unfold placedForms
      by_cases hd : 400 ≤ m.capacity ∧ m.capacity ≤ 800
      · rw [if_pos hd]
        simp only [List.map_cons, List.map_nil]
        refine List.nodup_cons.mpr ⟨?_, List.nodup_singleton _⟩
        rw [List.mem_singleton]
        intro heq
        have hpart : (some SplitPart.p1 : Option SplitPart) = some SplitPart.p2 :=
          congrArg MeterId.part heq
        injection hpart with hpart2
        cases hpart2
      · rw [if_neg hd]
        exact List.nodup_singleton _
    · intro x hx hy
      obtain ⟨f, hf, hfx⟩ := List.mem_map.mp hx
      obtain ⟨f2, hf2, hf2x⟩ := List.mem_map.mp hy
      obtain ⟨m2, hm2, hfm2⟩ := List.mem_flatMap.mp hf2
      have hb1 := placedForms_base hf
      have hb2 := placedForms_base hfm2
      apply hN.1
      rw [List.mem_map]
      refine ⟨m2, hm2, ?_⟩
      have hff : f2.id = f.id := by
        rw [hfx, hf2x]
      rw [← hb2.1, ← hb2.2, hff, hb1.1, hb1.2]

/-- With distinct group ids, the expected placed meters of a successful
run carry distinct ids. -/
theorem expectedMeters_ids_nodup {gs : List MeterGroup}
    (h : ((gs.map (·.id)).Nodup)) :
    (((expectedMeters gs).map (·.id)).Nodup) := by
  have hbase := expand_base_nodup gs h
  have hDsub : (((gs.flatMap expandGroup).filter fun m => decide (1600 ≤ m.capacity)).map fun m => (m.id.gid, m.id.idx)).Nodup :=
    ((List.filter_sublist _).map _).nodup hbase
  have hGsub : (((gs.flatMap expandGroup).filter fun m => decide (m.capacity < 1600)).map fun m => (m.id.gid, m.id.idx)).Nodup :=
    ((List.filter_sublist _).map _).nodup hbase
  have hSsub : ((((gs.flatMap expandGroup).filter fun m => decide (m.capacity < 1600)).mergeSort placeOrder).map fun m => (m.id.gid, m.id.idx)).Nodup :=
    ((List.mergeSort_perm _ placeOrder).map _).nodup_iff.mpr hGsub
  have hDids : (((gs.flatMap expandGroup).filter fun m => decide (1600 ≤ m.capacity)).map (·.id)).Nodup := by
    refine List.Nodup.of_map (fun i : MeterId => (i.gid, i.idx)) ?_
    have heq : ((((gs.flatMap expandGroup).filter fun m => decide (1600 ≤ m.capacity)).map (·.id)).map fun i : MeterId => (i.gid, i.idx)) = (((gs.flatMap expandGroup).filter fun m => decide (1600 ≤ m.capacity)).map fun m => (m.id.gid, m.id.idx)) := by
      rw [List.map_map]
      exact List.map_congr_left (fun m _ => rfl)
    rw [heq]
    exact hDsub
  have hForms := placedForms_ids_nodup _ hSsub
  show ((((gs.flatMap expandGroup).filter fun m => decide (1600 ≤ m.capacity)) ++ (((gs.flatMap expandGroup).filter fun m => decide (m.capacity < 1600)).mergeSort placeOrder).flatMap placedForms).map (·.id)).Nodup
  rw [List.map_append, List.nodup_append]
  refine ⟨hDids, hForms, ?_⟩
  intro x hx hy
  obtain ⟨d, hd, hdx⟩ := List.mem_map.mp hx
  obtain ⟨f, hf, hfx⟩ := List.mem_map.mp hy
  obtain ⟨m2, hm2S, hfm2⟩ := List.mem_flatMap.mp hf
  have hbase_f := placedForms_base hfm2
  have hm2G : m2 ∈ (gs.flatMap expandGroup).filter fun m => decide (m.capacity < 1600) :=
    List.mem_mergeSort.mp hm2S
  have hdIM : d ∈ gs.flatMap expandGroup := List.mem_of_mem_filter hd
  have hm2IM : m2 ∈ gs.flatMap expandGroup := List.mem_of_mem_filter hm2G
  have hkey : (fun m : IndividualMeter => (m.id.gid, m.id.idx)) d =
      (fun m : IndividualMeter => (m.id.gid, m.id.idx)) m2 := by
    have hdf : d.id = f.id := by
      rw [hdx, hfx]
    show (d.id.gid, d.id.idx) = (m2.id.gid, m2.id.idx)
    rw [hdf, hbase_f.1, hbase_f.2]
  have hdm2 : d = m2 := List.inj_on_of_nodup_map hbase hdIM hm2IM hkey
  have h1 := of_decide_eq_true (List.mem_filter.mp hd).2
  have h2 := of_decide_eq_true (List.mem_filter.mp hm2G).2
  rw [hdm2] at h1
  linarith

/-- A successful run of the whole algorithm carries exactly the expected
meters, satisfies every invariant, reports the groups' total load, and
keeps assigned loads accurate. -/
theorem run_spec {gs : List MeterGroup} {res : DistributionResults}
    (hnodup : ((gs.map (·.id)).Nodup)) (hcdl : ∀ g ∈ gs, 0 ≤ g.cdlPerMeter)
    (hres : performBalancedDistributionMultiTransformer gs = some res) :
    (allMeters res.transformers).Perm (expectedMeters gs) ∧
    FlagInv res.transformers ∧ CapInv res.transformers ∧ IdsInv res.transformers ∧
    res.totalLoad = (gs.map (·.totalCDL)).sum ∧
    sumAssigned res.transformers = metersLoad (allMeters res.transformers) := by
  unfold performBalancedDistributionMultiTransformer at hres
  dsimp only at hres
  obtain ⟨st3, hfold, hcomp⟩ := Option.map_eq_some'.mp hres
  have hcomp2 : ({ totalLoad := (gs.map (·.totalCDL)).sum, transformers := finishStages st3.1 } : DistributionResults) = res := hcomp
  subst hcomp2
  have hdedmem : ∀ m ∈ ((gs.flatMap expandGroup).filter fun m => decide (1600 ≤ m.capacity)), m.note = none ∧ 0 ≤ m.cdl := by
    intro m hm
    obtain ⟨g, hg, h1, h2, _⟩ := mem_expand (List.mem_of_mem_filter hm)
    refine ⟨h1, ?_⟩
    rw [h2]
    exact hcdl g hg
  obtain ⟨dA, dF, dC, dI, dB, dLe⟩ := dedFold_spec
    ((gs.flatMap expandGroup).filter fun m => decide (1600 ≤ m.capacity)) ([], 1)
    (fun m hm => (hdedmem m hm).1) (fun m hm => (hdedmem m hm).2)
    (fun t ht => absurd ht (List.not_mem_nil t))
    (fun t ht => absurd ht (List.not_mem_nil t))
    ⟨List.nodup_nil, fun t ht => absurd ht (List.not_mem_nil t)⟩
    (fun t ht => absurd ht (List.not_mem_nil t))
  obtain ⟨pA, pF, pC, pI, pB, pLe⟩ := planFold_spec _ _ dF dC dI dB
  have hgenpos : ∀ m ∈ (((gs.flatMap expandGroup).filter fun m => decide (m.capacity < 1600)).mergeSort placeOrder), 0 ≤ m.cdl := by
    intro m hm
    obtain ⟨g, hg, _, h2, _⟩ := mem_expand (List.mem_of_mem_filter (List.mem_mergeSort.mp hm))
    rw [h2]
    exact hcdl g hg
  obtain ⟨fA, fF, fC, fI⟩ := placeFold_spec hgenpos hfold
  have hF3 : FlagInv st3.1 := fF pF
  have hC3 : CapInv st3.1 := fC pC
  obtain ⟨hI3, hB3, _⟩ := fI pI pB
  have hperm3 : (allMeters st3.1).Perm (expectedMeters gs) := by
    refine fA.trans ?_
    rw [pA, dA]
    exact List.Perm.refl _
  have hN3 : meterIdsNodup st3.1 := by
    unfold meterIdsNodup
    exact (hperm3.map (·.id)).nodup_iff.mpr (expectedMeters_ids_nodup hnodup)
  obtain ⟨FA, FF, FC, FI, FS⟩ := finish_spec hF3 hC3 hI3 hN3
  exact ⟨FA.trans hperm3, FF, FC, FI, rfl, FS⟩

/-- Summing a constant over a range. -/
theorem sum_const_range (n : ℕ) (c : ℚ) :
    (((List.range n).map fun _ => c).sum) = (n : ℚ) * c := by
  induction n with
  | zero => simp
  | succ n ih =>
    rw [List.range_succ, List.map_append, List.sum_append, ih]
    simp only [List.map_cons, List.map_nil, List.sum_cons, List.sum_nil]
    push_cast
    ring

/-- The expanded meters of one group all carry the group's
`cdlPerMeter`. -/
theorem map_cdl_expandGroup (g : MeterGroup) :
    (expandGroup g).map (·.cdl) = (List.range g.count).map fun _ => g.cdlPerMeter := by
  unfold expandGroup
  rw [List.map_map]
  exact List.map_congr_left (fun i _ => rfl)

/-- One group expands to `count × cdlPerMeter` amperes. -/
theorem metersLoad_expandGroup (g : MeterGroup) :
    metersLoad (expandGroup g) = (g.count : ℚ) * g.cdlPerMeter := by
  unfold metersLoad
  rw [map_cdl_expandGroup]
  exact sum_const_range g.count g.cdlPerMeter

/-- The whole expansion carries `Σ count × cdlPerMeter` amperes. -/
theorem metersLoad_flatMap_expand (gs : List MeterGroup) :
    metersLoad (gs.flatMap expandGroup) =
      ((gs.map fun g => (g.count : ℚ) * g.cdlPerMeter).sum) := by
  induction gs with
  | nil => rfl
  | cons g gs ih =>
    rw [List.flatMap_cons, metersLoad_append, metersLoad_expandGroup, ih,
      List.map_cons, List.sum_cons]

/-- The dedicated/general capacity partition conserves the load. -/
theorem metersLoad_capacity_split (l : List IndividualMeter) :
    metersLoad (l.filter fun m => decide (1600 ≤ m.capacity)) +
      metersLoad (l.filter fun m => decide (m.capacity < 1600)) = metersLoad l := by
  induction l with
  | nil =>
    show metersLoad [] + metersLoad [] = metersLoad []
    norm_num [metersLoad]
  | cons m l ih =>
    rw [List.filter_cons, List.filter_cons]
    by_cases h : 1600 ≤ m.capacity
    · have h2 : ¬ (decide (m.capacity < 1600) = true) := fun hcon =>
        absurd (of_decide_eq_true hcon) (not_lt.mpr h)
      rw [if_pos (decide_eq_true h), if_neg h2]
      show metersLoad (m :: _) + metersLoad _ = metersLoad (m :: l)
      unfold metersLoad at ih ⊢
      rw [List.map_cons, List.sum_cons, List.map_cons, List.sum_cons]
      linarith
    · have h1 : ¬ (decide (1600 ≤ m.capacity) = true) := fun hcon =>
        absurd (of_decide_eq_true hcon) h
      rw [if_neg h1, if_pos (decide_eq_true (not_le.mp h))]
      show metersLoad _ + metersLoad (m :: _) = metersLoad (m :: l)
      unfold metersLoad at ih ⊢
      rw [List.map_cons, List.sum_cons, List.map_cons, List.sum_cons]
      linarith

/-- The placed forms of a meter carry exactly its cdl. -/
theorem metersLoad_placedForms (m : IndividualMeter) :
    metersLoad (placedForms m) = m.cdl := by
  unfold placedForms
  by_cases hd : 400 ≤ m.capacity ∧ m.capacity ≤ 800
  · rw [if_pos hd]
    unfold metersLoad
    simp only [List.map_cons, List.map_nil, List.sum_cons, List.sum_nil]
    rw [splitHalf_cdl, splitHalf_cdl]
    ring
  · rw [if_neg hd]
    unfold metersLoad
    simp only [List.map_cons, List.map_nil, List.sum_cons, List.sum_nil]
    ring

/-- Splitting into placed forms conserves the load. -/
theorem metersLoad_flatMap_forms (l : List IndividualMeter) :
    metersLoad (l.flatMap placedForms) = metersLoad l := by
  induction l with
  | nil => rfl
  | cons m l ih =>
    rw [List.flatMap_cons, metersLoad_append, metersLoad_placedForms, ih]
    unfold metersLoad
    rw [List.map_cons, List.sum_cons]

/-- C1 (amended): for well-formed inputs (distinct group ids, nonnegative
per-meter loads) whose groups satisfy `totalCDL = count × cdlPerMeter`
— i.e. a coincidence factor of 1 — every successful run conserves the
load: the expanded meters sum to `Σ totalCDL`, and the returned plan's
`assignedLoad` fields sum to the same value.  (Without that restriction
the engine conserves `Σ count × cdlPerMeter`, not `Σ totalCDL`: the
expansion assigns every meter the full `cdlPerMeter` and never applies
the coincidence factor.) -/
theorem c1_conservation {gs : List MeterGroup}
    (hnodup : ((gs.map (·.id)).Nodup)) (hcdl : ∀ g ∈ gs, 0 ≤ g.cdlPerMeter)
    (htot : ∀ g ∈ gs, g.totalCDL = (g.count : ℚ) * g.cdlPerMeter)
    (hsome : (performBalancedDistributionMultiTransformer gs).isSome = true) :
    metersLoad (gs.flatMap expandGroup) = ((gs.map (·.totalCDL)).sum) ∧
    sumAssigned (runTransformers gs) = ((gs.map (·.totalCDL)).sum) := by
  have hsum1 : metersLoad (gs.flatMap expandGroup) = ((gs.map (·.totalCDL)).sum) := by
    rw [metersLoad_flatMap_expand]
    exact congrArg List.sum (List.map_congr_left fun g hg => (htot g hg).symm)
  refine ⟨hsum1, ?_⟩
  cases hr : performBalancedDistributionMultiTransformer gs with
  | none =>
    rw [hr] at hsome
    have h2 : false = true := hsome
    cases h2
  | some res =>
    obtain ⟨hperm, _, _, _, _, hacc⟩ := run_spec hnodup hcdl hr
    have hrt : runTransformers gs = res.transformers := by
      unfold runTransformers
      rw [hr]
      rfl
    rw [hrt, hacc, metersLoad_perm hperm, ← hsum1]
    show metersLoad (((gs.flatMap expandGroup).filter fun m => decide (1600 ≤ m.capacity)) ++ (((gs.flatMap expandGroup).filter fun m => decide (m.capacity < 1600)).mergeSort placeOrder).flatMap placedForms) = metersLoad (gs.flatMap expandGroup)
    rw [metersLoad_append, metersLoad_flatMap_forms,
      metersLoad_perm (List.mergeSort_perm _ placeOrder), metersLoad_capacity_split]

/-- C1 witness run: a single ordinary group with coincidence factor 1. -/
theorem c1_witness :
    ((witRun.map (·.id)).Nodup) ∧ (∀ g ∈ witRun, 0 ≤ g.cdlPerMeter) ∧
    (∀ g ∈ witRun, g.totalCDL = (g.count : ℚ) * g.cdlPerMeter) ∧
    (performBalancedDistributionMultiTransformer witRun).isSome = true ∧
    (metersLoad (witRun.flatMap expandGroup) = ((witRun.map (·.totalCDL)).sum) ∧
      sumAssigned (runTransformers witRun) = ((witRun.map (·.totalCDL)).sum)) := by
  have h1 : ((witRun.map (·.id)).Nodup) := by
    with_unfolding_all decide
  have h2 : ∀ g ∈ witRun, 0 ≤ g.cdlPerMeter := by
    with_unfolding_all decide
  have h3 : ∀ g ∈ witRun, g.totalCDL = (g.count : ℚ) * g.cdlPerMeter := by
    with_unfolding_all decide
  have h4 : (performBalancedDistributionMultiTransformer witRun).isSome = true := by
    with_unfolding_all rfl
  exact ⟨h1, h2, h3, h4, c1_conservation h1 h2 h3 h4⟩

set_option maxRecDepth 8000 in
/-- C1 counterexample: the input satisfies the specification's own
input-layer invariant `cdlPerMeter × count × coincidenceFactor =
totalCDL` (30 × 2 × ½ = 30), yet the expansion carries 60 A ≠ 30 A =
`Σ totalCDL`, and the returned plan's assigned loads sum to those 60 A:
the claimed equality with `Σ totalCDL` fails whenever a coincidence
factor is not 1. -/
theorem c1_counterexample :
    (∀ g ∈ cx1, g.cdlPerMeter * (g.count : ℚ) * g.coincidenceFactor = g.totalCDL) ∧
    ((cx1.map (·.totalCDL)).sum) = 30 ∧
    metersLoad (cx1.flatMap expandGroup) = 60 ∧
    ((performBalancedDistributionMultiTransformer cx1).map fun r =>
      sumAssigned r.transformers) = some 60 := by
  refine ⟨?_, ?_, ?_, ?_⟩
  · with_unfolding_all decide
  · with_unfolding_all rfl
  · with_unfolding_all rfl
  · with_unfolding_all rfl

/-- C3 (amended): the engine never marks the breakers carrying the two
halves of a split meter as dedicated: on every run with distinct group
ids and nonnegative loads, any breaker holding a split-noted meter is a
non-dedicated breaker (dedicated breakers hold exactly one note-free
meter of a ≥1600 A group), so the claimed dedication of split-pair
breakers does not occur. -/
theorem c3_split_breakers_not_dedicated {gs : List MeterGroup}
    (hnodup : ((gs.map (·.id)).Nodup)) (hcdl : ∀ g ∈ gs, 0 ≤ g.cdlPerMeter) :
    ∀ t ∈ runTransformers gs, ∀ b ∈ t.breakers, ∀ m ∈ b.meters,
      m.note ≠ none → b.dedicated = false := by
  intro t ht b hb m hm hnote
  cases hr : performBalancedDistributionMultiTransformer gs with
  | none =>
    unfold runTransformers at ht
    rw [hr] at ht
    have ht2 : t ∈ ([] : List Transformer) := ht
    cases ht2
  | some res =>
    obtain ⟨_, hF, _, _, _, _⟩ := run_spec hnodup hcdl hr
    have hrt : runTransformers gs = res.transformers := by
      unfold runTransformers
      rw [hr]
      rfl
    rw [hrt] at ht
    obtain ⟨hmirror, hded⟩ := hF t ht b hb
    cases hd : b.dedicated with
    | false => rfl
    | true =>
      obtain ⟨m0, hm0, hn0⟩ := hded hd
      rw [hm0] at hm
      rw [List.mem_singleton] at hm
      subst hm
      exact absurd hn0 hnote

/-- C3 witness: the property instantiated on the split-meter run. -/
theorem c3_witness :
    ((cx3.map (·.id)).Nodup) ∧ (∀ g ∈ cx3, 0 ≤ g.cdlPerMeter) ∧
    ∀ t ∈ runTransformers cx3, ∀ b ∈ t.breakers, ∀ m ∈ b.meters,
      m.note ≠ none → b.dedicated = false := by
  have h1 : ((cx3.map (·.id)).Nodup) := by
    with_unfolding_all decide
  have h2 : ∀ g ∈ cx3, 0 ≤ g.cdlPerMeter := by
    with_unfolding_all decide
  exact ⟨h1, h2, c3_split_breakers_not_dedicated h1 h2⟩

set_option maxRecDepth 8000 in
/-- C3 counterexample: on the engine's own plan for one split-range meter
(capacity 500 A), the two half-carrying breakers — holding the `p1` and
`p2` noted halves — have `dedicated = false`, and so does their
transformer: nothing is "marked dedicated to that split meter". -/
theorem c3_counterexample :
    ((performBalancedDistributionMultiTransformer cx3).map fun r =>
      r.transformers.map fun t => (t.isDedicated, t.breakers.map fun b =>
        (b.dedicated, b.meters.map (·.note)))) =
    some [(false, [(false, [some SplitPart.p1]), (false, [some SplitPart.p2]),
      (false, []), (false, [])])] := by
  with_unfolding_all rfl

/-- C4 (amended): in the final plan of every run on well-formed input
(distinct group ids, nonnegative loads), every non-dedicated breaker's
stored load equals the sum of its meters' cdls and is at most
`MAX_BREAKER_CAPACITY` (310 A) — the full breaker rating, not the ≈248 A
safe ceiling the claim states — with no sole-occupant exception needed:
a general meter that fits nowhere crashes the run instead of being
placed. -/
theorem c4_breaker_capacity {gs : List MeterGroup}
    (hnodup : ((gs.map (·.id)).Nodup)) (hcdl : ∀ g ∈ gs, 0 ≤ g.cdlPerMeter) :
    ∀ t ∈ runTransformers gs, ∀ b ∈ t.breakers, b.dedicated = false →
      b.load = metersLoad b.meters ∧ b.load ≤ MAX_BREAKER_CAPACITY := by
  intro t ht b hb hded
  cases hr : performBalancedDistributionMultiTransformer gs with
  | none =>
    unfold runTransformers at ht
    rw [hr] at ht
    have ht2 : t ∈ ([] : List Transformer) := ht
    cases ht2
  | some res =>
    obtain ⟨_, _, hC, _, _, _⟩ := run_spec hnodup hcdl hr
    have hrt : runTransformers gs = res.transformers := by
      unfold runTransformers
      rw [hr]
      rfl
    rw [hrt] at ht
    obtain ⟨hacc, hbound⟩ := (hC t ht b hb).2 hded
    refine ⟨hacc, ?_⟩
    rw [hacc]
    exact hbound

/-- C4 witness: the amended bound instantiated on the consolidation
run. -/
theorem c4_witness :
    ((cx4.map (·.id)).Nodup) ∧ (∀ g ∈ cx4, 0 ≤ g.cdlPerMeter) ∧
    ∀ t ∈ runTransformers cx4, ∀ b ∈ t.breakers, b.dedicated = false →
      b.load = metersLoad b.meters ∧ b.load ≤ MAX_BREAKER_CAPACITY := by
  have h1 : ((cx4.map (·.id)).Nodup) := by
    with_unfolding_all decide
  have h2 : ∀ g ∈ cx4, 0 ≤ g.cdlPerMeter := by
    with_unfolding_all decide
  exact ⟨h1, h2, c4_breaker_capacity h1 h2⟩

set_option maxRecDepth 8000 in
/-- C4 counterexample: on the engine's own plan for two 150 A meters, the
consolidation pass stacks both onto one non-dedicated breaker: its load
is 300 A, above the ≈248 A safe ceiling, while each contributing meter
(150 A) is individually below that ceiling — so the claimed sole-occupant
exception does not apply and the stated bound is violated. -/
theorem c4_counterexample :
    MAX_BREAKER_SAFE_CAPACITY < 300 ∧ (150 : ℚ) ≤ MAX_BREAKER_SAFE_CAPACITY ∧
    ((performBalancedDistributionMultiTransformer cx4).map fun r =>
      r.transformers.map fun t => t.breakers.map fun b =>
        (b.dedicated, b.load, b.meters.map (·.cdl))) =
    some [[(false, 0, []), (false, 300, [150, 150]), (false, 0, []), (false, 0, [])]] := by
  refine ⟨?_, ?_, ?_⟩
  · norm_num [MAX_BREAKER_SAFE_CAPACITY, MAX_BREAKER_CAPACITY]
  · norm_num [MAX_BREAKER_SAFE_CAPACITY, MAX_BREAKER_CAPACITY]
  · with_unfolding_all rfl

/-- Meter-list edits inside a transformer keep the flag mirror. -/
theorem transMirror_modifyMeters {t : Transformer} {f : Breaker → Breaker} {bi : ℕ}
    (hpres : ∀ b, (f b).dedicated = b.dedicated) (h : TransMirror t) :
    ∀ b ∈ List.modify f bi t.breakers, b.dedicated = t.isDedicated := by
  intro b hb
  rcases mem_modify b hb with hc | ⟨b0, hb0, hEq⟩
  · exact h b hc
  · subst hEq
    rw [hpres b0]
    exact h b0 hb0

/-- Replacing a meter list keeps the flag mirror. -/
theorem transMirror_setBreakerMeters {t : Transformer} {bi : ℕ}
    {ms : List IndividualMeter} (h : TransMirror t) :
    TransMirror (setBreakerMeters t bi ms) :=
  transMirror_modifyMeters (fun b => rfl) h

/-- A stat refresh keeps the flag mirror. -/
theorem transMirror_updateBreakerAt {t : Transformer} {bi : ℕ} (h : TransMirror t) :
    TransMirror (updateBreakerAt t bi) :=
  transMirror_modifyMeters updateBreakerStats_dedicated h

/-- An in-place modification by a mirror-keeping function keeps the
mirror invariant. -/
theorem mirror_modify {ts : List Transformer} {f : Transformer → Transformer} {i : ℕ}
    (hf : ∀ t, TransMirror t → TransMirror (f t)) (h : MirrorInv ts) :
    MirrorInv (List.modify f i ts) := by
  intro t' ht'
  rcases mem_modify t' ht' with hc | ⟨t0, ht0, hEq⟩
  · exact h t' hc
  · subst hEq
    exact hf t0 (h t0 ht0)

/-- A push keeps the mirror invariant. -/
theorem mirror_push {ts : List Transformer} {ti bi : ℕ} {m : IndividualMeter}
    (h : MirrorInv ts) : MirrorInv (pushMeterAt ts ti bi m) :=
  mirror_modify (fun t0 ht0 => transMirror_modifyMeters (fun b => rfl) ht0) h

/-- A pair push keeps the mirror invariant. -/
theorem mirror_pushPair {ts : List Transformer} {r : ℕ × ℕ × ℕ × ℚ}
    {m : IndividualMeter} (h : MirrorInv ts) : MirrorInv (pushPair ts r m) :=
  mirror_push (mirror_push h)

/-- A stat refresh keeps the mirror invariant. -/
theorem mirror_updateAllStats {ts : List Transformer} (h : MirrorInv ts) :
    MirrorInv (updateAllStats ts) := by
  intro t' ht'
  obtain ⟨t, ht, hEq⟩ := updateAllStats_mem ht'
  subst hEq
  intro b' hb'
  have hb'2 : b' ∈ t.breakers.map updateBreakerStats := hb'
  rw [List.mem_map] at hb'2
  obtain ⟨b, hb, hEq2⟩ := hb'2
  subst hEq2
  rw [updateBreakerStats_dedicated]
  exact h t ht b hb

/-- A fresh transformer has mirrored (all false) flags. -/
theorem transMirror_new (ty : TransformerType) (c : ℕ) :
    TransMirror (createNewTransformer ty c) := by
  intro b hb
  have hb2 : b ∈ (List.range ty.breakers).map fun i =>
      ({ id := i + 1, number := i + 1, load := 0, meters := [], utilizationPercent := 0,
         meterTypes := ∅, categories := ∅, timePatterns := ∅, dedicated := false } : Breaker) := hb
  rw [List.mem_map] at hb2
  obtain ⟨i, _, hEq⟩ := hb2
  subst hEq
  rfl

/-- A dedicated transformer has mirrored (all true) flags. -/
theorem transMirror_ded (m : IndividualMeter) (c : ℕ) :
    TransMirror (mkDedicatedTransformer m c) := by
  intro b hb
  have hb2 : b ∈ [({ id := 1, number := 1, load := 0, meters := [m], utilizationPercent := 0, meterTypes := ∅, categories := ∅, timePatterns := ∅, dedicated := true } : Breaker)] := hb
  rw [List.mem_singleton] at hb2
  subst hb2
  rfl

/-- Appending a mirrored transformer keeps the mirror invariant. -/
theorem mirror_append {ts : List Transformer} {t0 : Transformer}
    (h : MirrorInv ts) (h0 : TransMirror t0) : MirrorInv (ts ++ [t0]) := by
  intro t ht
  rcases List.mem_append.mp ht with ha | ha
  · exact h t ha
  · rw [List.mem_singleton] at ha
    subst ha
    exact h0

/-- The dedicated-transformer fold keeps the mirror invariant. -/
theorem dedFold_mirror : ∀ (ms : List IndividualMeter) (st : List Transformer × ℕ),
    MirrorInv st.1 →
    MirrorInv (ms.foldl (fun st m => (st.1 ++ [mkDedicatedTransformer m st.2], st.2 + 1)) st).1 := by
  intro ms
  induction ms with
  | nil =>
    intro st h
    exact h
  | cons m ms ih =>
    intro st h
    rw [List.foldl_cons]
    exact ih _ (mirror_append h (transMirror_ded m st.2))

/-- The planned-type fold keeps the mirror invariant. -/
theorem planFold_mirror : ∀ (tys : List TransformerType) (st : List Transformer × ℕ),
    MirrorInv st.1 →
    MirrorInv (tys.foldl (fun st ty => (st.1 ++ [createNewTransformer ty st.2], st.2 + 1)) st).1 := by
  intro tys
  induction tys with
  | nil =>
    intro st h
    exact h
  | cons ty tys ih =>
    intro st h
    rw [List.foldl_cons]
    exact ih _ (mirror_append h (transMirror_new ty st.2))

/-- The fallback transformer keeps the mirror invariant. -/
theorem mirror_fb {meter : IndividualMeter} {ts : List Transformer} {c : ℕ}
    (h : MirrorInv ts) : MirrorInv (addBestFitTransformerForMeter meter ts c).1 :=
  mirror_append h (transMirror_new _ c)

/-- One placement iteration keeps the mirror invariant. -/
theorem placeOneMeter_mirror {meter : IndividualMeter} {st st2 : List Transformer × ℕ}
    (h : placeOneMeter meter st = some st2) (hM : MirrorInv st.1) : MirrorInv st2.1 := by
  unfold placeOneMeter at h
  dsimp only at h
  by_cases hdual : 400 ≤ meter.capacity ∧ meter.capacity ≤ 800
  case pos =>
    rw [if_pos hdual, if_pos hdual] at h
    cases hs : findBestBreakerPairForEvenDistribution meter st.1 with
    | some r =>
      rw [hs] at h
      have h2 : some (updateAllStats (pushPair st.1 r meter), st.2) = some st2 := h
      injection h2 with h2
      subst h2
      exact mirror_updateAllStats (mirror_pushPair hM)
    | none =>
      rw [hs] at h
      cases hs2 : findBestBreakerPairForEvenDistribution meter (addBestFitTransformerForMeter meter st.1 st.2).1 with
      | some r =>
        rw [hs2] at h
        have h4 : some (updateAllStats (pushPair (addBestFitTransformerForMeter meter st.1 st.2).1 r meter), (addBestFitTransformerForMeter meter st.1 st.2).2) = some st2 := h
        injection h4 with h4
        subst h4
        exact mirror_updateAllStats (mirror_pushPair (mirror_fb hM))
      | none =>
        rw [hs2] at h
        exact Option.noConfusion (show (none : Option (List Transformer × ℕ)) = some st2 from h)
  case neg =>
    rw [if_neg hdual, if_neg hdual] at h
    cases hs : findBestBreakerForEvenDistribution meter st.1 with
    | some e =>
      rw [hs] at h
      have h2 : some (updateAllStats (pushMeterAt st.1 e.1 e.2.1 meter), st.2) = some st2 := h
      injection h2 with h2
      subst h2
      exact mirror_updateAllStats (mirror_push hM)
    | none =>
      rw [hs] at h
      cases hs2 : findBestBreakerForEvenDistribution meter (addBestFitTransformerForMeter meter st.1 st.2).1 with
      | some e =>
        rw [hs2] at h
        have h4 : some (updateAllStats (pushMeterAt (addBestFitTransformerForMeter meter st.1 st.2).1 e.1 e.2.1 meter), (addBestFitTransformerForMeter meter st.1 st.2).2) = some st2 := h
        injection h4 with h4
        subst h4
        exact mirror_updateAllStats (mirror_push (mirror_fb hM))
      | none =>
        rw [hs2] at h
        exact Option.noConfusion (show (none : Option (List Transformer × ℕ)) = some st2 from h)

/-- The placement fold keeps the mirror invariant. -/
theorem placeFold_mirror : ∀ {ms : List IndividualMeter} {st st2 : List Transformer × ℕ},
    ms.foldlM (fun st m => placeOneMeter m st) st = some st2 →
    MirrorInv st.1 → MirrorInv st2.1 := by
  intro ms
  induction ms with
  | nil =>
    intro st st2 h hM
    rw [List.foldlM_nil] at h
    have h2 : some st = some st2 := h
    injection h2 with h2
    subst h2
    exact hM
  | cons m ms ih =>
    intro st st2 h hM
    rw [List.foldlM_cons] at h
    cases hp : placeOneMeter m st with
    | none =>
      rw [hp] at h
      exact Option.noConfusion (show (none : Option (List Transformer × ℕ)) = some st2 from h)
    | some st1' =>
      rw [hp] at h
      have h2 : ms.foldlM (fun st m => placeOneMeter m st) st1' = some st2 := h
      exact ih h2 (placeOneMeter_mirror hp hM)

/-- Every rebalancing round keeps the flag mirror. -/
theorem balanceRounds_mirror : ∀ (n : ℕ) (t : Transformer),
    TransMirror t → TransMirror (balanceRounds n t) := by
  intro n
  induction n with
  | zero =>
    intro t h
    exact h
  | succ n ih =>
    intro t h
    unfold balanceRounds
    dsimp only
    rcases hS : (t.breakers.enum.filter fun s =>
        decide (0 < s.2.meters.length) && !s.2.dedicated).mergeSort
        (fun a b => decide (a.2.load ≤ b.2.load)) with _ | ⟨s0, _ | ⟨s1, rest⟩⟩
    · rw [hS]
      exact h
    · rw [hS]
      exact h
    · rw [hS]
      dsimp only
      generalize (s1 :: rest).getLast (List.cons_ne_nil s1 rest) = M
      by_cases h20 : M.2.load - s0.2.load < 20
      · rw [if_pos h20]
        exact h
      · rw [if_neg h20]
        cases hfind : (M.2.meters.mergeSort fun a b => decide (a.cdl ≤ b.cdl)).find? fun m =>
            decide (s0.2.load + m.cdl ≤ MAX_BREAKER_CAPACITY) with
        | none => exact transMirror_setBreakerMeters h
        | some mv =>
          exact ih _ (transMirror_updateBreakerAt (transMirror_updateBreakerAt
            (transMirror_setBreakerMeters (transMirror_setBreakerMeters
              (transMirror_setBreakerMeters h)))))

/-- The internal rebalancer keeps the flag mirror. -/
theorem balanceTransformerInternally_mirror {t : Transformer} (h : TransMirror t) :
    TransMirror (balanceTransformerInternally t) := by
  unfold balanceTransformerInternally
  by_cases hd : t.isDedicated
  · rw [if_pos hd]
    exact h
  · rw [if_neg hd]
    exact balanceRounds_mirror 5 t h

/-- Mapping the rebalancer keeps the mirror invariant. -/
theorem mirror_map_balance {ts : List Transformer} (h : MirrorInv ts) :
    MirrorInv (ts.map balanceTransformerInternally) := by
  intro t' ht'
  rw [List.mem_map] at ht'
  obtain ⟨t, ht, hEq⟩ := ht'
  subst hEq
  exact balanceTransformerInternally_mirror (h t ht)

/-- One consolidation move keeps the mirror invariant. -/
theorem mirror_applyConsolidation {ts : List Transformer} {src : SingleSrc}
    {tgt : ℕ × ℕ × ℚ} (h : MirrorInv ts) : MirrorInv (applyConsolidation ts src tgt) :=
  mirror_updateAllStats (mirror_modify
    (fun t0 ht0 => transMirror_setBreakerMeters ht0) (mirror_push h))

/-- The source pass keeps the mirror invariant. -/
theorem trySources_mirror : ∀ (srcs : List SingleSrc) {ts ts2 : List Transformer},
    trySources srcs ts = some ts2 → MirrorInv ts → MirrorInv ts2 := by
  intro srcs
  induction srcs with
  | nil =>
    intro ts ts2 h _
    exact Option.noConfusion (show (none : Option (List Transformer)) = some ts2 from h)
  | cons src rest ih =>
    intro ts ts2 h hM
    unfold trySources at h
    cases hfind : findConsolidationTarget src.meter src.parentId src.breakerId ts with
    | some tgt =>
      rw [hfind] at h
      have h2 : some (applyConsolidation ts src tgt) = some ts2 := h
      injection h2 with h2
      subst h2
      exact mirror_applyConsolidation hM
    | none =>
      rw [hfind] at h
      have h2 : trySources rest ts = some ts2 := h
      exact ih h2 hM

/-- The consolidation loop keeps the mirror invariant. -/
theorem consolidateLoop_mirror : ∀ (fuel : ℕ) (ts : List Transformer),
    MirrorInv ts → MirrorInv (consolidateLoop fuel ts) := by
  intro fuel
  induction fuel with
  | zero =>
    intro ts h
    exact h
  | succ fuel ih =>
    intro ts h
    unfold consolidateLoop
    dsimp only
    by_cases hemp : (collectSingles ts).isEmpty = true
    · rw [if_pos hemp]
      exact h
    · rw [if_neg hemp]
      cases htry : trySources ((collectSingles ts).mergeSort fun a b =>
          decide (a.load ≤ b.load)) ts with
      | some ts2 => exact ih ts2 (trySources_mirror _ htry h)
      | none => exact h

/-- The finishing stages keep the mirror invariant. -/
theorem finish_mirror {ts : List Transformer} (h : MirrorInv ts) :
    MirrorInv (finishStages ts) := by
  refine mirror_updateAllStats ?_
  intro t' ht'
  obtain ⟨t, ht, k, hEq⟩ := mem_renumber ht'
  subst hEq
  intro b hb
  have hb2 : b ∈ t.breakers := hb
  have ht2 := List.mem_of_mem_filter ht
  exact consolidateLoop_mirror 20 _ (mirror_updateAllStats (mirror_map_balance h)) t ht2 b hb2

/-- Every returned plan satisfies the flag mirror. -/
theorem run_mirror (gs : List MeterGroup) : MirrorInv (runTransformers gs) := by
  cases hr : performBalancedDistributionMultiTransformer gs with
  | none =>
    unfold runTransformers
    rw [hr]
    intro t ht
    have ht2 : t ∈ ([] : List Transformer) := ht
    cases ht2
  | some res =>
    have hrt : runTransformers gs = res.transformers := by
      unfold runTransformers
      rw [hr]
      rfl
    rw [hrt]
    unfold performBalancedDistributionMultiTransformer at hr
    dsimp only at hr
    obtain ⟨st3, hfold, hcomp⟩ := Option.map_eq_some'.mp hr
    have hcomp2 : ({ totalLoad := (gs.map (·.totalCDL)).sum, transformers := finishStages st3.1 } : DistributionResults) = res := hcomp
    rw [← hcomp2]
    show MirrorInv (finishStages st3.1)
    refine finish_mirror (placeFold_mirror hfold ?_)
    refine planFold_mirror _ _ (dedFold_mirror _ ([], 1) ?_)
    intro t ht
    have ht2 : t ∈ ([] : List Transformer) := ht
    cases ht2

/-- Under the flag mirror, the source's transformer-level dedication
filter and the claim's breaker-level filter select the same breakers. -/
theorem mirror_breaker_lists : ∀ (ts : List Transformer), MirrorInv ts →
    (((ts.filter fun t => !t.isDedicated).flatMap (·.breakers)).filter
      fun b => decide (0 < b.meters.length)) =
    ((ts.flatMap (·.breakers)).filter fun b =>
      !b.dedicated && decide (0 < b.meters.length)) := by
  intro ts
  induction ts with
  | nil =>
    intro _
    rfl
  | cons t ts ih =>
    intro hM
    have hmt := hM t (List.mem_cons_self _ _)
    have ihr := ih (fun x hx => hM x (List.mem_cons_of_mem _ hx))
    rw [List.flatMap_cons, List.filter_append]
    by_cases hd : t.isDedicated = true
    · have hcond : (!t.isDedicated) = false := by
        rw [hd]
        rfl
      rw [List.filter_cons, hcond]
      simp only [Bool.false_eq_true, if_false]
      rw [ihr]
      have hnil : t.breakers.filter (fun b => !b.dedicated && decide (0 < b.meters.length)) = [] := by
        rw [List.filter_eq_nil_iff]
        intro b hb
        rw [hmt b hb, hd]
        intro hcon
        have hcon2 : false = true := hcon
        cases hcon2
      rw [hnil, List.nil_append]
    · have hcond : (!t.isDedicated) = true := by
        cases hdd : t.isDedicated
        · rfl
        · exact absurd hdd hd
      rw [List.filter_cons, hcond, if_pos rfl, List.flatMap_cons, List.filter_append, ihr]
      congr 1
      refine List.filter_congr ?_
      intro b hb
      rw [hmt b hb]
      cases hdd : t.isDedicated with
      | false => rfl
      | true => exact absurd hdd hd

/-- Under the flag mirror the two balance-score formulations agree. -/
theorem balanceScore_eq_claim {ts : List Transformer} (h : MirrorInv ts) :
    calculateOverallBalanceScore ts = claimBalanceScore ts := by
  unfold calculateOverallBalanceScore claimBalanceScore
  dsimp only
  rw [mirror_breaker_lists ts h]

/-- C8: the reported balance score is exactly the claimed
`clamp(100 − 2·stdDev(utilization over non-dedicated breakers holding at
least one meter), 0, 100)` — 100 when fewer than two such breakers exist
— on every plan the engine can return: the source filters on dedicated
transformers rather than dedicated breakers, but every produced plan
mirrors the two flags, so the same breakers are selected. -/
theorem c8_balance_score (gs : List MeterGroup) :
    calculateOverallBalanceScore (runTransformers gs) =
      claimBalanceScore (runTransformers gs) :=
  balanceScore_eq_claim (run_mirror gs)

/-- The best-fit type search always returns a type whose safe load covers
any cdl up to the largest catalog safe load. -/
theorem bestFit_safeLoad {c : ℚ} (h : c ≤ 8656 / 5) :
    c ≤ ((sortedTypesAsc.find? fun t => decide (c ≤ t.safeLoad)).getD tType1500).safeLoad := by
  cases hf : sortedTypesAsc.find? fun t => decide (c ≤ t.safeLoad) with
  | some ty =>
    have hcond := List.find?_some hf
    exact of_decide_eq_true hcond
  | none =>
    exfalso
    have hmem : tType1500 ∈ sortedTypesAsc := by
      rw [sortedTypesAsc_eq]
      exact List.mem_cons_of_mem _ (List.mem_cons_of_mem _ (List.mem_cons_self _ _))
    exact absurd (decide_eq_true (show c ≤ tType1500.safeLoad from h))
      (List.find?_eq_none.mp hf tType1500 hmem)

/-- Every catalog type (and the fallback) has at least two breakers. -/
theorem bestFit_breakers (c : ℚ) :
    2 ≤ ((sortedTypesAsc.find? fun t => decide (c ≤ t.safeLoad)).getD tType1500).breakers := by
  cases hf : sortedTypesAsc.find? fun t => decide (c ≤ t.safeLoad) with
  | some ty =>
    have hmem : ty ∈ sortedTypesAsc := List.mem_of_find?_eq_some hf
    rw [sortedTypesAsc_eq] at hmem
    rcases List.mem_cons.mp hmem with h1 | hmem2
    · subst h1
      exact (by omega : (2 : ℕ) ≤ 4)
    · rcases List.mem_cons.mp hmem2 with h1 | hmem3
      · subst h1
        exact (by omega : (2 : ℕ) ≤ 8)
      · rw [List.mem_singleton] at hmem3
        subst hmem3
        exact (by omega : (2 : ℕ) ≤ 10)
  | none =>
    exact (by omega : (2 : ℕ) ≤ 10)

/-- A fresh transformer's breaker count is its type's. -/
theorem new_enum_length (ty : TransformerType) (c : ℕ) :
    (createNewTransformer ty c).breakers.enum.length = ty.breakers := by
  rw [List.enum_length]
  show ((List.range ty.breakers).map fun i =>
      ({ id := i + 1, number := i + 1, load := 0, meters := [], utilizationPercent := 0, meterTypes := ∅, categories := ∅, timePatterns := ∅, dedicated := false } : Breaker)).length = ty.breakers
  rw [List.length_map, List.length_range]

/-- On a fresh transformer every breaker slot admits any load within the
breaker ceiling. -/
theorem new_slots_all (ty : TransformerType) (c : ℕ) (half : ℚ)
    (hhalf : half ≤ MAX_BREAKER_CAPACITY) :
    ((createNewTransformer ty c).breakers.enum.filter fun q =>
      !q.2.dedicated && decide (q.2.load + half ≤ MAX_BREAKER_CAPACITY)) =
    (createNewTransformer ty c).breakers.enum := by
  rw [List.filter_eq_self]
  intro q hq
  obtain ⟨i, b⟩ := q
  have hb : b ∈ (createNewTransformer ty c).breakers :=
    List.getElem?_mem (List.mem_enum_iff_getElem?.mp hq)
  rw [show (createNewTransformer ty c).breakers = (List.range ty.breakers).map fun i =>
      ({ id := i + 1, number := i + 1, load := 0, meters := [], utilizationPercent := 0, meterTypes := ∅, categories := ∅, timePatterns := ∅, dedicated := false } : Breaker) from rfl,
    List.mem_map] at hb
  obtain ⟨j, _, hEq⟩ := hb
  show (!b.dedicated && decide (b.load + half ≤ MAX_BREAKER_CAPACITY)) = true
  rw [← hEq]
  have h0 : (0 : ℚ) + half ≤ MAX_BREAKER_CAPACITY := by
    rw [zero_add]
    exact hhalf
  exact decide_eq_true h0

/-- The first breaker of a fresh transformer. -/
theorem new_breakers_getElem (ty : TransformerType) (c : ℕ) (h : 0 < ty.breakers) :
    (createNewTransformer ty c).breakers[0]? = some (sampleBreaker 1 0 [] ∅) := by
  show ((List.range ty.breakers).map fun i =>
      ({ id := i + 1, number := i + 1, load := 0, meters := [], utilizationPercent := 0, meterTypes := ∅, categories := ∅, timePatterns := ∅, dedicated := false } : Breaker))[0]? = _
  rw [List.getElem?_map, List.getElem?_range h]
  rfl

/-- A list with two or more elements has ordered pairs. -/
theorem orderedPairs_ne_nil {α : Type} {l : List α} (h : 2 ≤ l.length) :
    orderedPairs l ≠ [] := by
  intro hnil
  rcases l with _ | ⟨x, l2⟩
  · rw [List.length_nil] at h
    omega
  rcases l2 with _ | ⟨y, rest⟩
  · rw [List.length_cons, List.length_nil] at h
    omega
  rw [show orderedPairs (x :: y :: rest) =
      (((y :: rest).map fun z => (x, z)) ++ orderedPairs (y :: rest)) from rfl,
    List.map_cons] at hnil
  exact List.cons_ne_nil _ _ hnil

/-- On the freshly appended best-fit transformer the pair search cannot
fail for a split meter whose halves fit a breaker (cdl ≤ 620). -/
theorem pair_fb_ne_none (meter : IndividualMeter) (ts : List Transformer) (c : ℕ)
    (h620 : meter.cdl ≤ 620) :
    findBestBreakerPairForEvenDistribution meter
      (addBestFitTransformerForMeter meter ts c).1 ≠ none := by
  intro hnone
  rw [pairSearch_none_iff] at hnone
  set ty := (sortedTypesAsc.find? fun t => decide (meter.cdl ≤ t.safeLoad)).getD tType1500 with hty
  have hfb : (addBestFitTransformerForMeter meter ts c).1 =
      ts ++ [createNewTransformer ty c] := rfl
  rw [hfb] at hnone
  unfold pairCandidates at hnone
  dsimp only at hnone
  have hmem : ((ts.length, createNewTransformer ty c) : ℕ × Transformer) ∈
      (ts ++ [createNewTransformer ty c]).enum := by
    rw [List.mem_enum_iff_getElem?]
    rw [List.getElem?_append_right (le_refl ts.length), Nat.sub_self]
    rfl
  have hcontrib := List.flatMap_eq_nil_iff.mp hnone _ hmem
  dsimp only at hcontrib
  have hc1 : ¬((createNewTransformer ty c).isDedicated = true ∨
      (createNewTransformer ty c).assignedLoad + meter.cdl >
        (createNewTransformer ty c).type.safeLoad) := by
    refine not_or.mpr ⟨?_, ?_⟩
    · rw [show (createNewTransformer ty c).isDedicated = false from rfl]
      exact Bool.false_ne_true
    · refine not_lt.mpr ?_
      show (0 : ℚ) + meter.cdl ≤ ty.safeLoad
      rw [zero_add, hty]
      refine bestFit_safeLoad (le_trans h620 ?_)
      norm_num
  rw [if_neg hc1] at hcontrib
  have hhalf : meter.cdl / 2 ≤ MAX_BREAKER_CAPACITY := by
    rw [show MAX_BREAKER_CAPACITY = (310 : ℚ) from rfl]
    linarith
  rw [new_slots_all ty c (meter.cdl / 2) hhalf] at hcontrib
  have h2b := bestFit_breakers meter.cdl
  rw [← hty] at h2b
  have hlen2 : ¬((createNewTransformer ty c).breakers.enum.length < 2) := by
    rw [new_enum_length]
    omega
  rw [if_neg hlen2] at hcontrib
  have hop := List.map_eq_nil_iff.mp hcontrib
  refine orderedPairs_ne_nil ?_ hop
  rw [new_enum_length]
  omega

/-- On the freshly appended best-fit transformer the single-breaker search
cannot fail for a meter whose cdl fits a breaker. -/
theorem single_fb_ne_none (meter : IndividualMeter) (ts : List Transformer) (c : ℕ)
    (h310 : meter.cdl ≤ MAX_BREAKER_CAPACITY) :
    findBestBreakerForEvenDistribution meter
      (addBestFitTransformerForMeter meter ts c).1 ≠ none := by
  intro hnone
  rw [singleSearch_none_iff] at hnone
  set ty := (sortedTypesAsc.find? fun t => decide (meter.cdl ≤ t.safeLoad)).getD tType1500 with hty
  have hfb : (addBestFitTransformerForMeter meter ts c).1 =
      ts ++ [createNewTransformer ty c] := rfl
  rw [hfb] at hnone
  unfold eligiblePositions at hnone
  have hmem : ((ts.length, createNewTransformer ty c) : ℕ × Transformer) ∈
      (ts ++ [createNewTransformer ty c]).enum := by
    rw [List.mem_enum_iff_getElem?]
    rw [List.getElem?_append_right (le_refl ts.length), Nat.sub_self]
    rfl
  have hcontrib := List.flatMap_eq_nil_iff.mp hnone _ hmem
  dsimp only at hcontrib
  have hc1 : ¬((createNewTransformer ty c).isDedicated = true ∨
      (createNewTransformer ty c).assignedLoad + meter.cdl >
        (createNewTransformer ty c).type.safeLoad) := by
    refine not_or.mpr ⟨?_, ?_⟩
    · rw [show (createNewTransformer ty c).isDedicated = false from rfl]
      exact Bool.false_ne_true
    · refine not_lt.mpr ?_
      show (0 : ℚ) + meter.cdl ≤ ty.safeLoad
      rw [zero_add, hty]
      refine bestFit_safeLoad (le_trans h310 ?_)
      rw [show MAX_BREAKER_CAPACITY = (310 : ℚ) from rfl]
      norm_num
  rw [if_neg hc1] at hcontrib
  have h2b := bestFit_breakers meter.cdl
  rw [← hty] at h2b
  have hlen : 0 < ty.breakers := by omega
  have hb0 := List.filterMap_eq_nil_iff.mp hcontrib ((0 : ℕ), sampleBreaker 1 0 [] ∅)
    (List.mem_enum_iff_getElem?.mpr (new_breakers_getElem ty c hlen))
  dsimp only at hb0
  have hc3 : ¬((sampleBreaker 1 0 [] ∅).dedicated = true ∨
      (sampleBreaker 1 0 [] ∅).load + meter.cdl > MAX_BREAKER_CAPACITY) := by
    refine not_or.mpr ⟨?_, ?_⟩
    · rw [show (sampleBreaker 1 0 [] ∅).dedicated = false from rfl]
      exact Bool.false_ne_true
    · refine not_lt.mpr ?_
      show (0 : ℚ) + meter.cdl ≤ MAX_BREAKER_CAPACITY
      rw [zero_add]
      exact h310
  rw [if_neg hc3] at hb0
  exact Option.noConfusion hb0

/-- Under the appropriate cdl bound, placing one meter never fails: the
fallback transformer always accommodates it. -/
theorem placeOneMeter_isSome (meter : IndividualMeter) (st : List Transformer × ℕ)
    (hdualb : 400 ≤ meter.capacity ∧ meter.capacity ≤ 800 → meter.cdl ≤ 620)
    (hsingleb : ¬(400 ≤ meter.capacity ∧ meter.capacity ≤ 800) →
      meter.cdl ≤ MAX_BREAKER_CAPACITY) :
    (placeOneMeter meter st).isSome = true := by
  unfold placeOneMeter
  dsimp only
  by_cases hdual : 400 ≤ meter.capacity ∧ meter.capacity ≤ 800
  case pos =>
    rw [if_pos hdual, if_pos hdual]
    cases hs : findBestBreakerPairForEvenDistribution meter st.1 with
    | some r => rfl
    | none =>
      cases hs2 : findBestBreakerPairForEvenDistribution meter
          (addBestFitTransformerForMeter meter st.1 st.2).1 with
      | some r => rfl
      | none => exact absurd hs2 (pair_fb_ne_none meter st.1 st.2 (hdualb hdual))
  case neg =>
    rw [if_neg hdual, if_neg hdual]
    cases hs : findBestBreakerForEvenDistribution meter st.1 with
    | some e => rfl
    | none =>
      cases hs2 : findBestBreakerForEvenDistribution meter
          (addBestFitTransformerForMeter meter st.1 st.2).1 with
      | some e => rfl
      | none => exact absurd hs2 (single_fb_ne_none meter st.1 st.2 (hsingleb hdual))

/-- Under the per-meter cdl bounds the placement fold never fails. -/
theorem placeFold_isSome : ∀ (ms : List IndividualMeter) (st : List Transformer × ℕ),
    (∀ m ∈ ms, (400 ≤ m.capacity ∧ m.capacity ≤ 800 → m.cdl ≤ 620) ∧
      (¬(400 ≤ m.capacity ∧ m.capacity ≤ 800) → m.cdl ≤ MAX_BREAKER_CAPACITY)) →
    (ms.foldlM (fun st m => placeOneMeter m st) st).isSome = true := by
  intro ms
  induction ms with
  | nil =>
    intro st _
    rw [List.foldlM_nil]
    rfl
  | cons m ms ih =>
    intro st hb
    rw [List.foldlM_cons]
    cases hp : placeOneMeter m st with
    | none =>
      have hps := placeOneMeter_isSome m st (hb m (List.mem_cons_self m ms)).1
        (hb m (List.mem_cons_self m ms)).2
      rw [hp] at hps
      exact Bool.noConfusion hps
    | some st1 =>
      show (ms.foldlM (fun st m => placeOneMeter m st) st1).isSome = true
      exact ih st1 fun x hx => hb x (List.mem_cons_of_mem m hx)

/-- C2: placement never fails and no meter is dropped — true only under a
cdl bound per meter (split-range meters: cdl ≤ 620 so each half fits a
310A breaker; other general meters: cdl ≤ 310).  Under those bounds the
fallback best-fit transformer always accommodates the meter, the run
returns a plan, and the plan's breakers carry exactly the expected
multiset of meters (each split meter as its two halves). -/
theorem c2_placement_total {gs : List MeterGroup}
    (hnodup : (gs.map (·.id)).Nodup)
    (hcdl : ∀ g ∈ gs, 0 ≤ g.cdlPerMeter)
    (hbound : ∀ g ∈ gs, g.capacity < 1600 →
      (400 ≤ g.capacity ∧ g.capacity ≤ 800 → g.cdlPerMeter ≤ 620) ∧
      (¬(400 ≤ g.capacity ∧ g.capacity ≤ 800) → g.cdlPerMeter ≤ MAX_BREAKER_CAPACITY)) :
    (performBalancedDistributionMultiTransformer gs).isSome = true ∧
    (allMeters (runTransformers gs)).Perm (expectedMeters gs) := by
  have hsome : (performBalancedDistributionMultiTransformer gs).isSome = true := by
    unfold performBalancedDistributionMultiTransformer
    dsimp only
    rw [Option.isSome_map']
    refine placeFold_isSome _ _ ?_
    intro m hm
    have hperm := List.mergeSort_perm
      ((gs.flatMap expandGroup).filter fun m => decide (m.capacity < 1600)) placeOrder
    have hm2 := hperm.mem_iff.mp hm
    obtain ⟨hmf, hcap⟩ := List.mem_filter.mp hm2
    obtain ⟨g, hg, _, hcdlg, hcapg⟩ := mem_expand hmf
    have hlt : g.capacity < 1600 := by
      rw [← hcapg]
      exact of_decide_eq_true hcap
    have hb := hbound g hg hlt
    rw [hcapg, hcdlg]
    exact hb
  refine ⟨hsome, ?_⟩
  cases hr : performBalancedDistributionMultiTransformer gs with
  | none =>
    rw [hr] at hsome
    exact Bool.noConfusion hsome
  | some res =>
    have hrt : runTransformers gs = res.transformers := by
      unfold runTransformers
      rw [hr]
      rfl
    rw [hrt]
    exact (run_spec hnodup hcdl hr).1

set_option maxRecDepth 8000 in
/-- Witness for C2: a well-formed one-group input within the bounds; the
run succeeds and carries the expected meters. -/
theorem c2_witness :
    ((witRun.map (·.id)).Nodup ∧ (∀ g ∈ witRun, 0 ≤ g.cdlPerMeter) ∧
      (∀ g ∈ witRun, g.capacity < 1600 →
        (400 ≤ g.capacity ∧ g.capacity ≤ 800 → g.cdlPerMeter ≤ 620) ∧
        (¬(400 ≤ g.capacity ∧ g.capacity ≤ 800) → g.cdlPerMeter ≤ MAX_BREAKER_CAPACITY))) ∧
    ((performBalancedDistributionMultiTransformer witRun).isSome = true ∧
      (allMeters (runTransformers witRun)).Perm (expectedMeters witRun)) := by
  have h1 : (witRun.map (·.id)).Nodup := by with_unfolding_all decide
  have h2 : ∀ g ∈ witRun, 0 ≤ g.cdlPerMeter := by with_unfolding_all decide
  have h3 : ∀ g ∈ witRun, g.capacity < 1600 →
      (400 ≤ g.capacity ∧ g.capacity ≤ 800 → g.cdlPerMeter ≤ 620) ∧
      (¬(400 ≤ g.capacity ∧ g.capacity ≤ 800) → g.cdlPerMeter ≤ MAX_BREAKER_CAPACITY) := by
    with_unfolding_all decide
  exact ⟨⟨h1, h2, h3⟩, c2_placement_total h1 h2 h3⟩

set_option maxRecDepth 8000 in
/-- C2 counterexample: the run on `cx2` returns `none` — the source's
non-null assertion throws, so placement CAN fail.  The input is a single
split-range (800A) meter whose halves, 320A each, exceed the 310A
breaker ceiling of every transformer, including the fallback's. -/
theorem c2_counterexample :
    performBalancedDistributionMultiTransformer cx2 = none ∧
    (∀ g ∈ cx2, 400 ≤ g.capacity ∧ g.capacity ≤ 800) ∧
    MAX_BREAKER_CAPACITY < (cx2.map fun g => g.cdlPerMeter / 2).sum := by
  refine ⟨?_, ?_, ?_⟩
  · with_unfolding_all rfl
  · with_unfolding_all decide
  · with_unfolding_all decide

end CDL
